import Mathlib

/-!
Shallow embedding of the `nachricht` wire format codec (crate `nachricht`,
files `src/header.rs` and `src/value.rs`, plus `Serializer::serialize_i64`
from `nachricht-serde/src/ser.rs`), together with proofs of the
specification's claims about it.

Modelling conventions:
* Machine bytes (`u8`) are `Nat`s; a buffer (`&[u8]` / `Vec<u8>`) is a
  `List Nat`.  Theorems that quantify over arbitrary input buffers carry the
  hypothesis that every entry is `< 256` where it matters.
* `u64` is `Nat` with explicit `< 2 ^ 64` side conditions and explicit
  wrap-arounds where the Rust code relies on the machine width;
  `usize` is modelled as on a 64-bit host (conversion from `u64` always
  succeeds, conversion to `u64` checks `< 2 ^ 64` like `u64::try_from`).
* IEEE-754 floats are carried as their big-endian byte patterns (the codec
  never interprets them, it only moves 4 or 8 bytes).
* Rust strings are carried as their UTF-8 byte lists; `str::from_utf8` is
  modelled by the executable validity check `validUtf8`.
* A `Write` sink is modelled by returning the written byte list; `io::Error`
  therefore never occurs.  Fallible allocation (`try_reserve`) is modelled
  by a predicate `alloc : Nat → Bool` saying which capacity reservations
  succeed; the entry point `Decoder.decode` runs on a host with enough
  memory (`fun _ => true`).
-/

namespace Nachricht

/-- The sign of an integer (`Sign` in `header.rs`). -/
inductive Sign where
  | Pos
  | Neg
deriving DecidableEq

/-- The three-bit code of a header lead byte (`Code` in `header.rs`). -/
inductive Code where
  | BIN
  | INT
  | STR
  | SYM
  | ARR
  | REC
  | MAP
  | REF
deriving DecidableEq

/-- Numeric value of a code (`Code as u8`, `#[repr(u8)]`). -/
def Code.toNat : Code → Nat
  | .BIN => 0
  | .INT => 1
  | .STR => 2
  | .SYM => 3
  | .ARR => 4
  | .REC => 5
  | .MAP => 6
  | .REF => 7

/-- The minimum payload value that does not fit into `sz` and needs multibyte
encoding for the given code (`Code::sz_limit`). -/
def Code.sz_limit : Code → Nat
  | .INT => (1 <<< 4) - 8
  | .BIN => (1 <<< 5) - 8 - 5
  | _    => (1 <<< 5) - 8

-- sz values of the five fixed variants (header.rs constants; the float
-- entries are suffixed with _SZ to keep them apart from the header
-- constructors of the same name)
def NIL : Nat := 0
def TRU : Nat := 1
def FAL : Nat := 2
def F32_SZ : Nat := 3
def F64_SZ : Nat := 4

-- Signs as bits (header.rs constants POS and NEG)
def POS : Nat := 0
def NEG : Nat := 1

/-- Numeric value of a sign bit (`Sign::code`). -/
def Sign.code : Sign → Nat
  | .Pos => POS
  | .Neg => NEG

/-- A wire header (`Header` in `header.rs`). -/
inductive Header where
  /-- Also known as unit or nil -/
  | Null
  /-- The boolean value true -/
  | True
  /-- The boolean value false -/
  | False
  /-- The following four bytes contain a 32-bit float, big endian -/
  | F32
  /-- The following eight bytes contain a 64-bit float, big endian -/
  | F64
  /-- Length of a following byte array -/
  | Bin (len : Nat)
  /-- Integer with sign and magnitude -/
  | Int (s : Sign) (v : Nat)
  /-- Length in bytes of a following unicode string -/
  | Str (len : Nat)
  /-- Length in bytes of a symbol, which is inserted into the symbol table -/
  | Sym (len : Nat)
  /-- Length in fields of an array -/
  | Arr (len : Nat)
  /-- Length in entries of a record: the header is followed by all keys and
  then by all values -/
  | Rec (len : Nat)
  /-- Length in entries of a map, encoded as key value key value ... -/
  | Map (len : Nat)
  /-- A reference into the symbol table -/
  | Ref (idx : Nat)
deriving DecidableEq

/-- Decode errors (`DecodeError` in `error.rs`, the variants raised by
`header.rs` and `value.rs`). -/
inductive DecodeError where
  | eof
  | utf8
  | illegalKey (typename : String)
  | invalidRef (idx : Nat)
  | length (v : Nat)
  | allocation
deriving DecidableEq

/-- A decode error annotated with the byte offset at which decoding failed
(`DecoderError` in `error.rs`). -/
structure DecoderError where
  inner : DecodeError
  at_ : Nat
deriving DecidableEq

/-- Encode errors (`EncodeError` in `error.rs`).  The model writes into a
pure buffer, so `Io` never occurs. -/
inductive EncodeError where
  | io
  | length (v : Nat)
deriving DecidableEq

namespace Header

/-- The mnemonic of the header, used in error messages (`Header::name`). -/
def name : Header → String
  | .Null    => "Null"
  | .True    => "True"
  | .False   => "False"
  | .F32     => "F32"
  | .F64     => "F64"
  | .Bin _   => "Bin"
  | .Int _ _ => "Int"
  | .Str _   => "Str"
  | .Sym _   => "Sym"
  | .Arr _   => "Arr"
  | .Rec _   => "Rec"
  | .Map _   => "Map"
  | .Ref _   => "Ref"

/-- The code of a header (`Header::code`). -/
def code : Header → Code
  | .Null | .True | .False | .F32 | .F64 | .Bin _ => .BIN
  | .Int _ _ => .INT
  | .Str _   => .STR
  | .Sym _   => .SYM
  | .Arr _   => .ARR
  | .Rec _   => .REC
  | .Map _   => .MAP
  | .Ref _   => .REF

/-- The bits the code contributes to the lead byte (`Header::code_bits`);
for integers this includes the sign bit. -/
def code_bits : Header → Nat
  | .Int s _ => ((Code.INT.toNat) <<< 1) ||| s.code
  | h        => h.code.toNat

/-- How far the code bits are shifted within the lead byte
(`Header::shift`). -/
def shift : Header → Nat
  | .Int _ _ => 4
  | _        => 5

/-- The number of bytes needed to encode this value (`Header::size`). -/
def size (value : Nat) : Nat :=
  if value < 1 <<< 8 then 1
  else if value < 1 <<< 16 then 2
  else if value < 1 <<< 24 then 3
  else if value < 1 <<< 32 then 4
  else if value < 1 <<< 40 then 5
  else if value < 1 <<< 48 then 6
  else if value < 1 <<< 56 then 7
  else 8

/-- `u64::try_from(usize)` (`Header::to_u64`): on the modelled 64-bit host a
length only fails to convert when it exceeds the `u64` range. -/
def to_u64 (value : Nat) : Except EncodeError Nat :=
  if value < 2 ^ 64 then .ok value else .error (.length value)

/-- `usize::try_from(u64)` (`Header::to_usize`): always succeeds on the
modelled 64-bit host. -/
def to_usize (value : Nat) : Except DecodeError Nat :=
  .ok value

/-- The eight big-endian bytes of a `u64` (`u64::to_be_bytes`). -/
def to_be_bytes (i : Nat) : List Nat :=
  [i / 2 ^ 56 % 256, i / 2 ^ 48 % 256, i / 2 ^ 40 % 256, i / 2 ^ 32 % 256,
   i / 2 ^ 24 % 256, i / 2 ^ 16 % 256, i / 2 ^ 8 % 256, i % 256]

/-- The value of big-endian bytes (`u64::from_be_bytes`; the source pads the
decoded slice with leading zero bytes to width eight, which does not change
the folded value). -/
def from_be_bytes (bytes : List Nat) : Nat :=
  bytes.foldl (fun acc b => acc * 256 + b) 0

/-- The `Bin` offset used by `Header::encode_long_header`
(`let offset = match *self { Header::Bin(_) => 5, _ => 0 }`). -/
def offset : Header → Nat
  | .Bin _ => 5
  | _      => 0

/-- Model of `Header::encode_long_header`: the lead byte and, when the value
does not fit inline, the minimal big-endian tail. -/
def encode_long_header (h : Header) (i : Nat) : List Nat :=
  let limit := h.code.sz_limit
  if i < limit then
    [h.code_bits <<< h.shift ||| (i + h.offset)]
  else
    let sz := size i
    (h.code_bits <<< h.shift ||| (sz + limit + h.offset - 1))
      :: (to_be_bytes i).drop (8 - sz)

/-- Model of `Header::encode`: the bytes written for one header. -/
def encode : Header → Except EncodeError (List Nat)
  | .Null  => .ok [Header.Null.code_bits <<< Header.Null.shift ||| NIL]
  | .True  => .ok [Header.True.code_bits <<< Header.True.shift ||| TRU]
  | .False => .ok [Header.False.code_bits <<< Header.False.shift ||| FAL]
  | .F32   => .ok [Header.F32.code_bits <<< Header.F32.shift ||| F32_SZ]
  | .F64   => .ok [Header.F64.code_bits <<< Header.F64.shift ||| F64_SZ]
  -- Header::Int(Sign::Neg, 0) delegates to Header::Int(Sign::Pos, 0).encode
  | .Int .Neg 0 => .ok ((Header.Int .Pos 0).encode_long_header 0)
  | .Int .Pos i => .ok ((Header.Int .Pos i).encode_long_header i)
  | .Int .Neg i => .ok ((Header.Int .Neg i).encode_long_header (i - 1))
  | .Bin i => (to_u64 i).map (Header.Bin i).encode_long_header
  | .Str i => (to_u64 i).map (Header.Str i).encode_long_header
  | .Sym i => (to_u64 i).map (Header.Sym i).encode_long_header
  | .Arr i => (to_u64 i).map (Header.Arr i).encode_long_header
  | .Rec i => (to_u64 i).map (Header.Rec i).encode_long_header
  | .Map i => (to_u64 i).map (Header.Map i).encode_long_header
  | .Ref i => (to_u64 i).map (Header.Ref i).encode_long_header

/-- Model of `Header::decode_u64`: the payload value carried by `sz` and the
following bytes, plus how many of those bytes were consumed. -/
def decode_u64 (buf : List Nat) (sz limit : Nat) :
    Except DecodeError (Nat × Nat) :=
  if sz < limit then
    .ok (sz, 0)
  else
    let bytes := sz - limit + 1
    if buf.length < bytes then
      .error .eof
    else
      .ok (from_be_bytes (buf.take bytes), bytes)

/-- `u64::saturating_add 1` on the decoded negative magnitude. -/
def saturating_add_one (i : Nat) : Nat :=
  min (i + 1) (2 ^ 64 - 1)

/-- Model of `Header::decode`: the decoded header and the number of consumed
bytes.  The lead byte is a `u8` in the source; the catch-all arms of the two
numeric matches are unreachable for byte-valued input (`b >>> 5 ≤ 7` and the
sign bit is 0 or 1). -/
def decode (buf : List Nat) : Except DecodeError (Header × Nat) :=
  match buf with
  | [] => .error .eof
  | b :: rest =>
    let sz := b &&& ((1 <<< 5) - 1)
    match b >>> 5 with
    | 0 =>
      match sz with
      | 0 => .ok (.Null, 1)
      | 1 => .ok (.True, 1)
      | 2 => .ok (.False, 1)
      | 3 => .ok (.F32, 1)
      | 4 => .ok (.F64, 1)
      | x => (decode_u64 rest (x - 5) Code.BIN.sz_limit).bind fun ic =>
          (to_usize ic.1).map fun u => (.Bin u, ic.2 + 1)
    | 1 =>
      let sign := sz >>> 4
      let sz4 := sz &&& ((1 <<< 4) - 1)
      match sign with
      | 0 => (decode_u64 rest sz4 Code.INT.sz_limit).map fun ic =>
          (.Int .Pos ic.1, ic.2 + 1)
      | _ => (decode_u64 rest sz4 Code.INT.sz_limit).map fun ic =>
          (.Int .Neg (saturating_add_one ic.1), ic.2 + 1)
    | 2 => (decode_u64 rest sz Code.STR.sz_limit).bind fun ic =>
        (to_usize ic.1).map fun u => (.Str u, ic.2 + 1)
    | 3 => (decode_u64 rest sz Code.SYM.sz_limit).bind fun ic =>
        (to_usize ic.1).map fun u => (.Sym u, ic.2 + 1)
    | 4 => (decode_u64 rest sz Code.ARR.sz_limit).bind fun ic =>
        (to_usize ic.1).map fun u => (.Arr u, ic.2 + 1)
    | 5 => (decode_u64 rest sz Code.REC.sz_limit).bind fun ic =>
        (to_usize ic.1).map fun u => (.Rec u, ic.2 + 1)
    | 6 => (decode_u64 rest sz Code.MAP.sz_limit).bind fun ic =>
        (to_usize ic.1).map fun u => (.Map u, ic.2 + 1)
    | 7 => (decode_u64 rest sz Code.REF.sz_limit).bind fun ic =>
        (to_usize ic.1).map fun u => (.Ref u, ic.2 + 1)
    | _ => .error .eof

end Header

/-! ## UTF-8 validity

`value.rs` validates decoded string slices with `std::str::from_utf8`.  The
check below is the standard UTF-8 validity condition that function enforces
(ASCII, or a well-formed 2-, 3- or 4-byte sequence excluding overlong forms
and surrogates). -/

/-- A UTF-8 continuation byte. -/
def utf8Cont (b : Nat) : Prop := 0x80 ≤ b ∧ b ≤ 0xBF

instance : DecidablePred utf8Cont := fun _ => instDecidableAnd

/-- Model of the validity condition checked by `std::str::from_utf8`. -/
def validUtf8 : List Nat → Bool
  | [] => Bool.true
  | b1 :: rest =>
    if b1 < 0x80 then
      validUtf8 rest
    else if 0xC2 ≤ b1 ∧ b1 ≤ 0xDF then
      match rest with
      | b2 :: r => if utf8Cont b2 then validUtf8 r else Bool.false
      | [] => Bool.false
    else if 0xE0 ≤ b1 ∧ b1 ≤ 0xEF then
      match rest with
      | b2 :: b3 :: r =>
        if ((b1 = 0xE0 ∧ 0xA0 ≤ b2 ∧ b2 ≤ 0xBF) ∨
            (0xE1 ≤ b1 ∧ b1 ≤ 0xEC ∧ utf8Cont b2) ∨
            (b1 = 0xED ∧ 0x80 ≤ b2 ∧ b2 ≤ 0x9F) ∨
            (0xEE ≤ b1 ∧ utf8Cont b2)) ∧ utf8Cont b3 then
          validUtf8 r
        else Bool.false
      | _ => Bool.false
    else if 0xF0 ≤ b1 ∧ b1 ≤ 0xF4 then
      match rest with
      | b2 :: b3 :: b4 :: r =>
        if ((b1 = 0xF0 ∧ 0x90 ≤ b2 ∧ b2 ≤ 0xBF) ∨
            (0xF1 ≤ b1 ∧ b1 ≤ 0xF3 ∧ utf8Cont b2) ∨
            (b1 = 0xF4 ∧ 0x80 ≤ b2 ∧ b2 ≤ 0x8F)) ∧
            utf8Cont b3 ∧ utf8Cont b4 then
          validUtf8 r
        else Bool.false
      | _ => Bool.false
    else Bool.false

/-! ## The value model (`value.rs`)

`Value::Record` is a `BTreeMap<Cow<str>, Value>`; it is modelled as an
association list whose keys are strictly increasing in the byte-wise
lexicographic order that `str`'s `Ord` instance uses (the `BTreeMap`
invariant).  Strings are their UTF-8 byte lists, floats their big-endian
byte patterns. -/

/-- The possible values according to the `nachricht` data model
(`Value` in `value.rs`). -/
inductive Value where
  | null
  | bool (b : Bool)
  /-- The four big-endian bytes of an `f32` (the codec moves the bit
  pattern; it never interprets it). -/
  | f32 (bits : List Nat)
  /-- The eight big-endian bytes of an `f64`. -/
  | f64 (bits : List Nat)
  | bytes (data : List Nat)
  | int (s : Sign) (v : Nat)
  | str (s : List Nat)
  | symbol (s : List Nat)
  /-- A `BTreeMap<Cow<str>, Value>`: an association list sorted strictly by
  key in byte-lexicographic order. -/
  | record (fields : List (List Nat × Value))
  | map (pairs : List (Value × Value))
  | array (elems : List Value)

/-- Name of a value's type, used by the `IllegalKey` error
(`Value::typename`). -/
def Value.typename : Value → String
  | .null     => "null"
  | .bool _   => "bool"
  | .f32 _    => "f32"
  | .f64 _    => "f64"
  | .bytes _  => "bytes"
  | .int _ _  => "integer"
  | .str _    => "string"
  | .symbol _ => "symbol"
  | .record _ => "record"
  | .map _    => "map"
  | .array _  => "array"

/-- Byte-wise lexicographic strict order on byte strings: the order of
`str`'s `Ord` instance, which `BTreeMap<Cow<str>, _>` sorts by. -/
def bytesLt : List Nat → List Nat → Bool
  | [], [] => Bool.false
  | [], _ :: _ => Bool.true
  | _ :: _, [] => Bool.false
  | a :: as_, b :: bs => if a < b then Bool.true else if a = b then bytesLt as_ bs else Bool.false

/-- `BTreeMap::insert` on the sorted-association-list model: replace an
existing binding or insert at the ordered position. -/
def mapInsert (m : List (List Nat × Value)) (k : List Nat) (v : Value) :
    List (List Nat × Value) :=
  match m with
  | [] => [(k, v)]
  | (k', v') :: rest =>
    if bytesLt k k' then (k, v) :: (k', v') :: rest
    else if k = k' then (k, v) :: rest
    else (k', v') :: mapInsert rest k v

/-- The `BTreeMap` key invariant: keys strictly increasing. -/
def sortedKeys : List (List Nat) → Bool
  | [] => Bool.true
  | [_] => Bool.true
  | k1 :: k2 :: rest => bytesLt k1 k2 && sortedKeys (k2 :: rest)

mutual

/-- The normalization performed by a `decode(encode ·)` round trip: every
`Int(Neg, 0)` becomes `Int(Pos, 0)` (see `Header::encode` and the `Sign`
documentation in `header.rs`); everything else is preserved. -/
def Value.norm : Value → Value
  | .null => .null
  | .bool b => .bool b
  | .f32 bits => .f32 bits
  | .f64 bits => .f64 bits
  | .bytes data => .bytes data
  | .int .Neg 0 => .int .Pos 0
  | .int s v => .int s v
  | .str s => .str s
  | .symbol s => .symbol s
  | .record fields => .record (Value.normFields fields)
  | .map pairs => .map (Value.normPairs pairs)
  | .array elems => .array (Value.normList elems)

def Value.normFields : List (List Nat × Value) → List (List Nat × Value)
  | [] => []
  | (k, v) :: rest => (k, v.norm) :: Value.normFields rest

def Value.normPairs : List (Value × Value) → List (Value × Value)
  | [] => []
  | (k, v) :: rest => (k.norm, v.norm) :: Value.normPairs rest

def Value.normList : List Value → List Value
  | [] => []
  | v :: rest => v.norm :: Value.normList rest

end

mutual

/-- Does the value avoid `Int(Neg, 0)` everywhere?  (The side condition of
the round-trip property P1.) -/
def Value.noNegZero : Value → Bool
  | .int .Neg 0 => Bool.false
  | .record fields => Value.noNegZeroFields fields
  | .map pairs => Value.noNegZeroPairs pairs
  | .array elems => Value.noNegZeroList elems
  | _ => Bool.true

def Value.noNegZeroFields : List (List Nat × Value) → Bool
  | [] => Bool.true
  | (_, v) :: rest => v.noNegZero && Value.noNegZeroFields rest

def Value.noNegZeroPairs : List (Value × Value) → Bool
  | [] => Bool.true
  | (k, v) :: rest => k.noNegZero && v.noNegZero && Value.noNegZeroPairs rest

def Value.noNegZeroList : List Value → Bool
  | [] => Bool.true
  | v :: rest => v.noNegZero && Value.noNegZeroList rest

end

mutual

/-- The model-typing invariant of a `Value`, everything the Rust types
guarantee by construction: integer magnitudes are `u64`s, float patterns
have the right width, strings hold valid UTF-8, and record field maps
satisfy the `BTreeMap` invariant (strictly sorted keys of valid UTF-8). -/
def Value.wf : Value → Bool
  | .null => Bool.true
  | .bool _ => Bool.true
  | .f32 bits => bits.length = 4
  | .f64 bits => bits.length = 8
  | .bytes _ => Bool.true
  | .int _ v => decide (v < 2 ^ 64)
  | .str s => validUtf8 s
  | .symbol s => validUtf8 s
  | .record fields =>
      sortedKeys (fields.map Prod.fst) &&
      (fields.map Prod.fst).all validUtf8 &&
      Value.wfFields fields
  | .map pairs => Value.wfPairs pairs
  | .array elems => Value.wfList elems

def Value.wfFields : List (List Nat × Value) → Bool
  | [] => Bool.true
  | (_, v) :: rest => v.wf && Value.wfFields rest

def Value.wfPairs : List (Value × Value) → Bool
  | [] => Bool.true
  | (k, v) :: rest => k.wf && v.wf && Value.wfPairs rest

def Value.wfList : List Value → Bool
  | [] => Bool.true
  | v :: rest => v.wf && Value.wfList rest

end


/-! ## The decoder (`Decoder` in `value.rs`)

The Rust decoder's recursion is bounded by the input: every recursive
`decode_value` call first consumes at least one header byte.  The model makes
this explicit with a fuel parameter that decreases on every nested call; the
entry point supplies `buf.length + 1` fuel, which theorem `decode_fuel_eq`
(claim C7) shows is always enough.  The host allocator behind `try_reserve`
is modelled by a predicate `alloc` saying which capacity reservations
succeed. -/

/-- A symbol-table entry of the decoder (`Refable` in `value.rs`). -/
inductive Refable where
  | Sym (s : List Nat)
  | Rec (layout : List (List Nat))
deriving DecidableEq

/-- The state of a `Decoder`: input buffer, cursor and symbol table. -/
structure DecState where
  buf : List Nat
  pos : Nat
  symbols : List Refable
deriving DecidableEq

/-- Decode results: either a value and the updated state, or a decode error
together with the cursor position at which it was raised (the position
`Decoder::decode` reports). -/
abbrev DecResult (α : Type) := Except (DecodeError × Nat) α

/-- `Decoder::decode_header`: reads one header at the cursor. -/
def decodeHeader (st : DecState) : DecResult (Header × DecState) :=
  match Header.decode (st.buf.drop st.pos) with
  | .error e => .error (e, st.pos)
  | .ok (h, c) => .ok (h, { st with pos := st.pos + c })

/-- `Decoder::decode_slice`: reads `len` raw bytes at the cursor. -/
def decodeSlice (len : Nat) (st : DecState) : DecResult (List Nat × DecState) :=
  if (st.buf.drop st.pos).length < len then
    .error (.eof, st.pos)
  else
    .ok ((st.buf.drop st.pos).take len, { st with pos := st.pos + len })

/-- `Vec::try_reserve` through the allocator model: reserving fails with
`Allocation` exactly when the host cannot provide the capacity. -/
def tryReserve (alloc : Nat → Bool) (v : Nat) (st : DecState) :
    DecResult Unit :=
  if alloc v then .ok () else .error (.allocation, st.pos)

/-- The element loop of the `Arr` arm: `for _ in 0..v` pushing
`decode_value()?`. -/
def decodeList (dv : DecState → DecResult (Value × DecState)) :
    Nat → DecState → DecResult (List Value × DecState)
  | 0, st => .ok ([], st)
  | n + 1, st =>
    match dv st with
    | .error e => .error e
    | .ok (v, st₁) =>
      match decodeList dv n st₁ with
      | .error e => .error e
      | .ok (vs, st₂) => .ok (v :: vs, st₂)

/-- The pair loop of the `Map` arm. -/
def decodePairs (dv : DecState → DecResult (Value × DecState)) :
    Nat → DecState → DecResult (List (Value × Value) × DecState)
  | 0, st => .ok ([], st)
  | n + 1, st =>
    match dv st with
    | .error e => .error e
    | .ok (k, st₁) =>
      match dv st₁ with
      | .error e => .error e
      | .ok (v, st₂) =>
        match decodePairs dv n st₂ with
        | .error e => .error e
        | .ok (ps, st₃) => .ok ((k, v) :: ps, st₃)

/-- The key loop of the `Rec` arm: each key slot must decode to a
`Value::Symbol`; anything else raises `IllegalKey` with the value's type
name. -/
def decodeKeys (dv : DecState → DecResult (Value × DecState)) :
    Nat → DecState → DecResult (List (List Nat) × DecState)
  | 0, st => .ok ([], st)
  | n + 1, st =>
    match dv st with
    | .error e => .error e
    | .ok (.symbol s, st₁) =>
      match decodeKeys dv n st₁ with
      | .error e => .error e
      | .ok (ks, st₂) => .ok (s :: ks, st₂)
    | .ok (x, st₁) => .error (.illegalKey x.typename, st₁.pos)

/-- The value loop shared by the `Rec` arm and the `Ref`-to-layout arm:
`for key in keys { fields.insert(key, self.decode_value()?); }`. -/
def decodeFields (dv : DecState → DecResult (Value × DecState)) :
    List (List Nat) → List (List Nat × Value) → DecState →
    DecResult (List (List Nat × Value) × DecState)
  | [], fields, st => .ok (fields, st)
  | k :: ks, fields, st =>
    match dv st with
    | .error e => .error e
    | .ok (v, st₁) => decodeFields dv ks (mapInsert fields k v) st₁

/-- `Decoder::decode_value`, with explicit fuel (see the section comment).
Running out of fuel reports `Eof`; `decode_fuel_eq` shows the entry point's
fuel never runs out. -/
def decodeValue (alloc : Nat → Bool) : Nat → DecState → DecResult (Value × DecState)
  | 0, st => .error (.eof, st.pos)
  | fuel + 1, st =>
    match decodeHeader st with
    | .error e => .error e
    | .ok (h, st₁) =>
      match h with
      | .Null  => .ok (.null, st₁)
      | .True  => .ok (.bool Bool.true, st₁)
      | .False => .ok (.bool Bool.false, st₁)
      | .F32 =>
        match decodeSlice 4 st₁ with
        | .error e => .error e
        | .ok (bits, st₂) => .ok (.f32 bits, st₂)
      | .F64 =>
        match decodeSlice 8 st₁ with
        | .error e => .error e
        | .ok (bits, st₂) => .ok (.f64 bits, st₂)
      | .Bin v =>
        match decodeSlice v st₁ with
        | .error e => .error e
        | .ok (data, st₂) => .ok (.bytes data, st₂)
      | .Int s v => .ok (.int s v, st₁)
      | .Arr v =>
        match tryReserve alloc v st₁ with
        | .error e => .error e
        | .ok () =>
          match decodeList (decodeValue alloc fuel) v st₁ with
          | .error e => .error e
          | .ok (elems, st₂) => .ok (.array elems, st₂)
      | .Map v =>
        match tryReserve alloc v st₁ with
        | .error e => .error e
        | .ok () =>
          match decodePairs (decodeValue alloc fuel) v st₁ with
          | .error e => .error e
          | .ok (pairs, st₂) => .ok (.map pairs, st₂)
      | .Str v =>
        match decodeSlice v st₁ with
        | .error e => .error e
        | .ok (s, st₂) =>
          if validUtf8 s then .ok (.str s, st₂) else .error (.utf8, st₂.pos)
      | .Sym v =>
        match decodeSlice v st₁ with
        | .error e => .error e
        | .ok (s, st₂) =>
          if validUtf8 s then
            .ok (.symbol s, { st₂ with symbols := st₂.symbols ++ [.Sym s] })
          else .error (.utf8, st₂.pos)
      | .Rec v =>
        match tryReserve alloc v st₁ with
        | .error e => .error e
        | .ok () =>
          match decodeKeys (decodeValue alloc fuel) v st₁ with
          | .error e => .error e
          | .ok (keys, st₂) =>
            match decodeFields (decodeValue alloc fuel) keys []
                { st₂ with symbols := st₂.symbols ++ [.Rec keys] } with
            | .error e => .error e
            | .ok (fields, st₃) => .ok (.record fields, st₃)
      | .Ref v =>
        match st₁.symbols.get? v with
        | some (.Sym s) => .ok (.symbol s, st₁)
        | some (.Rec layout) =>
          match decodeFields (decodeValue alloc fuel) layout [] st₁ with
          | .error e => .error e
          | .ok (fields, st₂) => .ok (.record fields, st₂)
        | none => .error (.invalidRef v, st₁.pos)

/-- `Decoder::decode`: decode a single value from the buffer, reporting the
number of consumed bytes, with decode errors annotated with the failure
position.  Runs on a host with enough memory (every reservation succeeds);
`buf.length + 1` fuel is always sufficient (claim C7). -/
def Decoder.decode (buf : List Nat) : Except DecoderError (Value × Nat) :=
  match decodeValue (fun _ => Bool.true) (buf.length + 1) ⟨buf, 0, []⟩ with
  | .ok (v, st) => .ok (v, st.pos)
  | .error (e, p) => .error ⟨e, p⟩


/-! ## The encoder (`Encoder` in `value.rs`) -/

/-- Association-list lookup, the model of `HashMap::get` (the encoder only
ever inserts keys that are absent, so the first match is the only one). -/
def alookup {α β : Type} [DecidableEq α] : List (α × β) → α → Option β
  | [], _ => none
  | (k, v) :: rest, key => if key = k then some v else alookup rest key

/-- The state of an `Encoder`: the next free symbol-table index and the
text-to-index and layout-to-index maps. -/
structure EncState where
  next_free : Nat
  symbols : List (List Nat × Nat)
  records : List (List (List Nat) × Nat)
deriving DecidableEq

/-- The empty encoder state (`Encoder::encode` starts with empty maps). -/
def EncState.init : EncState := ⟨0, [], []⟩

/-- `Encoder::next`: claim the next free symbol-table index. -/
def EncState.next (e : EncState) : Nat × EncState :=
  (e.next_free, { e with next_free := e.next_free + 1 })

/-- `Encoder::encode_symbol`: emit a `Ref` to an interned symbol, or intern
it and emit a `Sym` header followed by its bytes. -/
def encodeSymbol (e : EncState) (symbol : List Nat) :
    Except EncodeError (List Nat × EncState) :=
  match alookup e.symbols symbol with
  | some i => ((Header.Ref i).encode).map fun hb => (hb, e)
  | none =>
    let (index, e₁) := e.next
    let e₂ := { e₁ with symbols := (symbol, index) :: e₁.symbols }
    match (Header.Sym symbol.length).encode with
    | .error err => .error err
    | .ok hb => .ok (hb ++ symbol, e₂)

/-- The key loop of `Encoder::encode_record`:
`for sym in inner.keys() { x += self.encode_symbol(sym)?; }`. -/
def encodeKeys : EncState → List (List Nat) → Except EncodeError (List Nat × EncState)
  | e, [] => .ok ([], e)
  | e, k :: ks =>
    match encodeSymbol e k with
    | .error err => .error err
    | .ok (B, e₁) =>
      match encodeKeys e₁ ks with
      | .error err => .error err
      | .ok (Bs, e₂) => .ok (B ++ Bs, e₂)

mutual

/-- `Encoder::encode_inner`: the bytes written for one value, together with
the updated symbol-table state. -/
def encodeInner : EncState → Value → Except EncodeError (List Nat × EncState)
  | e, .null => Header.Null.encode.map fun hb => (hb, e)
  | e, .bool Bool.true => Header.True.encode.map fun hb => (hb, e)
  | e, .bool Bool.false => Header.False.encode.map fun hb => (hb, e)
  | e, .f32 bits => Header.F32.encode.map fun hb => (hb ++ bits, e)
  | e, .f64 bits => Header.F64.encode.map fun hb => (hb ++ bits, e)
  | e, .bytes data => (Header.Bin data.length).encode.map fun hb => (hb ++ data, e)
  | e, .int s v => (Header.Int s v).encode.map fun hb => (hb, e)
  | e, .str s => (Header.Str s.length).encode.map fun hb => (hb ++ s, e)
  | e, .symbol s => encodeSymbol e s
  | e, .array elems =>
    match (Header.Arr elems.length).encode with
    | .error err => .error err
    | .ok hb =>
      match encodeList e elems with
      | .error err => .error err
      | .ok (B, e₁) => .ok (hb ++ B, e₁)
  | e, .record fields =>
    -- Encoder::encode_record, inlined so that the recursion stays structural
    match alookup e.records (fields.map Prod.fst) with
    | some i =>
      match (Header.Ref i).encode with
      | .error err => .error err
      | .ok hb =>
        match encodeFieldValues e fields with
        | .error err => .error err
        | .ok (B, e₁) => .ok (hb ++ B, e₁)
    | none =>
      match (Header.Rec fields.length).encode with
      | .error err => .error err
      | .ok hb =>
        match encodeKeys e (fields.map Prod.fst) with
        | .error err => .error err
        | .ok (KB, e₁) =>
          let (index, e₂) := e₁.next
          let e₃ := { e₂ with records := (fields.map Prod.fst, index) :: e₂.records }
          match encodeFieldValues e₃ fields with
          | .error err => .error err
          | .ok (VB, e₄) => .ok (hb ++ (KB ++ VB), e₄)
  | e, .map pairs =>
    match (Header.Map pairs.length).encode with
    | .error err => .error err
    | .ok hb =>
      match encodePairs e pairs with
      | .error err => .error err
      | .ok (B, e₁) => .ok (hb ++ B, e₁)

/-- The value loop of `Encoder::encode_record`:
`for val in inner.values() { c += self.encode_inner(val)?; }`. -/
def encodeFieldValues : EncState → List (List Nat × Value) →
    Except EncodeError (List Nat × EncState)
  | e, [] => .ok ([], e)
  | e, (_, v) :: rest =>
    match encodeInner e v with
    | .error err => .error err
    | .ok (B, e₁) =>
      match encodeFieldValues e₁ rest with
      | .error err => .error err
      | .ok (Bs, e₂) => .ok (B ++ Bs, e₂)

/-- The element loop of the `Array` arm of `Encoder::encode_inner`. -/
def encodeList : EncState → List Value → Except EncodeError (List Nat × EncState)
  | e, [] => .ok ([], e)
  | e, v :: vs =>
    match encodeInner e v with
    | .error err => .error err
    | .ok (B, e₁) =>
      match encodeList e₁ vs with
      | .error err => .error err
      | .ok (Bs, e₂) => .ok (B ++ Bs, e₂)

/-- The pair loop of the `Map` arm of `Encoder::encode_inner`. -/
def encodePairs : EncState → List (Value × Value) → Except EncodeError (List Nat × EncState)
  | e, [] => .ok ([], e)
  | e, (k, v) :: ps =>
    match encodeInner e k with
    | .error err => .error err
    | .ok (KB, e₁) =>
      match encodeInner e₁ v with
      | .error err => .error err
      | .ok (VB, e₂) =>
        match encodePairs e₂ ps with
        | .error err => .error err
        | .ok (Bs, e₃) => .ok (KB ++ (VB ++ Bs), e₃)

end

/-- `Encoder::encode`: encode one value with a fresh symbol table, returning
the written bytes (the Rust function returns their count). -/
def Encoder.encode (field : Value) : Except EncodeError (List Nat) :=
  (encodeInner EncState.init field).map Prod.fst


/-! ## The generic serializer's signed-integer entry point
(`Serializer::serialize_i64` in `nachricht-serde/src/ser.rs`)

The function computes `v.abs() as u64` and chooses a positive or negative
integer header.  `i64::abs` is modelled with release-profile (two's
complement wrapping) overflow semantics, under which `i64::MIN.abs()` wraps
to `i64::MIN` and the `as u64` cast then yields `2^63`. -/

/-- The integer headers of the `Header` revision used by `ser.rs`
(`Header::Pos(u64)` / `Header::Neg(u64)`). -/
inductive SerdeIntHeader where
  | Pos (v : Nat)
  | Neg (v : Nat)
deriving DecidableEq

/-- `i64::abs` with wrapping overflow semantics: the result is reduced back
into the `i64` range, so `i64::MIN` maps to itself. -/
def i64_abs (v : Int) : Int :=
  ((if v < 0 then -v else v) + 2 ^ 63) % 2 ^ 64 - 2 ^ 63

/-- The `as u64` cast of an `i64`: two's-complement reinterpretation. -/
def i64_as_u64 (v : Int) : Nat :=
  (v % 2 ^ 64).toNat

/-- The header chosen by `Serializer::serialize_i64`:
`if v < 0 { Header::Neg(v.abs() as u64) } else { Header::Pos(v as u64) }`. -/
def serialize_i64 (v : Int) : SerdeIntHeader :=
  if v < 0 then .Neg (i64_as_u64 (i64_abs v)) else .Pos (i64_as_u64 v)

/-! ## Lead-byte arithmetic -/

theorem shiftRight5_eq (b : Nat) : b >>> 5 = b / 32 := Nat.shiftRight_eq_div_pow b 5

theorem shiftRight4_eq (b : Nat) : b >>> 4 = b / 16 := Nat.shiftRight_eq_div_pow b 4

theorem and31_eq (b : Nat) : b &&& ((1 <<< 5) - 1) = b % 32 := by
  have := Nat.and_pow_two_sub_one_eq_mod b 5
  simpa using this

theorem and15_eq (b : Nat) : b &&& ((1 <<< 4) - 1) = b % 16 := by
  have := Nat.and_pow_two_sub_one_eq_mod b 4
  simpa using this

theorem lead5_eq : ∀ cb < 8, ∀ lo < 32, cb <<< 5 ||| lo = 32 * cb + lo := by decide

theorem lead4_eq : ∀ cb < 16, ∀ lo < 16, cb <<< 4 ||| lo = 16 * cb + lo := by decide

/-! ## Facts about `Header.size` and the big-endian tail -/

theorem size_pos (v : Nat) : 1 ≤ Header.size v := by
  unfold Header.size; split_ifs <;> omega

theorem size_le_eight (v : Nat) : Header.size v ≤ 8 := by
  unfold Header.size; split_ifs <;> omega

theorem lt_two_pow_size (v : Nat) (h : v < 2 ^ 64) :
    v < 2 ^ (8 * Header.size v) := by
  unfold Header.size; split_ifs <;> simp_all

theorem two_pow_size_pred_le (v : Nat) (h : 2 ≤ Header.size v) :
    2 ^ (8 * (Header.size v - 1)) ≤ v := by
  unfold Header.size at *; split_ifs at * <;> simp_all

/-- `Header.size` is the least byte count that can carry the value. -/
theorem size_min (v k : Nat) (hk : 1 ≤ k) (h : v < 2 ^ (8 * k)) :
    Header.size v ≤ k := by
  by_contra hcon
  have h2 : 2 ≤ Header.size v := by omega
  have hle : 2 ^ (8 * k) ≤ 2 ^ (8 * (Header.size v - 1)) :=
    Nat.pow_le_pow_right (by omega) (by omega)
  have := two_pow_size_pred_le v h2
  omega

theorem to_be_bytes_length (i : Nat) : (Header.to_be_bytes i).length = 8 := rfl

theorem drop_to_be_bytes_length (i sz : Nat) (h : sz ≤ 8) :
    ((Header.to_be_bytes i).drop (8 - sz)).length = sz := by
  simp [List.length_drop, to_be_bytes_length]; omega

theorem from_be_drop (i : Nat) : ∀ sz, sz ≤ 8 →
    Header.from_be_bytes ((Header.to_be_bytes i).drop (8 - sz)) = i % 2 ^ (8 * sz) := by
  intro sz hsz
  interval_cases sz <;>
    simp [Header.to_be_bytes, Header.from_be_bytes] <;> omega


/-! ## Decoding one header: round trip and over-long forms -/

theorem decode_u64_inline (buf : List Nat) (sz limit : Nat) (h : sz < limit) :
    Header.decode_u64 buf sz limit = .ok (sz, 0) := by
  simp [Header.decode_u64, h]

theorem decode_u64_tail (tail rest : List Nat) (sz limit k i : Nat)
    (hge : limit ≤ sz) (hk : sz - limit + 1 = k) (hlen : tail.length = k)
    (hval : Header.from_be_bytes tail = i) :
    Header.decode_u64 (tail ++ rest) sz limit = .ok (i, k) := by
  have hnot : ¬ sz < limit := by omega
  simp only [Header.decode_u64, if_neg hnot, hk]
  have htake : (tail ++ rest).take k = tail := by
    rw [← hlen]; exact List.take_left tail rest
  have hlong : ¬ (tail ++ rest).length < k := by
    rw [List.length_append]
    omega
  simp [if_neg hlong, htake, hval]
  omega

/-- The property of being one acceptable wire form of a decoded header `h`:
`Header::decode` parses exactly these bytes to `h`, whatever follows.  Both
the shortest form emitted by `Header::encode` and every tolerated over-long
form have this property. -/
def HeaderEnc (h : Header) (hb : List Nat) : Prop :=
  ∀ rest, Header.decode (hb ++ rest) = .ok (h, hb.length)

theorem HeaderEnc.length_pos {h : Header} {hb : List Nat}
    (he : HeaderEnc h hb) : 1 ≤ hb.length := by
  by_contra hcon
  have hnil : hb = [] := by
    cases hb with
    | nil => rfl
    | cons a t => simp at hcon
  have := he []
  rw [hnil] at this
  simp [Header.decode] at this

/-- The sanitization a header undergoes on the wire: `Int(Neg, 0)` is
emitted as (and therefore read back as) `Int(Pos, 0)`. -/
def Header.normH : Header → Header
  | .Int .Neg 0 => .Int .Pos 0
  | h => h

/-- The `u64` range constraint the Rust types put on an integer header's
magnitude (all other payloads are `usize`s checked by `to_u64`). -/
def Header.wfH : Header → Bool
  | .Int _ v => decide (v < 2 ^ 64)
  | _ => Bool.true


/-! Per-code round-trip of `encode_long_header` against `Header.decode`:
the inline form, the general multi-byte form with any admissible byte count
(`_tail`, which also covers the tolerated over-long encodings), and the
form emitted by `Header::encode`. -/

theorem headerEnc_str_tail (i k : Nat) (hk1 : 1 ≤ k) (hk8 : k ≤ 8)
    (hik : i < 2 ^ (8 * k)) :
    HeaderEnc (.Str i)
      (((2 : Nat) <<< 5 ||| (k + 24 + 0 - 1)) :: (Header.to_be_bytes i).drop (8 - k)) := by
  intro rest
  have hlead : (2 : Nat) <<< 5 ||| (k + 24 + 0 - 1) = 32 * 2 + (k + 23) :=
    (lead5_eq 2 (by omega) (k + 24 + 0 - 1) (by omega)).trans (by omega)
  simp only [List.cons_append, Header.decode, hlead]
  have h1 : (32 * 2 + (k + 23)) >>> 5 = 2 := by rw [shiftRight5_eq]; omega
  have h2 : (32 * 2 + (k + 23)) &&& ((1 <<< 5) - 1) = k + 23 := by rw [and31_eq]; omega
  have hd := decode_u64_tail ((Header.to_be_bytes i).drop (8 - k)) rest
    (k + 23) Code.STR.sz_limit k i
    (by simp [Code.sz_limit]; omega) (by simp [Code.sz_limit]; omega)
    (drop_to_be_bytes_length i k hk8)
    (by rw [from_be_drop i k hk8]; exact Nat.mod_eq_of_lt hik)
  rw [h1, h2, hd]
  simp [Header.to_usize, Except.bind, Except.map, List.length_cons,
    drop_to_be_bytes_length i k hk8]


theorem headerEnc_str (i : Nat) (hi : i < 2 ^ 64) :
    HeaderEnc (.Str i) ((Header.Str i).encode_long_header i) := by
  by_cases h24 : i < 24
  · intro rest
    have hlead : (2 : Nat) <<< 5 ||| (i + 0) = 32 * 2 + (i + 0) :=
      lead5_eq 2 (by omega) (i + 0) (by omega)
    simp only [Header.encode_long_header, Header.code, Code.sz_limit, Header.code_bits,
      Code.toNat, Header.shift, Header.offset,
      show ((1 : Nat) <<< 5 - 8) = 24 from rfl]
    rw [if_pos h24]
    simp only [List.cons_append, List.nil_append, Header.decode, hlead]
    have h1 : (32 * 2 + (i + 0)) >>> 5 = 2 := by rw [shiftRight5_eq]; omega
    have h2 : (32 * 2 + (i + 0)) &&& ((1 <<< 5) - 1) = i := by rw [and31_eq]; omega
    rw [h1, h2]
    simp [decode_u64_inline _ _ _ (show i < Code.STR.sz_limit by simp [Code.sz_limit]; omega),
      Header.to_usize, Except.bind, Except.map]
  · have hres := headerEnc_str_tail i (Header.size i) (size_pos i) (size_le_eight i)
      (lt_two_pow_size i hi)
    simp only [Header.encode_long_header, Header.code, Code.sz_limit, Header.code_bits,
      Code.toNat, Header.shift, Header.offset,
      show ((1 : Nat) <<< 5 - 8) = 24 from rfl]
    rw [if_neg h24]
    exact hres


theorem headerEnc_sym_tail (i k : Nat) (hk1 : 1 ≤ k) (hk8 : k ≤ 8)
    (hik : i < 2 ^ (8 * k)) :
    HeaderEnc (.Sym i)
      (((3 : Nat) <<< 5 ||| (k + 24 + 0 - 1)) :: (Header.to_be_bytes i).drop (8 - k)) := by
  intro rest
  have hlead : (3 : Nat) <<< 5 ||| (k + 24 + 0 - 1) = 32 * 3 + (k + 23) :=
    (lead5_eq 3 (by omega) (k + 24 + 0 - 1) (by omega)).trans (by omega)
  simp only [List.cons_append, Header.decode, hlead]
  have h1 : (32 * 3 + (k + 23)) >>> 5 = 3 := by rw [shiftRight5_eq]; omega
  have h2 : (32 * 3 + (k + 23)) &&& ((1 <<< 5) - 1) = k + 23 := by rw [and31_eq]; omega
  have hd := decode_u64_tail ((Header.to_be_bytes i).drop (8 - k)) rest
    (k + 23) Code.SYM.sz_limit k i
    (by simp [Code.sz_limit]; omega) (by simp [Code.sz_limit]; omega)
    (drop_to_be_bytes_length i k hk8)
    (by rw [from_be_drop i k hk8]; exact Nat.mod_eq_of_lt hik)
  rw [h1, h2, hd]
  simp [Header.to_usize, Except.bind, Except.map, List.length_cons,
    drop_to_be_bytes_length i k hk8]


theorem headerEnc_sym (i : Nat) (hi : i < 2 ^ 64) :
    HeaderEnc (.Sym i) ((Header.Sym i).encode_long_header i) := by
  by_cases h24 : i < 24
  · intro rest
    have hlead : (3 : Nat) <<< 5 ||| (i + 0) = 32 * 3 + (i + 0) :=
      lead5_eq 3 (by omega) (i + 0) (by omega)
    simp only [Header.encode_long_header, Header.code, Code.sz_limit, Header.code_bits,
      Code.toNat, Header.shift, Header.offset,
      show ((1 : Nat) <<< 5 - 8) = 24 from rfl]
    rw [if_pos h24]
    simp only [List.cons_append, List.nil_append, Header.decode, hlead]
    have h1 : (32 * 3 + (i + 0)) >>> 5 = 3 := by rw [shiftRight5_eq]; omega
    have h2 : (32 * 3 + (i + 0)) &&& ((1 <<< 5) - 1) = i := by rw [and31_eq]; omega
    rw [h1, h2]
    simp [decode_u64_inline _ _ _ (show i < Code.SYM.sz_limit by simp [Code.sz_limit]; omega),
      Header.to_usize, Except.bind, Except.map]
  · have hres := headerEnc_sym_tail i (Header.size i) (size_pos i) (size_le_eight i)
      (lt_two_pow_size i hi)
    simp only [Header.encode_long_header, Header.code, Code.sz_limit, Header.code_bits,
      Code.toNat, Header.shift, Header.offset,
      show ((1 : Nat) <<< 5 - 8) = 24 from rfl]
    rw [if_neg h24]
    exact hres


theorem headerEnc_arr_tail (i k : Nat) (hk1 : 1 ≤ k) (hk8 : k ≤ 8)
    (hik : i < 2 ^ (8 * k)) :
    HeaderEnc (.Arr i)
      (((4 : Nat) <<< 5 ||| (k + 24 + 0 - 1)) :: (Header.to_be_bytes i).drop (8 - k)) := by
  intro rest
  have hlead : (4 : Nat) <<< 5 ||| (k + 24 + 0 - 1) = 32 * 4 + (k + 23) :=
    (lead5_eq 4 (by omega) (k + 24 + 0 - 1) (by omega)).trans (by omega)
  simp only [List.cons_append, Header.decode, hlead]
  have h1 : (32 * 4 + (k + 23)) >>> 5 = 4 := by rw [shiftRight5_eq]; omega
  have h2 : (32 * 4 + (k + 23)) &&& ((1 <<< 5) - 1) = k + 23 := by rw [and31_eq]; omega
  have hd := decode_u64_tail ((Header.to_be_bytes i).drop (8 - k)) rest
    (k + 23) Code.ARR.sz_limit k i
    (by simp [Code.sz_limit]; omega) (by simp [Code.sz_limit]; omega)
    (drop_to_be_bytes_length i k hk8)
    (by rw [from_be_drop i k hk8]; exact Nat.mod_eq_of_lt hik)
  rw [h1, h2, hd]
  simp [Header.to_usize, Except.bind, Except.map, List.length_cons,
    drop_to_be_bytes_length i k hk8]


theorem headerEnc_arr (i : Nat) (hi : i < 2 ^ 64) :
    HeaderEnc (.Arr i) ((Header.Arr i).encode_long_header i) := by
  by_cases h24 : i < 24
  · intro rest
    have hlead : (4 : Nat) <<< 5 ||| (i + 0) = 32 * 4 + (i + 0) :=
      lead5_eq 4 (by omega) (i + 0) (by omega)
    simp only [Header.encode_long_header, Header.code, Code.sz_limit, Header.code_bits,
      Code.toNat, Header.shift, Header.offset,
      show ((1 : Nat) <<< 5 - 8) = 24 from rfl]
    rw [if_pos h24]
    simp only [List.cons_append, List.nil_append, Header.decode, hlead]
    have h1 : (32 * 4 + (i + 0)) >>> 5 = 4 := by rw [shiftRight5_eq]; omega
    have h2 : (32 * 4 + (i + 0)) &&& ((1 <<< 5) - 1) = i := by rw [and31_eq]; omega
    rw [h1, h2]
    simp [decode_u64_inline _ _ _ (show i < Code.ARR.sz_limit by simp [Code.sz_limit]; omega),
      Header.to_usize, Except.bind, Except.map]
  · have hres := headerEnc_arr_tail i (Header.size i) (size_pos i) (size_le_eight i)
      (lt_two_pow_size i hi)
    simp only [Header.encode_long_header, Header.code, Code.sz_limit, Header.code_bits,
      Code.toNat, Header.shift, Header.offset,
      show ((1 : Nat) <<< 5 - 8) = 24 from rfl]
    rw [if_neg h24]
    exact hres


theorem headerEnc_rec_tail (i k : Nat) (hk1 : 1 ≤ k) (hk8 : k ≤ 8)
    (hik : i < 2 ^ (8 * k)) :
    HeaderEnc (.Rec i)
      (((5 : Nat) <<< 5 ||| (k + 24 + 0 - 1)) :: (Header.to_be_bytes i).drop (8 - k)) := by
  intro rest
  have hlead : (5 : Nat) <<< 5 ||| (k + 24 + 0 - 1) = 32 * 5 + (k + 23) :=
    (lead5_eq 5 (by omega) (k + 24 + 0 - 1) (by omega)).trans (by omega)
  simp only [List.cons_append, Header.decode, hlead]
  have h1 : (32 * 5 + (k + 23)) >>> 5 = 5 := by rw [shiftRight5_eq]; omega
  have h2 : (32 * 5 + (k + 23)) &&& ((1 <<< 5) - 1) = k + 23 := by rw [and31_eq]; omega
  have hd := decode_u64_tail ((Header.to_be_bytes i).drop (8 - k)) rest
    (k + 23) Code.REC.sz_limit k i
    (by simp [Code.sz_limit]; omega) (by simp [Code.sz_limit]; omega)
    (drop_to_be_bytes_length i k hk8)
    (by rw [from_be_drop i k hk8]; exact Nat.mod_eq_of_lt hik)
  rw [h1, h2, hd]
  simp [Header.to_usize, Except.bind, Except.map, List.length_cons,
    drop_to_be_bytes_length i k hk8]


theorem headerEnc_rec (i : Nat) (hi : i < 2 ^ 64) :
    HeaderEnc (.Rec i) ((Header.Rec i).encode_long_header i) := by
  by_cases h24 : i < 24
  · intro rest
    have hlead : (5 : Nat) <<< 5 ||| (i + 0) = 32 * 5 + (i + 0) :=
      lead5_eq 5 (by omega) (i + 0) (by omega)
    simp only [Header.encode_long_header, Header.code, Code.sz_limit, Header.code_bits,
      Code.toNat, Header.shift, Header.offset,
      show ((1 : Nat) <<< 5 - 8) = 24 from rfl]
    rw [if_pos h24]
    simp only [List.cons_append, List.nil_append, Header.decode, hlead]
    have h1 : (32 * 5 + (i + 0)) >>> 5 = 5 := by rw [shiftRight5_eq]; omega
    have h2 : (32 * 5 + (i + 0)) &&& ((1 <<< 5) - 1) = i := by rw [and31_eq]; omega
    rw [h1, h2]
    simp [decode_u64_inline _ _ _ (show i < Code.REC.sz_limit by simp [Code.sz_limit]; omega),
      Header.to_usize, Except.bind, Except.map]
  · have hres := headerEnc_rec_tail i (Header.size i) (size_pos i) (size_le_eight i)
      (lt_two_pow_size i hi)
    simp only [Header.encode_long_header, Header.code, Code.sz_limit, Header.code_bits,
      Code.toNat, Header.shift, Header.offset,
      show ((1 : Nat) <<< 5 - 8) = 24 from rfl]
    rw [if_neg h24]
    exact hres


theorem headerEnc_map_tail (i k : Nat) (hk1 : 1 ≤ k) (hk8 : k ≤ 8)
    (hik : i < 2 ^ (8 * k)) :
    HeaderEnc (.Map i)
      (((6 : Nat) <<< 5 ||| (k + 24 + 0 - 1)) :: (Header.to_be_bytes i).drop (8 - k)) := by
  intro rest
  have hlead : (6 : Nat) <<< 5 ||| (k + 24 + 0 - 1) = 32 * 6 + (k + 23) :=
    (lead5_eq 6 (by omega) (k + 24 + 0 - 1) (by omega)).trans (by omega)
  simp only [List.cons_append, Header.decode, hlead]
  have h1 : (32 * 6 + (k + 23)) >>> 5 = 6 := by rw [shiftRight5_eq]; omega
  have h2 : (32 * 6 + (k + 23)) &&& ((1 <<< 5) - 1) = k + 23 := by rw [and31_eq]; omega
  have hd := decode_u64_tail ((Header.to_be_bytes i).drop (8 - k)) rest
    (k + 23) Code.MAP.sz_limit k i
    (by simp [Code.sz_limit]; omega) (by simp [Code.sz_limit]; omega)
    (drop_to_be_bytes_length i k hk8)
    (by rw [from_be_drop i k hk8]; exact Nat.mod_eq_of_lt hik)
  rw [h1, h2, hd]
  simp [Header.to_usize, Except.bind, Except.map, List.length_cons,
    drop_to_be_bytes_length i k hk8]


theorem headerEnc_map (i : Nat) (hi : i < 2 ^ 64) :
    HeaderEnc (.Map i) ((Header.Map i).encode_long_header i) := by
  by_cases h24 : i < 24
  · intro rest
    have hlead : (6 : Nat) <<< 5 ||| (i + 0) = 32 * 6 + (i + 0) :=
      lead5_eq 6 (by omega) (i + 0) (by omega)
    simp only [Header.encode_long_header, Header.code, Code.sz_limit, Header.code_bits,
      Code.toNat, Header.shift, Header.offset,
      show ((1 : Nat) <<< 5 - 8) = 24 from rfl]
    rw [if_pos h24]
    simp only [List.cons_append, List.nil_append, Header.decode, hlead]
    have h1 : (32 * 6 + (i + 0)) >>> 5 = 6 := by rw [shiftRight5_eq]; omega
    have h2 : (32 * 6 + (i + 0)) &&& ((1 <<< 5) - 1) = i := by rw [and31_eq]; omega
    rw [h1, h2]
    simp [decode_u64_inline _ _ _ (show i < Code.MAP.sz_limit by simp [Code.sz_limit]; omega),
      Header.to_usize, Except.bind, Except.map]
  · have hres := headerEnc_map_tail i (Header.size i) (size_pos i) (size_le_eight i)
      (lt_two_pow_size i hi)
    simp only [Header.encode_long_header, Header.code, Code.sz_limit, Header.code_bits,
      Code.toNat, Header.shift, Header.offset,
      show ((1 : Nat) <<< 5 - 8) = 24 from rfl]
    rw [if_neg h24]
    exact hres


theorem headerEnc_ref_tail (i k : Nat) (hk1 : 1 ≤ k) (hk8 : k ≤ 8)
    (hik : i < 2 ^ (8 * k)) :
    HeaderEnc (.Ref i)
      (((7 : Nat) <<< 5 ||| (k + 24 + 0 - 1)) :: (Header.to_be_bytes i).drop (8 - k)) := by
  intro rest
  have hlead : (7 : Nat) <<< 5 ||| (k + 24 + 0 - 1) = 32 * 7 + (k + 23) :=
    (lead5_eq 7 (by omega) (k + 24 + 0 - 1) (by omega)).trans (by omega)
  simp only [List.cons_append, Header.decode, hlead]
  have h1 : (32 * 7 + (k + 23)) >>> 5 = 7 := by rw [shiftRight5_eq]; omega
  have h2 : (32 * 7 + (k + 23)) &&& ((1 <<< 5) - 1) = k + 23 := by rw [and31_eq]; omega
  have hd := decode_u64_tail ((Header.to_be_bytes i).drop (8 - k)) rest
    (k + 23) Code.REF.sz_limit k i
    (by simp [Code.sz_limit]; omega) (by simp [Code.sz_limit]; omega)
    (drop_to_be_bytes_length i k hk8)
    (by rw [from_be_drop i k hk8]; exact Nat.mod_eq_of_lt hik)
  rw [h1, h2, hd]
  simp [Header.to_usize, Except.bind, Except.map, List.length_cons,
    drop_to_be_bytes_length i k hk8]


theorem headerEnc_ref (i : Nat) (hi : i < 2 ^ 64) :
    HeaderEnc (.Ref i) ((Header.Ref i).encode_long_header i) := by
  by_cases h24 : i < 24
  · intro rest
    have hlead : (7 : Nat) <<< 5 ||| (i + 0) = 32 * 7 + (i + 0) :=
      lead5_eq 7 (by omega) (i + 0) (by omega)
    simp only [Header.encode_long_header, Header.code, Code.sz_limit, Header.code_bits,
      Code.toNat, Header.shift, Header.offset,
      show ((1 : Nat) <<< 5 - 8) = 24 from rfl]
    rw [if_pos h24]
    simp only [List.cons_append, List.nil_append, Header.decode, hlead]
    have h1 : (32 * 7 + (i + 0)) >>> 5 = 7 := by rw [shiftRight5_eq]; omega
    have h2 : (32 * 7 + (i + 0)) &&& ((1 <<< 5) - 1) = i := by rw [and31_eq]; omega
    rw [h1, h2]
    simp [decode_u64_inline _ _ _ (show i < Code.REF.sz_limit by simp [Code.sz_limit]; omega),
      Header.to_usize, Except.bind, Except.map]
  · have hres := headerEnc_ref_tail i (Header.size i) (size_pos i) (size_le_eight i)
      (lt_two_pow_size i hi)
    simp only [Header.encode_long_header, Header.code, Code.sz_limit, Header.code_bits,
      Code.toNat, Header.shift, Header.offset,
      show ((1 : Nat) <<< 5 - 8) = 24 from rfl]
    rw [if_neg h24]
    exact hres


theorem headerEnc_bin_tail (i k : Nat) (hk1 : 1 ≤ k) (hk8 : k ≤ 8)
    (hik : i < 2 ^ (8 * k)) :
    HeaderEnc (.Bin i)
      (((0 : Nat) <<< 5 ||| (k + 19 + 5 - 1)) :: (Header.to_be_bytes i).drop (8 - k)) := by
  intro rest
  have hlead : (0 : Nat) <<< 5 ||| (k + 19 + 5 - 1) = 32 * 0 + (k + 23) :=
    (lead5_eq 0 (by omega) (k + 19 + 5 - 1) (by omega)).trans (by omega)
  simp only [List.cons_append, Header.decode, hlead]
  have h1 : (32 * 0 + (k + 23)) >>> 5 = 0 := by rw [shiftRight5_eq]; omega
  have h2 : (32 * 0 + (k + 23)) &&& ((1 <<< 5) - 1) = k + 18 + 5 := by rw [and31_eq]; omega
  have hd := decode_u64_tail ((Header.to_be_bytes i).drop (8 - k)) rest
    (k + 18) Code.BIN.sz_limit k i
    (by simp [Code.sz_limit]; omega) (by simp [Code.sz_limit]; omega)
    (drop_to_be_bytes_length i k hk8)
    (by rw [from_be_drop i k hk8]; exact Nat.mod_eq_of_lt hik)
  rw [h1, h2]
  simp [hd, Header.to_usize, Except.bind, Except.map, List.length_cons,
    drop_to_be_bytes_length i k hk8]

theorem headerEnc_bin (i : Nat) (hi : i < 2 ^ 64) :
    HeaderEnc (.Bin i) ((Header.Bin i).encode_long_header i) := by
  by_cases h19 : i < 19
  · intro rest
    have hlead : (0 : Nat) <<< 5 ||| (i + 5) = 32 * 0 + (i + 5) :=
      lead5_eq 0 (by omega) (i + 5) (by omega)
    simp only [Header.encode_long_header, Header.code, Code.sz_limit, Header.code_bits,
      Code.toNat, Header.shift, Header.offset,
      show ((1 : Nat) <<< 5 - 8 - 5) = 19 from rfl]
    rw [if_pos h19]
    simp only [List.cons_append, List.nil_append, Header.decode, hlead]
    have h1 : (32 * 0 + (i + 5)) >>> 5 = 0 := by rw [shiftRight5_eq]; omega
    have h2 : (32 * 0 + (i + 5)) &&& ((1 <<< 5) - 1) = i + 5 := by rw [and31_eq]; omega
    rw [h1, h2]
    simp [decode_u64_inline _ _ _ (show i < Code.BIN.sz_limit by simp [Code.sz_limit]; omega),
      Header.to_usize, Except.bind, Except.map]
  · have hres := headerEnc_bin_tail i (Header.size i) (size_pos i) (size_le_eight i)
      (lt_two_pow_size i hi)
    simp only [Header.encode_long_header, Header.code, Code.sz_limit, Header.code_bits,
      Code.toNat, Header.shift, Header.offset,
      show ((1 : Nat) <<< 5 - 8 - 5) = 19 from rfl]
    rw [if_neg h19]
    exact hres

theorem headerEnc_int_pos_tail (v k : Nat) (hk1 : 1 ≤ k) (hk8 : k ≤ 8)
    (hvk : v < 2 ^ (8 * k)) :
    HeaderEnc (.Int .Pos v)
      (((2 : Nat) <<< 4 ||| (k + 8 + 0 - 1)) :: (Header.to_be_bytes v).drop (8 - k)) := by
  intro rest
  have hlead : (2 : Nat) <<< 4 ||| (k + 8 + 0 - 1) = 16 * 2 + (k + 7) :=
    (lead4_eq 2 (by omega) (k + 8 + 0 - 1) (by omega)).trans (by omega)
  simp only [List.cons_append, Header.decode, hlead]
  have h1 : (16 * 2 + (k + 7)) >>> 5 = 1 := by rw [shiftRight5_eq]; omega
  have h2 : (16 * 2 + (k + 7)) &&& ((1 <<< 5) - 1) = k + 7 := by rw [and31_eq]; omega
  have h3 : (k + 7) >>> 4 = 0 := by rw [shiftRight4_eq]; omega
  have h4 : (k + 7) &&& ((1 <<< 4) - 1) = k + 7 := by rw [and15_eq]; omega
  have hd := decode_u64_tail ((Header.to_be_bytes v).drop (8 - k)) rest
    (k + 7) Code.INT.sz_limit k v
    (by simp [Code.sz_limit]; omega) (by simp [Code.sz_limit]; omega)
    (drop_to_be_bytes_length v k hk8)
    (by rw [from_be_drop v k hk8]; exact Nat.mod_eq_of_lt hvk)
  rw [h1, h2, h3, h4, hd]
  simp [Except.map, List.length_cons, drop_to_be_bytes_length v k hk8]

theorem headerEnc_int_pos (v : Nat) (hv : v < 2 ^ 64) :
    HeaderEnc (.Int .Pos v) ((Header.Int .Pos v).encode_long_header v) := by
  by_cases h8 : v < 8
  · intro rest
    have hlead : (2 : Nat) <<< 4 ||| (v + 0) = 16 * 2 + (v + 0) :=
      lead4_eq 2 (by omega) (v + 0) (by omega)
    simp only [Header.encode_long_header, Header.code, Code.sz_limit, Header.code_bits,
      Code.toNat, Sign.code, POS, Header.shift, Header.offset,
      show ((1 : Nat) <<< 4 - 8) = 8 from rfl, show ((1 : Nat) <<< 1 ||| 0) = 2 from rfl]
    rw [if_pos h8]
    simp only [List.cons_append, List.nil_append, Header.decode, hlead]
    have h1 : (16 * 2 + (v + 0)) >>> 5 = 1 := by rw [shiftRight5_eq]; omega
    have h2 : (16 * 2 + (v + 0)) &&& ((1 <<< 5) - 1) = v := by rw [and31_eq]; omega
    have h3 : v >>> 4 = 0 := by rw [shiftRight4_eq]; omega
    have h4 : v &&& ((1 <<< 4) - 1) = v := by rw [and15_eq]; omega
    rw [h1, h2, h3, h4]
    simp [decode_u64_inline _ _ _ (show v < Code.INT.sz_limit by simp [Code.sz_limit]; omega),
      Except.map]
  · have hres := headerEnc_int_pos_tail v (Header.size v) (size_pos v) (size_le_eight v)
      (lt_two_pow_size v hv)
    simp only [Header.encode_long_header, Header.code, Code.sz_limit, Header.code_bits,
      Code.toNat, Sign.code, POS, Header.shift, Header.offset,
      show ((1 : Nat) <<< 4 - 8) = 8 from rfl, show ((1 : Nat) <<< 1 ||| 0) = 2 from rfl]
    rw [if_neg h8]
    exact hres

theorem headerEnc_int_neg_tail (v k : Nat) (hk1 : 1 ≤ k) (hk8 : k ≤ 8)
    (hv1 : 1 ≤ v) (hv : v < 2 ^ 64) (hvk : v - 1 < 2 ^ (8 * k)) :
    HeaderEnc (.Int .Neg v)
      (((3 : Nat) <<< 4 ||| (k + 8 + 0 - 1)) :: (Header.to_be_bytes (v - 1)).drop (8 - k)) := by
  intro rest
  have hlead : (3 : Nat) <<< 4 ||| (k + 8 + 0 - 1) = 16 * 3 + (k + 7) :=
    (lead4_eq 3 (by omega) (k + 8 + 0 - 1) (by omega)).trans (by omega)
  simp only [List.cons_append, Header.decode, hlead]
  have h1 : (16 * 3 + (k + 7)) >>> 5 = 1 := by rw [shiftRight5_eq]; omega
  have h2 : (16 * 3 + (k + 7)) &&& ((1 <<< 5) - 1) = 16 + (k + 7) := by rw [and31_eq]; omega
  have h3 : (16 + (k + 7)) >>> 4 = 1 := by rw [shiftRight4_eq]; omega
  have h4 : (16 + (k + 7)) &&& ((1 <<< 4) - 1) = k + 7 := by rw [and15_eq]; omega
  have hd := decode_u64_tail ((Header.to_be_bytes (v - 1)).drop (8 - k)) rest
    (k + 7) Code.INT.sz_limit k (v - 1)
    (by simp [Code.sz_limit]; omega) (by simp [Code.sz_limit]; omega)
    (drop_to_be_bytes_length (v - 1) k hk8)
    (by rw [from_be_drop (v - 1) k hk8]; exact Nat.mod_eq_of_lt hvk)
  rw [h1, h2, h3, h4, hd]
  simp [Except.map, List.length_cons, drop_to_be_bytes_length (v - 1) k hk8,
    Header.saturating_add_one]
  omega

theorem headerEnc_int_neg (v : Nat) (hv1 : 1 ≤ v) (hv : v < 2 ^ 64) :
    HeaderEnc (.Int .Neg v) ((Header.Int .Neg v).encode_long_header (v - 1)) := by
  by_cases h8 : v - 1 < 8
  · intro rest
    have hlead : (3 : Nat) <<< 4 ||| (v - 1 + 0) = 16 * 3 + (v - 1 + 0) :=
      lead4_eq 3 (by omega) (v - 1 + 0) (by omega)
    simp only [Header.encode_long_header, Header.code, Code.sz_limit, Header.code_bits,
      Code.toNat, Sign.code, NEG, Header.shift, Header.offset,
      show ((1 : Nat) <<< 4 - 8) = 8 from rfl, show ((1 : Nat) <<< 1 ||| 1) = 3 from rfl]
    rw [if_pos h8]
    simp only [List.cons_append, List.nil_append, Header.decode, hlead]
    have h1 : (16 * 3 + (v - 1 + 0)) >>> 5 = 1 := by rw [shiftRight5_eq]; omega
    have h2 : (16 * 3 + (v - 1 + 0)) &&& ((1 <<< 5) - 1) = 16 + (v - 1) := by
      rw [and31_eq]; omega
    have h3 : (16 + (v - 1)) >>> 4 = 1 := by rw [shiftRight4_eq]; omega
    have h4 : (16 + (v - 1)) &&& ((1 <<< 4) - 1) = v - 1 := by rw [and15_eq]; omega
    rw [h1, h2, h3, h4]
    simp [decode_u64_inline _ _ _ (show v - 1 < Code.INT.sz_limit by simp [Code.sz_limit]; omega),
      Except.map, Header.saturating_add_one]
    omega
  · have hres := headerEnc_int_neg_tail v (Header.size (v - 1)) (size_pos (v - 1))
      (size_le_eight (v - 1)) hv1 hv (lt_two_pow_size (v - 1) (by omega))
    simp only [Header.encode_long_header, Header.code, Code.sz_limit, Header.code_bits,
      Code.toNat, Sign.code, NEG, Header.shift, Header.offset,
      show ((1 : Nat) <<< 4 - 8) = 8 from rfl, show ((1 : Nat) <<< 1 ||| 1) = 3 from rfl]
    rw [if_neg h8]
    exact hres


/-! The five fixed headers and the master header round trip. -/

theorem headerEnc_null : HeaderEnc .Null [0] := fun _ => rfl

theorem headerEnc_true : HeaderEnc .True [1] := fun _ => rfl

theorem headerEnc_false : HeaderEnc .False [2] := fun _ => rfl

theorem headerEnc_f32 : HeaderEnc .F32 [3] := fun _ => rfl

theorem headerEnc_f64 : HeaderEnc .F64 [4] := fun _ => rfl

/-- Extracting the `< 2 ^ 64` bound and the written bytes from a successful
`to_u64`-guarded encode. -/
theorem to_u64_ok {i : Nat} {f : Nat → List Nat} {hb : List Nat}
    (h : (Header.to_u64 i).map f = .ok hb) : i < 2 ^ 64 ∧ hb = f i := by
  by_cases hlt : i < 2 ^ 64
  · refine ⟨hlt, ?_⟩
    simp only [Header.to_u64] at h
    rw [if_pos hlt] at h
    simp only [Except.map] at h
    exact (Except.ok.inj h).symm
  · simp only [Header.to_u64] at h
    rw [if_neg hlt] at h
    simp [Except.map] at h

/-- `Header::encode` followed by `Header::decode` restores the header up to
negative-zero normalization, whatever bytes follow (the shortest-form half
of the header round trip). -/
theorem encode_headerEnc (h : Header) (hwf : h.wfH = Bool.true) (hb : List Nat)
    (henc : h.encode = .ok hb) : HeaderEnc h.normH hb := by
  cases h with
  | Null => cases henc; exact headerEnc_null
  | True => cases henc; exact headerEnc_true
  | False => cases henc; exact headerEnc_false
  | F32 => cases henc; exact headerEnc_f32
  | F64 => cases henc; exact headerEnc_f64
  | Bin i =>
    obtain ⟨hlt, rfl⟩ := to_u64_ok henc
    exact headerEnc_bin i hlt
  | Str i =>
    obtain ⟨hlt, rfl⟩ := to_u64_ok henc
    exact headerEnc_str i hlt
  | Sym i =>
    obtain ⟨hlt, rfl⟩ := to_u64_ok henc
    exact headerEnc_sym i hlt
  | Arr i =>
    obtain ⟨hlt, rfl⟩ := to_u64_ok henc
    exact headerEnc_arr i hlt
  | Rec i =>
    obtain ⟨hlt, rfl⟩ := to_u64_ok henc
    exact headerEnc_rec i hlt
  | Map i =>
    obtain ⟨hlt, rfl⟩ := to_u64_ok henc
    exact headerEnc_map i hlt
  | Ref i =>
    obtain ⟨hlt, rfl⟩ := to_u64_ok henc
    exact headerEnc_ref i hlt
  | Int s v =>
    have hv : v < 2 ^ 64 := by simpa [Header.wfH] using hwf
    cases s with
    | Pos =>
      cases henc
      exact headerEnc_int_pos v hv
    | Neg =>
      match v, henc with
      | 0, henc => cases henc; exact headerEnc_int_pos 0 (by omega)
      | v + 1, henc => cases henc; exact headerEnc_int_neg (v + 1) (by omega) hv


theorem du_bind_inv {r : List Nat} {s l : Nat} {f : Nat → Header} {h : Header} {c : Nat}
    (hh : ((Header.decode_u64 r s l).bind fun ic =>
      (Header.to_usize ic.1).map fun u => (f u, ic.2 + 1)) = .ok (h, c)) :
    ∃ i, h = f i := by
  cases hdu : Header.decode_u64 r s l with
  | error e => rw [hdu] at hh; simp [Except.bind] at hh
  | ok ic =>
    rw [hdu] at hh
    simp [Except.bind, Header.to_usize, Except.map] at hh
    exact ⟨ic.1, hh.1.symm⟩

theorem du_map_inv {r : List Nat} {s l : Nat} {g : Nat → Header} {h : Header} {c : Nat}
    (hh : ((Header.decode_u64 r s l).map fun ic => (g ic.1, ic.2 + 1)) = .ok (h, c)) :
    ∃ i, h = g i := by
  cases hdu : Header.decode_u64 r s l with
  | error e => rw [hdu] at hh; simp [Except.map] at hh
  | ok ic =>
    rw [hdu] at hh
    simp [Except.map] at hh
    exact ⟨ic.1, hh.1.symm⟩

theorem neg_decode_nonzero (buf : List Nat) (v c : Nat)
    (hdec : Header.decode buf = .ok (.Int .Neg v, c)) : v ≠ 0 := by
  cases buf with
  | nil => simp [Header.decode] at hdec
  | cons b rest =>
    simp only [Header.decode] at hdec
    split at hdec
    · split at hdec
      · simp at hdec
      · simp at hdec
      · simp at hdec
      · simp at hdec
      · simp at hdec
      · obtain ⟨i, hi⟩ := du_bind_inv (f := fun u => Header.Bin u) hdec; simp at hi
    · split at hdec
      · obtain ⟨i, hi⟩ :=
          du_map_inv (g := fun u => Header.Int Sign.Pos u) hdec
        simp at hi
      · obtain ⟨i, hi⟩ :=
          du_map_inv (g := fun u => Header.Int Sign.Neg (Header.saturating_add_one u)) hdec
        injection hi with h1 h2
        simp [Header.saturating_add_one] at h2
        omega
    · obtain ⟨i, hi⟩ := du_bind_inv (f := fun u => Header.Str u) hdec; simp at hi
    · obtain ⟨i, hi⟩ := du_bind_inv (f := fun u => Header.Sym u) hdec; simp at hi
    · obtain ⟨i, hi⟩ := du_bind_inv (f := fun u => Header.Arr u) hdec; simp at hi
    · obtain ⟨i, hi⟩ := du_bind_inv (f := fun u => Header.Rec u) hdec; simp at hi
    · obtain ⟨i, hi⟩ := du_bind_inv (f := fun u => Header.Map u) hdec; simp at hi
    · obtain ⟨i, hi⟩ := du_bind_inv (f := fun u => Header.Ref u) hdec; simp at hi
    · simp at hdec


/-! ## Claim C2: negative-zero normalization at the header level -/

/-- C2.  `Header::encode` maps `Int(Neg, 0)` to exactly the bytes of
`Int(Pos, 0)` (the single byte `0x20`), decoding those bytes yields
`Int(Pos, 0)`, and no decode of any buffer ever returns an integer header
with the negative sign and magnitude `0`. -/
theorem C2_negative_zero :
    Header.encode (.Int .Neg 0) = Header.encode (.Int .Pos 0) ∧
    Header.encode (.Int .Pos 0) = .ok [0x20] ∧
    Header.decode [0x20] = .ok (.Int .Pos 0, 1) ∧
    ∀ buf v c, Header.decode buf = .ok (.Int .Neg v, c) → v ≠ 0 :=
  ⟨rfl, rfl, rfl, neg_decode_nonzero⟩

/-- Witness for C2: the universally quantified part applied to the concrete
buffer `[0x30]`, which decodes to `Int(Neg, 1)`. -/
theorem C2_negative_zero_witness : (1 : Nat) ≠ 0 :=
  C2_negative_zero.2.2.2 [0x30] 1 1 rfl

/-! ## Claim C3: the representable integer range -/

/-- The integer header representing a mathematical integer in the model:
nonnegative numbers take the positive sign with their own magnitude,
negative numbers the negative sign with their absolute value. -/
def intHeader (n : Int) : Header :=
  if 0 ≤ n then .Int .Pos n.toNat else .Int .Neg n.natAbs


/-- `Header::encode` of a nonzero negative magnitude writes `magnitude - 1`
as the wire payload. -/
theorem encode_int_neg_eq (v : Nat) (hv : v ≠ 0) :
    (Header.Int .Neg v).encode
      = .ok ((Header.Int .Neg v).encode_long_header (v - 1)) := by
  match v, hv with
  | v + 1, _ => rfl

/-- C3, counterexample.  The wire form with the negative sign bit and
payload `2^64 - 1` — which under the `-(payload + 1)` reading denotes
`-2^64` — does not decode to a magnitude of `2^64`: the decoder's
`saturating_add` clamps it to `Int(Neg, 2^64 - 1)`, the very value the
distinct wire payload `2^64 - 2` also decodes to.  So `-2^64` is not
reachable and these two distinct wire integers have the same decoding. -/
theorem C3_integer_range_counterexample :
    Header.decode [0x3f, 0xff, 0xff, 0xff, 0xff, 0xff, 0xff, 0xff, 0xff]
      = .ok (.Int .Neg (2 ^ 64 - 1), 9) ∧
    Header.decode [0x3f, 0xff, 0xff, 0xff, 0xff, 0xff, 0xff, 0xff, 0xfe]
      = .ok (.Int .Neg (2 ^ 64 - 1), 9) ∧
    (2 ^ 64 - 1 : Nat) ≠ 2 ^ 64 :=
  ⟨rfl, rfl, by omega⟩

/-- C3, amended.  Every integer in `[-(2^64 - 1), 2^64 - 1]` is representable
as a model header and survives the header round trip; the negative branch
writes `magnitude - 1` on wire, so `-1` encodes as the single byte `0x30`;
and distinct integers in this range have distinct headers. -/
theorem C3_integer_range_amended :
    ∀ n : Int, -(2 ^ 64 - 1) ≤ n → n ≤ 2 ^ 64 - 1 →
      (∃ hb, (intHeader n).encode = .ok hb ∧
        ∀ rest, Header.decode (hb ++ rest) = .ok (intHeader n, hb.length)) ∧
      (n < 0 → (intHeader n).encode
          = .ok ((intHeader n).encode_long_header (n.natAbs - 1))) ∧
      (intHeader (-1)).encode = .ok [0x30] ∧
      (∀ m : Int, -(2 ^ 64 - 1) ≤ m → m ≤ 2 ^ 64 - 1 → intHeader m = intHeader n → m = n) := by
  intro n h1 h2
  refine ⟨?_, ?_, rfl, ?_⟩
  · by_cases hn : 0 ≤ n
    · refine ⟨(Header.Int .Pos n.toNat).encode_long_header n.toNat, ?_, ?_⟩
      · simp [intHeader, hn, Header.encode]
      · simp only [intHeader, if_pos hn]
        exact headerEnc_int_pos n.toNat (by omega)
    · refine ⟨(Header.Int .Neg n.natAbs).encode_long_header (n.natAbs - 1), ?_, ?_⟩
      · simp only [intHeader, if_neg hn]
        exact encode_int_neg_eq n.natAbs (by omega)
      · simp only [intHeader, if_neg hn]
        exact headerEnc_int_neg n.natAbs (by omega) (by omega)
  · intro hneg
    have hn : ¬ 0 ≤ n := by omega
    simp only [intHeader, if_neg hn]
    exact encode_int_neg_eq n.natAbs (by omega)
  · intro m hm1 hm2 heq
    simp only [intHeader] at heq
    split_ifs at heq <;> simp_all <;> omega

/-- Witness for C3's amended claim: instantiated at `n = -1`, whose header
encodes to the single byte `0x30`. -/
theorem C3_integer_range_amended_witness : (intHeader (-1)).encode = .ok [0x30] :=
  (C3_integer_range_amended (-1) (by omega) (by omega)).2.2.1

/-! ## Claim C4: shortest-encoding rule -/

/-- The payload value a header puts on the wire (lengths and counts as they
are; positive magnitudes as they are; negative magnitudes written as
`magnitude - 1`).  The five fixed headers carry no payload. -/
def Header.wirePayload : Header → Option Nat
  | .Null | .True | .False | .F32 | .F64 => none
  | .Bin i => some i
  | .Int .Pos v => some v
  | .Int .Neg v => some (v - 1)
  | .Str i => some i
  | .Sym i => some i
  | .Arr i => some i
  | .Rec i => some i
  | .Map i => some i
  | .Ref i => some i

theorem encode_long_header_length (h : Header) (i : Nat) :
    (h.encode_long_header i).length =
      if i < h.code.sz_limit then 1 else 1 + Header.size i := by
  simp only [Header.encode_long_header]
  split_ifs with hlt
  · rfl
  · have h8 := size_le_eight i
    simp [List.length_cons, List.length_drop, to_be_bytes_length]
    omega


theorem c4_len (h : Header) (p : Nat) (hp : p < 2 ^ 64) :
    (p < h.code.sz_limit → (h.encode_long_header p).length = 1) ∧
    (h.code.sz_limit ≤ p →
      (h.encode_long_header p).length = 1 + Header.size p ∧
      1 ≤ Header.size p ∧ Header.size p ≤ 8 ∧ p < 2 ^ (8 * Header.size p) ∧
      ∀ k, 1 ≤ k → p < 2 ^ (8 * k) → Header.size p ≤ k) := by
  constructor
  · intro hs
    rw [encode_long_header_length, if_pos hs]
  · intro hl
    rw [encode_long_header_length, if_neg (by omega)]
    exact ⟨rfl, size_pos p, size_le_eight p, lt_two_pow_size p hp,
      fun k hk1 hk2 => size_min p k hk1 hk2⟩

/-- C4.  The per-code inline limits are 24 for `STR`/`SYM`/`ARR`/`REC`/
`MAP`/`REF`, 19 for `BIN` (after the five fixed variants) and 8 for `INT`;
`Header::encode` emits exactly one lead byte when the wire payload is below
the code's limit, and otherwise one lead byte plus `Header::size p` trailing
big-endian bytes, where `Header::size p` is the minimal `k ∈ [1, 8]` with
`p < 2^(8k)` — never more. -/
theorem C4_shortest_encoding :
    (Code.STR.sz_limit = 24 ∧ Code.SYM.sz_limit = 24 ∧ Code.ARR.sz_limit = 24 ∧
     Code.REC.sz_limit = 24 ∧ Code.MAP.sz_limit = 24 ∧ Code.REF.sz_limit = 24 ∧
     Code.BIN.sz_limit = 19 ∧ Code.INT.sz_limit = 8) ∧
    ∀ (h : Header) (hb : List Nat), h.wfH = Bool.true → h.encode = .ok hb →
      (h.wirePayload = none → hb.length = 1) ∧
      ∀ p, h.wirePayload = some p →
        (p < h.code.sz_limit → hb.length = 1) ∧
        (h.code.sz_limit ≤ p →
          hb.length = 1 + Header.size p ∧ 1 ≤ Header.size p ∧ Header.size p ≤ 8 ∧
          p < 2 ^ (8 * Header.size p) ∧
          ∀ k, 1 ≤ k → p < 2 ^ (8 * k) → Header.size p ≤ k) := by
  refine ⟨by decide, ?_⟩
  intro h hb hwf henc
  cases h with
  | Null =>
    cases henc
    exact ⟨fun _ => rfl, fun p hp => by simp [Header.wirePayload] at hp⟩
  | True =>
    cases henc
    exact ⟨fun _ => rfl, fun p hp => by simp [Header.wirePayload] at hp⟩
  | False =>
    cases henc
    exact ⟨fun _ => rfl, fun p hp => by simp [Header.wirePayload] at hp⟩
  | F32 =>
    cases henc
    exact ⟨fun _ => rfl, fun p hp => by simp [Header.wirePayload] at hp⟩
  | F64 =>
    cases henc
    exact ⟨fun _ => rfl, fun p hp => by simp [Header.wirePayload] at hp⟩
  | Bin i =>
    obtain ⟨hlt, rfl⟩ := to_u64_ok henc
    refine ⟨fun hnone => by simp [Header.wirePayload] at hnone, ?_⟩
    intro p hp
    obtain rfl : p = i := by simpa [Header.wirePayload] using hp.symm
    exact c4_len (.Bin p) p hlt
  | Str i =>
    obtain ⟨hlt, rfl⟩ := to_u64_ok henc
    refine ⟨fun hnone => by simp [Header.wirePayload] at hnone, ?_⟩
    intro p hp
    obtain rfl : p = i := by simpa [Header.wirePayload] using hp.symm
    exact c4_len (.Str p) p hlt
  | Sym i =>
    obtain ⟨hlt, rfl⟩ := to_u64_ok henc
    refine ⟨fun hnone => by simp [Header.wirePayload] at hnone, ?_⟩
    intro p hp
    obtain rfl : p = i := by simpa [Header.wirePayload] using hp.symm
    exact c4_len (.Sym p) p hlt
  | Arr i =>
    obtain ⟨hlt, rfl⟩ := to_u64_ok henc
    refine ⟨fun hnone => by simp [Header.wirePayload] at hnone, ?_⟩
    intro p hp
    obtain rfl : p = i := by simpa [Header.wirePayload] using hp.symm
    exact c4_len (.Arr p) p hlt
  | Rec i =>
    obtain ⟨hlt, rfl⟩ := to_u64_ok henc
    refine ⟨fun hnone => by simp [Header.wirePayload] at hnone, ?_⟩
    intro p hp
    obtain rfl : p = i := by simpa [Header.wirePayload] using hp.symm
    exact c4_len (.Rec p) p hlt
  | Map i =>
    obtain ⟨hlt, rfl⟩ := to_u64_ok henc
    refine ⟨fun hnone => by simp [Header.wirePayload] at hnone, ?_⟩
    intro p hp
    obtain rfl : p = i := by simpa [Header.wirePayload] using hp.symm
    exact c4_len (.Map p) p hlt
  | Ref i =>
    obtain ⟨hlt, rfl⟩ := to_u64_ok henc
    refine ⟨fun hnone => by simp [Header.wirePayload] at hnone, ?_⟩
    intro p hp
    obtain rfl : p = i := by simpa [Header.wirePayload] using hp.symm
    exact c4_len (.Ref p) p hlt
  | Int s v =>
    have hv : v < 2 ^ 64 := by simpa [Header.wfH] using hwf
    cases s with
    | Pos =>
      cases henc
      refine ⟨fun hnone => by simp [Header.wirePayload] at hnone, ?_⟩
      intro p hp
      obtain rfl : p = v := by simpa [Header.wirePayload] using hp.symm
      exact c4_len (.Int .Pos p) p hv
    | Neg =>
      match v, hv, henc with
      | 0, hv, henc =>
        cases henc
        refine ⟨fun hnone => by simp [Header.wirePayload] at hnone, ?_⟩
        intro p hp
        obtain rfl : p = (0 : Nat) := by simpa [Header.wirePayload] using hp.symm
        exact c4_len (.Int .Pos 0) 0 hv
      | v + 1, hv, henc =>
        cases henc
        refine ⟨fun hnone => by simp [Header.wirePayload] at hnone, ?_⟩
        intro p hp
        obtain rfl : p = v := by simpa [Header.wirePayload] using hp.symm
        exact c4_len (.Int .Neg (p + 1)) p (by omega)

/-- Witness for C4: `Arr 300` needs two trailing bytes, so its encoding
`[0x99, 0x01, 0x2C]` has length `1 + Header.size 300`. -/
theorem C4_shortest_encoding_witness :
    ([0x99, 0x01, 0x2C] : List Nat).length = 1 + Header.size 300 :=
  (((C4_shortest_encoding.2 (.Arr 300) [0x99, 0x01, 0x2C] rfl rfl).2 300 rfl).2
    (by decide)).1


/-! ## Claim C9: the generic serializer's signed-integer normalization -/

/-- C9.  For every `i64` input, `Serializer::serialize_i64` emits the
integer header `Int(sign, |v|)`: the positive sign with magnitude `v` when
`v ≥ 0`, and the negative sign with magnitude `|v|` when `v < 0` — including
the extreme value `i64::MIN`, whose wrapped absolute value casts to the
magnitude `2^63`. -/
theorem C9_serialize_i64_normalization :
    (∀ v : Int, -(2 ^ 63) ≤ v → v < 2 ^ 63 →
      serialize_i64 v = if v < 0 then .Neg v.natAbs else .Pos v.toNat) ∧
    serialize_i64 (-(2 ^ 63)) = .Neg (2 ^ 63) := by
  constructor
  · intro v h1 h2
    by_cases hv : v < 0
    · rw [if_pos hv]
      simp only [serialize_i64, if_pos hv, i64_abs, i64_as_u64]
      congr 1
      omega
    · rw [if_neg hv]
      simp only [serialize_i64, if_neg hv, i64_as_u64]
      congr 1
      omega
  · simp only [serialize_i64, i64_abs, i64_as_u64]
    norm_num
    rfl

/-- Witness for C9: the universally quantified part applied at `-5`. -/
theorem C9_serialize_i64_normalization_witness :
    serialize_i64 (-5) = if (-5 : Int) < 0 then .Neg (Int.natAbs (-5)) else .Pos (Int.toNat (-5)) :=
  C9_serialize_i64_normalization.1 (-5) (by omega) (by omega)


/-! ## Over-long header forms (tolerated by `Header::decode_u64`) -/

/-- The wire form of a payload-carrying header that uses the multi-byte
marker for `k` trailing bytes, whether or not `k` is minimal: the lead byte
announces `k` big-endian payload bytes and the payload follows in exactly
`k` bytes. -/
def Header.overlong_form (h : Header) (k : Nat) : List Nat :=
  match h.wirePayload with
  | some p =>
    (h.code_bits <<< h.shift ||| (k + h.code.sz_limit + h.offset - 1))
      :: (Header.to_be_bytes p).drop (8 - k)
  | none => []

/-- Every admissible multi-byte form of a payload-carrying header — over-long
or not — decodes to exactly that header, whatever bytes follow. -/
theorem overlong_headerEnc (h : Header) (p k : Nat)
    (hp : h.wirePayload = some p) (hwf : h.wfH = Bool.true)
    (hnz : h ≠ .Int .Neg 0) (hk1 : 1 ≤ k) (hk8 : k ≤ 8)
    (hpk : p < 2 ^ (8 * k)) :
    HeaderEnc h (h.overlong_form k) := by
  cases h with
  | Null => simp [Header.wirePayload] at hp
  | True => simp [Header.wirePayload] at hp
  | False => simp [Header.wirePayload] at hp
  | F32 => simp [Header.wirePayload] at hp
  | F64 => simp [Header.wirePayload] at hp
  | Bin i =>
    obtain rfl : p = i := by simpa [Header.wirePayload] using hp.symm
    exact headerEnc_bin_tail p k hk1 hk8 hpk
  | Str i =>
    obtain rfl : p = i := by simpa [Header.wirePayload] using hp.symm
    exact headerEnc_str_tail p k hk1 hk8 hpk
  | Sym i =>
    obtain rfl : p = i := by simpa [Header.wirePayload] using hp.symm
    exact headerEnc_sym_tail p k hk1 hk8 hpk
  | Arr i =>
    obtain rfl : p = i := by simpa [Header.wirePayload] using hp.symm
    exact headerEnc_arr_tail p k hk1 hk8 hpk
  | Rec i =>
    obtain rfl : p = i := by simpa [Header.wirePayload] using hp.symm
    exact headerEnc_rec_tail p k hk1 hk8 hpk
  | Map i =>
    obtain rfl : p = i := by simpa [Header.wirePayload] using hp.symm
    exact headerEnc_map_tail p k hk1 hk8 hpk
  | Ref i =>
    obtain rfl : p = i := by simpa [Header.wirePayload] using hp.symm
    exact headerEnc_ref_tail p k hk1 hk8 hpk
  | Int s v =>
    have hv : v < 2 ^ 64 := by simpa [Header.wfH] using hwf
    cases s with
    | Pos =>
      obtain rfl : p = v := by simpa [Header.wirePayload] using hp.symm
      exact headerEnc_int_pos_tail p k hk1 hk8 hpk
    | Neg =>
      have hv1 : 1 ≤ v := by
        rcases Nat.eq_zero_or_pos v with h0 | h1
        · exact absurd (h0 ▸ rfl) hnz
        · exact h1
      obtain rfl : p = v - 1 := by simpa [Header.wirePayload] using hp.symm
      exact headerEnc_int_neg_tail v k hk1 hk8 hv1 hv hpk


/-! ## The encoding relation

`EncRel e t B e'` relates an encoder symbol-table state `e` and a value (or
a list of values, pairs or record keys) to the byte strings `B` the wire
format accepts for it, threading the updated state `e'`.  It follows
`Encoder::encode_inner` step for step — in particular the interning
decisions are exactly the encoder's — except that each header may use any
form `Header::decode` accepts for it (`HeaderEnc`), not only the shortest
one.  The output of `Encoder::encode` inhabits the relation
(`encodeInner_encRel`), and so does every re-encoding of it in which length
prefixes are replaced by longer equivalent forms. -/

/-- What is being encoded: one value, a list of values (array elements or
record field values), a list of key/value pairs, or a record's key list. -/
inductive EncTask where
  | val (v : Value)
  | vals (vs : List Value)
  | prs (ps : List (Value × Value))
  | keys (ks : List (List Nat))

/-- Interning a new symbol, as `Encoder::encode_symbol` does on a miss. -/
def EncState.insSym (e : EncState) (s : List Nat) : EncState :=
  { next_free := e.next_free + 1, symbols := (s, e.next_free) :: e.symbols,
    records := e.records }

/-- Interning a new record layout, as the record arm of
`Encoder::encode_inner` does on a miss. -/
def EncState.insRec (e : EncState) (l : List (List Nat)) : EncState :=
  { next_free := e.next_free + 1, symbols := e.symbols,
    records := (l, e.next_free) :: e.records }

inductive EncRel : EncState → EncTask → List Nat → EncState → Prop where
  | null {e hb} : HeaderEnc .Null hb → EncRel e (.val .null) hb e
  | btrue {e hb} : HeaderEnc .True hb → EncRel e (.val (.bool Bool.true)) hb e
  | bfalse {e hb} : HeaderEnc .False hb → EncRel e (.val (.bool Bool.false)) hb e
  | f32 {e hb bits} : HeaderEnc .F32 hb → bits.length = 4 →
      EncRel e (.val (.f32 bits)) (hb ++ bits) e
  | f64 {e hb bits} : HeaderEnc .F64 hb → bits.length = 8 →
      EncRel e (.val (.f64 bits)) (hb ++ bits) e
  | bytes {e hb data} : HeaderEnc (.Bin data.length) hb →
      EncRel e (.val (.bytes data)) (hb ++ data) e
  | intPos {e hb v} : HeaderEnc (.Int .Pos v) hb →
      EncRel e (.val (.int .Pos v)) hb e
  | intNegZero {e hb} : HeaderEnc (.Int .Pos 0) hb →
      EncRel e (.val (.int .Neg 0)) hb e
  | intNeg {e hb v} : v ≠ 0 → HeaderEnc (.Int .Neg v) hb →
      EncRel e (.val (.int .Neg v)) hb e
  | str {e hb s} : validUtf8 s = Bool.true → HeaderEnc (.Str s.length) hb →
      EncRel e (.val (.str s)) (hb ++ s) e
  | symNew {e hb s} : alookup e.symbols s = none → validUtf8 s = Bool.true →
      HeaderEnc (.Sym s.length) hb →
      EncRel e (.val (.symbol s)) (hb ++ s) (e.insSym s)
  | symRef {e hb s i} : alookup e.symbols s = some i → HeaderEnc (.Ref i) hb →
      EncRel e (.val (.symbol s)) hb e
  | arr {e hb elems B e'} : HeaderEnc (.Arr elems.length) hb →
      EncRel e (.vals elems) B e' →
      EncRel e (.val (.array elems)) (hb ++ B) e'
  | mapv {e hb pairs B e'} : HeaderEnc (.Map pairs.length) hb →
      EncRel e (.prs pairs) B e' →
      EncRel e (.val (.map pairs)) (hb ++ B) e'
  | recNew {e hb fields KB e₁ VB e₂} :
      alookup e.records (fields.map Prod.fst) = none →
      sortedKeys (fields.map Prod.fst) = Bool.true →
      HeaderEnc (.Rec fields.length) hb →
      EncRel e (.keys (fields.map Prod.fst)) KB e₁ →
      EncRel (e₁.insRec (fields.map Prod.fst)) (.vals (fields.map Prod.snd)) VB e₂ →
      EncRel e (.val (.record fields)) (hb ++ (KB ++ VB)) e₂
  | recRef {e hb fields i VB e'} :
      alookup e.records (fields.map Prod.fst) = some i →
      sortedKeys (fields.map Prod.fst) = Bool.true →
      HeaderEnc (.Ref i) hb →
      EncRel e (.vals (fields.map Prod.snd)) VB e' →
      EncRel e (.val (.record fields)) (hb ++ VB) e'
  | valsNil {e} : EncRel e (.vals []) [] e
  | valsCons {e v B e₁ vs Bs e₂} : EncRel e (.val v) B e₁ →
      EncRel e₁ (.vals vs) Bs e₂ →
      EncRel e (.vals (v :: vs)) (B ++ Bs) e₂
  | prsNil {e} : EncRel e (.prs []) [] e
  | prsCons {e k KB e₁ v VB e₂ ps Bs e₃} : EncRel e (.val k) KB e₁ →
      EncRel e₁ (.val v) VB e₂ → EncRel e₂ (.prs ps) Bs e₃ →
      EncRel e (.prs ((k, v) :: ps)) (KB ++ (VB ++ Bs)) e₃
  | keysNil {e} : EncRel e (.keys []) [] e
  | keysCons {e k B e₁ ks Bs e₂} : EncRel e (.val (.symbol k)) B e₁ →
      EncRel e₁ (.keys ks) Bs e₂ →
      EncRel e (.keys (k :: ks)) (B ++ Bs) e₂

/-- Agreement between the encoder's text/layout-to-index maps and the
decoder's index-to-entry table: same number of interned entries, and every
encoder-side binding is mirrored at the same index on the decoder side. -/
structure Agree (e : EncState) (d : List Refable) : Prop where
  len : d.length = e.next_free
  syms : ∀ s i, alookup e.symbols s = some i → d.get? i = some (.Sym s)
  recs : ∀ l i, alookup e.records l = some i → d.get? i = some (.Rec l)

theorem Agree.init : Agree EncState.init [] where
  len := rfl
  syms := fun s i h => by simp [alookup, EncState.init] at h
  recs := fun l i h => by simp [alookup, EncState.init] at h

theorem Agree.get_lt {e d} (hag : Agree e d) {i : Nat} {r : Refable}
    (h : d.get? i = some r) : i < d.length :=
  List.get?_eq_some.mp h |>.1

theorem Agree.insSym {e d} (hag : Agree e d) (s : List Nat) :
    Agree (e.insSym s) (d ++ [.Sym s]) where
  len := by simp [EncState.insSym, hag.len]
  syms := by
    intro s' i h
    simp only [EncState.insSym, alookup] at h
    split_ifs at h with hss
    · cases h
      subst hss
      rw [← hag.len]
      exact List.get?_concat_length d _
    · have hold := hag.syms s' i h
      rw [List.get?_append (hag.get_lt hold)]
      exact hold
  recs := by
    intro l i h
    have hold := hag.recs l i h
    rw [List.get?_append (hag.get_lt hold)]
    exact hold

theorem Agree.insRec {e d} (hag : Agree e d) (l : List (List Nat)) :
    Agree (e.insRec l) (d ++ [.Rec l]) where
  len := by simp [EncState.insRec, hag.len]
  syms := by
    intro s i h
    have hold := hag.syms s i h
    rw [List.get?_append (hag.get_lt hold)]
    exact hold
  recs := by
    intro l' i h
    simp only [EncState.insRec, alookup] at h
    split_ifs at h with hll
    · cases h
      subst hll
      rw [← hag.len]
      exact List.get?_concat_length d _
    · have hold := hag.recs l' i h
      rw [List.get?_append (hag.get_lt hold)]
      exact hold


/-! ## Rebuilding a sorted field map

The decoder rebuilds a record's `BTreeMap` by inserting the decoded value
for each key in wire order.  When the keys are strictly sorted — which they
are for every message the encoder can produce, since `BTreeMap` iterates in
strictly increasing key order — the inserts reproduce the association list
exactly. -/

theorem bytesLt_irrefl (k : List Nat) : bytesLt k k = Bool.false := by
  induction k with
  | nil => rfl
  | cons a as ih => simp [bytesLt, ih]

theorem bytesLt_cons (x y : Nat) (xs ys : List Nat) :
    bytesLt (x :: xs) (y :: ys) = Bool.true ↔
      (x < y ∨ (x = y ∧ bytesLt xs ys = Bool.true)) := by
  simp only [bytesLt]
  split_ifs with h1 h2 <;> simp_all

theorem bytesLt_asymm : ∀ (a b : List Nat), bytesLt a b = Bool.true →
    bytesLt b a = Bool.false := by
  intro a
  induction a with
  | nil =>
    intro b _
    cases b <;> rfl
  | cons x xs ih =>
    intro b hab
    cases b with
    | nil => simp [bytesLt] at hab
    | cons y ys =>
      rcases (bytesLt_cons x y xs ys).mp hab with h | ⟨rfl, hlt⟩
      · simp only [bytesLt, if_neg (show ¬ y < x by omega),
          if_neg (show ¬ y = x by omega)]
      · simp only [bytesLt, if_neg (show ¬ x < x by omega), if_pos rfl]
        exact ih ys hlt

theorem bytesLt_ne {a b : List Nat} (h : bytesLt a b = Bool.true) : a ≠ b := by
  intro heq
  subst heq
  rw [bytesLt_irrefl a] at h
  cases h

theorem bytesLt_trans : ∀ (a b c : List Nat), bytesLt a b = Bool.true →
    bytesLt b c = Bool.true → bytesLt a c = Bool.true := by
  intro a
  induction a with
  | nil =>
    intro b c hab hbc
    cases b with
    | nil => simp [bytesLt] at hab
    | cons y ys =>
      cases c with
      | nil => simp [bytesLt] at hbc
      | cons z zs => rfl
  | cons x xs ih =>
    intro b c hab hbc
    cases b with
    | nil => simp [bytesLt] at hab
    | cons y ys =>
      cases c with
      | nil => simp [bytesLt] at hbc
      | cons z zs =>
        rcases (bytesLt_cons x y xs ys).mp hab with h1 | ⟨heq1, hlt1⟩ <;>
          rcases (bytesLt_cons y z ys zs).mp hbc with h2 | ⟨heq2, hlt2⟩
        · exact (bytesLt_cons x z xs zs).mpr (Or.inl (by omega))
        · exact (bytesLt_cons x z xs zs).mpr (Or.inl (by omega))
        · exact (bytesLt_cons x z xs zs).mpr (Or.inl (by omega))
        · exact (bytesLt_cons x z xs zs).mpr
            (Or.inr ⟨by omega, ih ys zs hlt1 hlt2⟩)

/-- Inserting a key greater than every existing key appends the binding. -/
theorem mapInsert_append (m : List (List Nat × Value)) (k : List Nat) (v : Value)
    (hgt : ∀ k' ∈ m.map Prod.fst, bytesLt k' k = Bool.true) :
    mapInsert m k v = m ++ [(k, v)] := by
  induction m with
  | nil => rfl
  | cons kv m' ih =>
    obtain ⟨k', v'⟩ := kv
    have hk' : bytesLt k' k = Bool.true := hgt k' (by simp)
    simp only [mapInsert]
    rw [if_neg (by simp [bytesLt_asymm k' k hk']),
      if_neg (Ne.symm (bytesLt_ne hk')),
      ih (fun q hq => hgt q (by simp [hq]))]
    simp

theorem sortedKeys_head_lt : ∀ (ks : List (List Nat)) (k : List Nat),
    sortedKeys (k :: ks) = Bool.true → ∀ k' ∈ ks, bytesLt k k' = Bool.true := by
  intro ks
  induction ks with
  | nil => intro k _ k' hk'; simp at hk'
  | cons k2 ks' ih =>
    intro k hs k' hk'
    have h12 : bytesLt k k2 = Bool.true := by
      simp only [sortedKeys, Bool.and_eq_true] at hs
      exact hs.1
    have hrest : sortedKeys (k2 :: ks') = Bool.true := by
      simp only [sortedKeys, Bool.and_eq_true] at hs
      exact hs.2
    rcases List.mem_cons.mp hk' with rfl | hmem
    · exact h12
    · exact bytesLt_trans k k2 k' h12 (ih k2 hrest k' hmem)

theorem sortedKeys_tail : ∀ (ks : List (List Nat)) (k : List Nat),
    sortedKeys (k :: ks) = Bool.true → sortedKeys ks = Bool.true := by
  intro ks k hs
  cases ks with
  | nil => rfl
  | cons k2 ks' =>
    simp only [sortedKeys, Bool.and_eq_true] at hs
    exact hs.2

theorem sorted_append_lt : ∀ (l1 : List (List Nat)) (k : List Nat) (l2 : List (List Nat)),
    sortedKeys (l1 ++ k :: l2) = Bool.true → ∀ k' ∈ l1, bytesLt k' k = Bool.true := by
  intro l1
  induction l1 with
  | nil => intro k l2 _ k' hk'; simp at hk'
  | cons a l1' ih =>
    intro k l2 hs k' hk'
    rcases List.mem_cons.mp hk' with rfl | hmem
    · exact sortedKeys_head_lt (l1' ++ k :: l2) k' hs k (by simp)
    · exact ih k l2 (sortedKeys_tail (l1' ++ k :: l2) a hs) k' hmem

/-- Folding the decoder's inserts over a strictly sorted association list
onto a sorted strict prefix reproduces the concatenation. -/
theorem insFold_sorted_aux :
    ∀ (fs m : List (List Nat × Value)),
      sortedKeys ((m ++ fs).map Prod.fst) = Bool.true →
      List.foldl (fun acc kv => mapInsert acc kv.1 kv.2) m fs = m ++ fs := by
  intro fs
  induction fs with
  | nil => intro m _; simp
  | cons kv fs' ih =>
    intro m hsort
    obtain ⟨k, v⟩ := kv
    have hmap : (m ++ (k, v) :: fs').map Prod.fst
        = m.map Prod.fst ++ k :: fs'.map Prod.fst := by simp
    have hgt : ∀ k' ∈ m.map Prod.fst, bytesLt k' k = Bool.true := by
      intro k' hk'
      exact sorted_append_lt (m.map Prod.fst) k (fs'.map Prod.fst)
        (by rw [← hmap]; exact hsort) k' hk'
    have hstep : List.foldl (fun acc kv => mapInsert acc kv.1 kv.2) m ((k, v) :: fs')
        = List.foldl (fun acc kv => mapInsert acc kv.1 kv.2) (m ++ [(k, v)]) fs' := by
      simp [List.foldl_cons, mapInsert_append m k v hgt]
    rw [hstep, ih (m ++ [(k, v)]) (by simpa using hsort)]
    simp

/-- Folding the inserts over a whole strictly sorted association list from
the empty map reproduces it. -/
theorem insFold_sorted (fs : List (List Nat × Value))
    (hsort : sortedKeys (fs.map Prod.fst) = Bool.true) :
    List.foldl (fun acc kv => mapInsert acc kv.1 kv.2) [] fs = fs :=
  insFold_sorted_aux fs [] (by simpa using hsort)


/-! ## Stepping the decoder -/

/-- The always-succeeding allocator: the host has enough memory. -/
def allocAll : Nat → Bool := fun _ => Bool.true

theorem drop_shift {full A rest' : List Nat} {p : Nat}
    (h : full.drop p = A ++ rest') : full.drop (p + A.length) = rest' := by
  rw [← List.drop_drop, h, List.drop_left]

theorem decodeHeader_of_headerEnc {h : Header} {hb full rest' : List Nat}
    {p : Nat} {d : List Refable} (he : HeaderEnc h hb)
    (hdrop : full.drop p = hb ++ rest') :
    decodeHeader ⟨full, p, d⟩ = .ok (h, ⟨full, p + hb.length, d⟩) := by
  simp only [decodeHeader, hdrop, he rest']

theorem decodeSlice_step {full data rest' : List Nat} {p : Nat}
    {d : List Refable} (hdrop : full.drop p = data ++ rest') {len : Nat}
    (hlen : data.length = len) :
    decodeSlice len ⟨full, p, d⟩ = .ok (data, ⟨full, p + len, d⟩) := by
  simp only [decodeSlice, hdrop]
  rw [if_neg (by rw [List.length_append]; omega), ← hlen, List.take_left]

/-- The value loop of the record arms is the element loop followed by the
key-indexed inserts: the inserts do not touch the decoder state. -/
theorem decodeFields_eq_decodeList (dv : DecState → DecResult (Value × DecState)) :
    ∀ (ks : List (List Nat)) (m : List (List Nat × Value)) (st : DecState),
      decodeFields dv ks m st =
        (decodeList dv ks.length st).map fun r =>
          (List.foldl (fun acc kv => mapInsert acc kv.1 kv.2) m (ks.zip r.1), r.2) := by
  intro ks
  induction ks with
  | nil =>
    intro m st
    simp [decodeFields, decodeList, Except.map]
  | cons k ks' ih =>
    intro m st
    simp only [decodeFields, decodeList, List.length_cons]
    cases dv st with
    | error e => simp [Except.map]
    | ok r =>
      obtain ⟨v, st₁⟩ := r
      dsimp only
      rw [ih (mapInsert m k v) st₁]
      cases decodeList dv ks'.length st₁ with
      | error e => simp [Except.map]
      | ok r₂ => simp [Except.map]

theorem normFields_map_fst : ∀ (fs : List (List Nat × Value)),
    (Value.normFields fs).map Prod.fst = fs.map Prod.fst := by
  intro fs
  induction fs with
  | nil => rfl
  | cons kv fs' ih => obtain ⟨k, v⟩ := kv; simp [Value.normFields, ih]

theorem zip_norm_fields : ∀ (fs : List (List Nat × Value)),
    (fs.map Prod.fst).zip (Value.normList (fs.map Prod.snd)) = Value.normFields fs := by
  intro fs
  induction fs with
  | nil => rfl
  | cons kv fs' ih =>
    obtain ⟨k, v⟩ := kv
    simp [Value.normList, Value.normFields, ih]

theorem normList_length : ∀ (vs : List Value), (Value.normList vs).length = vs.length := by
  intro vs
  induction vs with
  | nil => rfl
  | cons v vs' ih => simp [Value.normList, ih]

/-- The conclusion of the decode-correctness induction, per task kind:
starting anywhere in a buffer whose remaining bytes begin with an accepted
encoding, and with a decoder table agreeing with the encoder state, the
decoder returns the normalized value(s), advances the cursor past exactly
the encoding, and its table agrees with the updated encoder state. -/
def DecodesTo (t : EncTask) (fuel : Nat) (full : List Nat) (p : Nat)
    (d : List Refable) (len : Nat) (e' : EncState) : Prop :=
  match t with
  | .val v => ∃ d', decodeValue allocAll fuel ⟨full, p, d⟩
      = .ok (v.norm, ⟨full, p + len, d'⟩) ∧ Agree e' d'
  | .vals vs => ∃ d', decodeList (decodeValue allocAll fuel) vs.length ⟨full, p, d⟩
      = .ok (Value.normList vs, ⟨full, p + len, d'⟩) ∧ Agree e' d'
  | .prs ps => ∃ d', decodePairs (decodeValue allocAll fuel) ps.length ⟨full, p, d⟩
      = .ok (Value.normPairs ps, ⟨full, p + len, d'⟩) ∧ Agree e' d'
  | .keys ks => ∃ d', decodeKeys (decodeValue allocAll fuel) ks.length ⟨full, p, d⟩
      = .ok (ks, ⟨full, p + len, d'⟩) ∧ Agree e' d'


set_option maxHeartbeats 1000000

/-- Decode correctness over the encoding relation: decoding an accepted
encoding from any position of any buffer yields the normalized value,
consumes exactly the encoding, and keeps the symbol tables in agreement. -/
theorem encRel_decode {e : EncState} {t : EncTask} {B : List Nat} {e' : EncState}
    (hrel : EncRel e t B e') :
    ∀ (d : List Refable), Agree e d →
    ∀ (full : List Nat) (p : Nat) (rest : List Nat) (fuel : Nat),
      full.drop p = B ++ rest → B.length ≤ fuel →
      DecodesTo t fuel full p d B.length e' := by
  induction hrel with
  | @null e hb he =>
    intro d hag full p rest fuel hdrop hfuel
    dsimp only [DecodesTo]
    obtain ⟨m, rfl⟩ : ∃ m, fuel = m + 1 := ⟨fuel - 1, by have := he.length_pos; omega⟩
    refine ⟨d, ?_, hag⟩
    simp only [decodeValue]
    rw [decodeHeader_of_headerEnc he hdrop]
    simp [Value.norm]
  | @btrue e hb he =>
    intro d hag full p rest fuel hdrop hfuel
    dsimp only [DecodesTo]
    obtain ⟨m, rfl⟩ : ∃ m, fuel = m + 1 := ⟨fuel - 1, by have := he.length_pos; omega⟩
    refine ⟨d, ?_, hag⟩
    simp only [decodeValue]
    rw [decodeHeader_of_headerEnc he hdrop]
    simp [Value.norm]
  | @bfalse e hb he =>
    intro d hag full p rest fuel hdrop hfuel
    dsimp only [DecodesTo]
    obtain ⟨m, rfl⟩ : ∃ m, fuel = m + 1 := ⟨fuel - 1, by have := he.length_pos; omega⟩
    refine ⟨d, ?_, hag⟩
    simp only [decodeValue]
    rw [decodeHeader_of_headerEnc he hdrop]
    simp [Value.norm]
  | @f32 e hb bits he hlen =>
    intro d hag full p rest fuel hdrop hfuel
    dsimp only [DecodesTo]
    rw [List.append_assoc] at hdrop
    rw [List.length_append] at hfuel
    obtain ⟨m, rfl⟩ : ∃ m, fuel = m + 1 := ⟨fuel - 1, by have := he.length_pos; omega⟩
    refine ⟨d, ?_, hag⟩
    simp only [decodeValue]
    rw [decodeHeader_of_headerEnc he hdrop]
    dsimp only
    rw [decodeSlice_step (drop_shift hdrop) hlen]
    simp [Value.norm, hlen, Nat.add_assoc]
  | @f64 e hb bits he hlen =>
    intro d hag full p rest fuel hdrop hfuel
    dsimp only [DecodesTo]
    rw [List.append_assoc] at hdrop
    rw [List.length_append] at hfuel
    obtain ⟨m, rfl⟩ : ∃ m, fuel = m + 1 := ⟨fuel - 1, by have := he.length_pos; omega⟩
    refine ⟨d, ?_, hag⟩
    simp only [decodeValue]
    rw [decodeHeader_of_headerEnc he hdrop]
    dsimp only
    rw [decodeSlice_step (drop_shift hdrop) hlen]
    simp [Value.norm, hlen, Nat.add_assoc]
  | @bytes e hb data he =>
    intro d hag full p rest fuel hdrop hfuel
    dsimp only [DecodesTo]
    rw [List.append_assoc] at hdrop
    rw [List.length_append] at hfuel
    obtain ⟨m, rfl⟩ : ∃ m, fuel = m + 1 := ⟨fuel - 1, by have := he.length_pos; omega⟩
    refine ⟨d, ?_, hag⟩
    simp only [decodeValue]
    rw [decodeHeader_of_headerEnc he hdrop]
    dsimp only
    rw [decodeSlice_step (drop_shift hdrop) rfl]
    simp [Value.norm, Nat.add_assoc]
  | @intPos e hb v he =>
    intro d hag full p rest fuel hdrop hfuel
    dsimp only [DecodesTo]
    obtain ⟨m, rfl⟩ : ∃ m, fuel = m + 1 := ⟨fuel - 1, by have := he.length_pos; omega⟩
    refine ⟨d, ?_, hag⟩
    simp only [decodeValue]
    rw [decodeHeader_of_headerEnc he hdrop]
    simp [Value.norm]
  | @intNegZero e hb he =>
    intro d hag full p rest fuel hdrop hfuel
    dsimp only [DecodesTo]
    obtain ⟨m, rfl⟩ : ∃ m, fuel = m + 1 := ⟨fuel - 1, by have := he.length_pos; omega⟩
    refine ⟨d, ?_, hag⟩
    simp only [decodeValue]
    rw [decodeHeader_of_headerEnc he hdrop]
    simp [Value.norm]
  | @intNeg e hb v hv he =>
    intro d hag full p rest fuel hdrop hfuel
    dsimp only [DecodesTo]
    obtain ⟨v', rfl⟩ : ∃ v', v = v' + 1 := ⟨v - 1, by omega⟩
    obtain ⟨m, rfl⟩ : ∃ m, fuel = m + 1 := ⟨fuel - 1, by have := he.length_pos; omega⟩
    refine ⟨d, ?_, hag⟩
    simp only [decodeValue]
    rw [decodeHeader_of_headerEnc he hdrop]
    simp [Value.norm]
  | @str e hb s hutf he =>
    intro d hag full p rest fuel hdrop hfuel
    dsimp only [DecodesTo]
    rw [List.append_assoc] at hdrop
    rw [List.length_append] at hfuel
    obtain ⟨m, rfl⟩ : ∃ m, fuel = m + 1 := ⟨fuel - 1, by have := he.length_pos; omega⟩
    refine ⟨d, ?_, hag⟩
    simp only [decodeValue]
    rw [decodeHeader_of_headerEnc he hdrop]
    dsimp only
    rw [decodeSlice_step (drop_shift hdrop) rfl]
    dsimp only
    rw [if_pos hutf]
    simp [Value.norm, Nat.add_assoc]
  | @symNew e hb s hlk hutf he =>
    intro d hag full p rest fuel hdrop hfuel
    dsimp only [DecodesTo]
    rw [List.append_assoc] at hdrop
    rw [List.length_append] at hfuel
    obtain ⟨m, rfl⟩ : ∃ m, fuel = m + 1 := ⟨fuel - 1, by have := he.length_pos; omega⟩
    refine ⟨d ++ [.Sym s], ?_, hag.insSym s⟩
    simp only [decodeValue]
    rw [decodeHeader_of_headerEnc he hdrop]
    dsimp only
    rw [decodeSlice_step (drop_shift hdrop) rfl]
    dsimp only
    rw [if_pos hutf]
    simp [Value.norm, Nat.add_assoc]
  | @symRef e hb s i hlk he =>
    intro d hag full p rest fuel hdrop hfuel
    dsimp only [DecodesTo]
    obtain ⟨m, rfl⟩ : ∃ m, fuel = m + 1 := ⟨fuel - 1, by have := he.length_pos; omega⟩
    refine ⟨d, ?_, hag⟩
    simp only [decodeValue]
    rw [decodeHeader_of_headerEnc he hdrop]
    dsimp only
    rw [hag.syms s i hlk]
    simp [Value.norm]
  | @arr e hb elems BL e₁ he hsub ih =>
    intro d hag full p rest fuel hdrop hfuel
    dsimp only [DecodesTo]
    rw [List.append_assoc] at hdrop
    rw [List.length_append] at hfuel
    have hhb := he.length_pos
    obtain ⟨m, rfl⟩ : ∃ m, fuel = m + 1 := ⟨fuel - 1, by omega⟩
    have ihres := ih d hag full (p + hb.length) rest m (drop_shift hdrop) (by omega)
    dsimp only [DecodesTo] at ihres
    obtain ⟨d', heq, hag'⟩ := ihres
    refine ⟨d', ?_, hag'⟩
    simp only [decodeValue]
    rw [decodeHeader_of_headerEnc he hdrop]
    dsimp only
    simp only [tryReserve, allocAll, if_pos]
    rw [heq]
    simp [Value.norm, Nat.add_assoc]
  | @mapv e hb pairs BL e₁ he hsub ih =>
    intro d hag full p rest fuel hdrop hfuel
    dsimp only [DecodesTo]
    rw [List.append_assoc] at hdrop
    rw [List.length_append] at hfuel
    have hhb := he.length_pos
    obtain ⟨m, rfl⟩ : ∃ m, fuel = m + 1 := ⟨fuel - 1, by omega⟩
    have ihres := ih d hag full (p + hb.length) rest m (drop_shift hdrop) (by omega)
    dsimp only [DecodesTo] at ihres
    obtain ⟨d', heq, hag'⟩ := ihres
    refine ⟨d', ?_, hag'⟩
    simp only [decodeValue]
    rw [decodeHeader_of_headerEnc he hdrop]
    dsimp only
    simp only [tryReserve, allocAll, if_pos]
    rw [heq]
    simp [Value.norm, Nat.add_assoc]
  | @recNew e hb fields KB e₁ VB e₂ hlk hsort he hkeys hvals ihk ihv =>
    intro d hag full p rest fuel hdrop hfuel
    dsimp only [DecodesTo]
    rw [List.append_assoc, List.append_assoc KB VB rest] at hdrop
    rw [List.length_append, List.length_append] at hfuel
    have hhb := he.length_pos
    obtain ⟨m, rfl⟩ : ∃ m, fuel = m + 1 := ⟨fuel - 1, by omega⟩
    have ihkres := ihk d hag full (p + hb.length) (VB ++ rest) m (drop_shift hdrop) (by omega)
    dsimp only [DecodesTo] at ihkres
    obtain ⟨d₁, heqk, hag₁⟩ := ihkres
    have hdropv : full.drop (p + hb.length + KB.length) = VB ++ rest :=
      drop_shift (drop_shift hdrop)
    have ihvres := ihv (d₁ ++ [.Rec (fields.map Prod.fst)]) (hag₁.insRec _)
      full (p + hb.length + KB.length) rest m hdropv (by omega)
    dsimp only [DecodesTo] at ihvres
    obtain ⟨d₂, heqv, hag₂⟩ := ihvres
    refine ⟨d₂, ?_, hag₂⟩
    simp only [decodeValue]
    rw [decodeHeader_of_headerEnc he hdrop]
    dsimp only
    simp only [tryReserve, allocAll, if_pos]
    rw [show fields.length = (fields.map Prod.fst).length from (List.length_map _ _).symm,
      heqk]
    dsimp only
    rw [decodeFields_eq_decodeList,
      show (fields.map Prod.fst).length = (fields.map Prod.snd).length from by simp,
      heqv]
    simp only [Except.map]
    rw [zip_norm_fields, insFold_sorted _ (by rw [normFields_map_fst]; exact hsort)]
    simp [Value.norm, Nat.add_assoc]
  | @recRef e hb fields i VB e₁ hlk hsort he hvals ihv =>
    intro d hag full p rest fuel hdrop hfuel
    dsimp only [DecodesTo]
    rw [List.append_assoc] at hdrop
    rw [List.length_append] at hfuel
    have hhb := he.length_pos
    obtain ⟨m, rfl⟩ : ∃ m, fuel = m + 1 := ⟨fuel - 1, by omega⟩
    have ihvres := ihv d hag full (p + hb.length) rest m (drop_shift hdrop) (by omega)
    dsimp only [DecodesTo] at ihvres
    obtain ⟨d₂, heqv, hag₂⟩ := ihvres
    refine ⟨d₂, ?_, hag₂⟩
    simp only [decodeValue]
    rw [decodeHeader_of_headerEnc he hdrop]
    dsimp only
    rw [hag.recs _ i hlk]
    dsimp only
    rw [decodeFields_eq_decodeList,
      show (fields.map Prod.fst).length = (fields.map Prod.snd).length from by simp,
      heqv]
    simp only [Except.map]
    rw [zip_norm_fields, insFold_sorted _ (by rw [normFields_map_fst]; exact hsort)]
    simp [Value.norm, Nat.add_assoc]
  | @valsNil e =>
    intro d hag full p rest fuel hdrop hfuel
    dsimp only [DecodesTo]
    exact ⟨d, by simp [decodeList, Value.normList], hag⟩
  | @valsCons e v BV e₁ vs Bs e₂ hv hvs ihv ihvs =>
    intro d hag full p rest fuel hdrop hfuel
    dsimp only [DecodesTo]
    rw [List.append_assoc] at hdrop
    rw [List.length_append] at hfuel
    have ihvres := ihv d hag full p (Bs ++ rest) fuel hdrop (by omega)
    dsimp only [DecodesTo] at ihvres
    obtain ⟨d₁, heq1, hag₁⟩ := ihvres
    have ihvsres := ihvs d₁ hag₁ full (p + BV.length) rest fuel (drop_shift hdrop) (by omega)
    dsimp only [DecodesTo] at ihvsres
    obtain ⟨d₂, heq2, hag₂⟩ := ihvsres
    refine ⟨d₂, ?_, hag₂⟩
    simp only [decodeList, List.length_cons]
    rw [heq1]
    dsimp only
    rw [heq2]
    simp [Value.normList, Nat.add_assoc]
  | @prsNil e =>
    intro d hag full p rest fuel hdrop hfuel
    dsimp only [DecodesTo]
    exact ⟨d, by simp [decodePairs, Value.normPairs], hag⟩
  | @prsCons e k KB e₁ v VB e₂ ps Bs e₃ hk hv hps ihk ihv ihps =>
    intro d hag full p rest fuel hdrop hfuel
    dsimp only [DecodesTo]
    rw [List.append_assoc, List.append_assoc VB Bs rest] at hdrop
    rw [List.length_append, List.length_append] at hfuel
    have ihkres := ihk d hag full p (VB ++ (Bs ++ rest)) fuel hdrop (by omega)
    dsimp only [DecodesTo] at ihkres
    obtain ⟨d₁, heq1, hag₁⟩ := ihkres
    have ihvres := ihv d₁ hag₁ full (p + KB.length) (Bs ++ rest) fuel
      (drop_shift hdrop) (by omega)
    dsimp only [DecodesTo] at ihvres
    obtain ⟨d₂, heq2, hag₂⟩ := ihvres
    have ihpsres := ihps d₂ hag₂ full (p + KB.length + VB.length) rest fuel
      (drop_shift (drop_shift hdrop)) (by omega)
    dsimp only [DecodesTo] at ihpsres
    obtain ⟨d₃, heq3, hag₃⟩ := ihpsres
    refine ⟨d₃, ?_, hag₃⟩
    simp only [decodePairs, List.length_cons]
    rw [heq1]
    dsimp only
    rw [heq2]
    dsimp only
    rw [heq3]
    simp [Value.normPairs, Nat.add_assoc]
  | @keysNil e =>
    intro d hag full p rest fuel hdrop hfuel
    dsimp only [DecodesTo]
    exact ⟨d, by simp [decodeKeys], hag⟩
  | @keysCons e k KB e₁ ks Bs e₂ hk hks ihk ihks =>
    intro d hag full p rest fuel hdrop hfuel
    dsimp only [DecodesTo]
    rw [List.append_assoc] at hdrop
    rw [List.length_append] at hfuel
    have ihkres := ihk d hag full p (Bs ++ rest) fuel hdrop (by omega)
    dsimp only [DecodesTo] at ihkres
    obtain ⟨d₁, heq1, hag₁⟩ := ihkres
    simp only [Value.norm] at heq1
    have ihksres := ihks d₁ hag₁ full (p + KB.length) rest fuel (drop_shift hdrop) (by omega)
    dsimp only [DecodesTo] at ihksres
    obtain ⟨d₂, heq2, hag₂⟩ := ihksres
    refine ⟨d₂, ?_, hag₂⟩
    simp only [decodeKeys, List.length_cons]
    rw [heq1]
    dsimp only
    rw [heq2]
    simp [Nat.add_assoc]


/-! ## The encoder's output inhabits the encoding relation -/

theorem except_map_ok {α β γ : Type} {x : Except α β} {f : β → γ} {y : γ}
    (h : x.map f = .ok y) : ∃ b, x = .ok b ∧ f b = y := by
  cases x with
  | error e => simp [Except.map] at h
  | ok b =>
    simp [Except.map] at h
    exact ⟨b, rfl, h⟩

theorem encodeSymbol_encRel (e : EncState) (s : List Nat) (B : List Nat)
    (e' : EncState) (hutf : validUtf8 s = Bool.true)
    (henc : encodeSymbol e s = .ok (B, e')) :
    EncRel e (.val (.symbol s)) B e' := by
  cases hlk : alookup e.symbols s with
  | some i =>
    simp only [encodeSymbol, hlk] at henc
    obtain ⟨hb, hhb, hfb⟩ := except_map_ok henc
    obtain ⟨rfl, rfl⟩ : hb = B ∧ e = e' := by simpa using hfb
    exact EncRel.symRef hlk (encode_headerEnc (.Ref i) rfl hb hhb)
  | none =>
    simp only [encodeSymbol, hlk, EncState.next] at henc
    cases hhb : (Header.Sym s.length).encode with
    | error err => rw [hhb] at henc; cases henc
    | ok hb =>
      rw [hhb] at henc
      obtain ⟨rfl, rfl⟩ : hb ++ s = B ∧
          ({ next_free := e.next_free + 1,
             symbols := (s, e.next_free) :: e.symbols,
             records := e.records } : EncState) = e' := by
        simpa using henc
      exact EncRel.symNew hlk hutf (encode_headerEnc (.Sym s.length) rfl hb hhb)

theorem encodeKeys_encRel : ∀ (ks : List (List Nat)) (e : EncState) (B : List Nat)
    (e' : EncState), ks.all validUtf8 = Bool.true →
    encodeKeys e ks = .ok (B, e') → EncRel e (.keys ks) B e' := by
  intro ks
  induction ks with
  | nil =>
    intro e B e' _ henc
    obtain ⟨rfl, rfl⟩ : ([] : List Nat) = B ∧ e = e' := by
      simpa [encodeKeys] using henc
    exact EncRel.keysNil
  | cons k ks' ih =>
    intro e B e' hutf henc
    simp only [List.all_cons, Bool.and_eq_true] at hutf
    simp only [encodeKeys] at henc
    cases hsym : encodeSymbol e k with
    | error err => rw [hsym] at henc; cases henc
    | ok r =>
      obtain ⟨KB, e₁⟩ := r
      rw [hsym] at henc
      dsimp only at henc
      cases hrest : encodeKeys e₁ ks' with
      | error err => rw [hrest] at henc; cases henc
      | ok r₂ =>
        obtain ⟨Bs, e₂⟩ := r₂
        rw [hrest] at henc
        obtain ⟨rfl, rfl⟩ : KB ++ Bs = B ∧ e₂ = e' := by simpa using henc
        exact EncRel.keysCons (encodeSymbol_encRel e k KB e₁ hutf.1 hsym)
          (ih e₁ Bs e₂ hutf.2 hrest)


mutual

/-- The bytes actually written by `Encoder::encode_inner` are accepted by
the encoding relation (with every header in its shortest form). -/
def encodeInner_encRel : ∀ (v : Value) (e : EncState) (B : List Nat) (e' : EncState),
    Value.wf v = Bool.true → encodeInner e v = .ok (B, e') → EncRel e (.val v) B e'
  | .null, e, B, e', _, henc => by
    obtain ⟨hb, hhb, hfb⟩ := except_map_ok (by simpa only [encodeInner] using henc)
    obtain ⟨rfl, rfl⟩ : hb = B ∧ e = e' := by simpa using hfb
    exact EncRel.null (encode_headerEnc .Null rfl hb hhb)
  | .bool Bool.true, e, B, e', _, henc => by
    obtain ⟨hb, hhb, hfb⟩ := except_map_ok (by simpa only [encodeInner] using henc)
    obtain ⟨rfl, rfl⟩ : hb = B ∧ e = e' := by simpa using hfb
    exact EncRel.btrue (encode_headerEnc .True rfl hb hhb)
  | .bool Bool.false, e, B, e', _, henc => by
    obtain ⟨hb, hhb, hfb⟩ := except_map_ok (by simpa only [encodeInner] using henc)
    obtain ⟨rfl, rfl⟩ : hb = B ∧ e = e' := by simpa using hfb
    exact EncRel.bfalse (encode_headerEnc .False rfl hb hhb)
  | .f32 bits, e, B, e', hwf, henc => by
    have hlen : bits.length = 4 := by
      simpa [Value.wf] using hwf
    obtain ⟨hb, hhb, hfb⟩ := except_map_ok (by simpa only [encodeInner] using henc)
    obtain ⟨rfl, rfl⟩ : hb ++ bits = B ∧ e = e' := by simpa using hfb
    exact EncRel.f32 (encode_headerEnc .F32 rfl hb hhb) hlen
  | .f64 bits, e, B, e', hwf, henc => by
    have hlen : bits.length = 8 := by
      simpa [Value.wf] using hwf
    obtain ⟨hb, hhb, hfb⟩ := except_map_ok (by simpa only [encodeInner] using henc)
    obtain ⟨rfl, rfl⟩ : hb ++ bits = B ∧ e = e' := by simpa using hfb
    exact EncRel.f64 (encode_headerEnc .F64 rfl hb hhb) hlen
  | .bytes data, e, B, e', _, henc => by
    obtain ⟨hb, hhb, hfb⟩ := except_map_ok (by simpa only [encodeInner] using henc)
    obtain ⟨rfl, rfl⟩ : hb ++ data = B ∧ e = e' := by simpa using hfb
    exact EncRel.bytes (encode_headerEnc (.Bin data.length) rfl hb hhb)
  | .int .Pos v, e, B, e', hwf, henc => by
    have hv : Header.wfH (.Int .Pos v) = Bool.true := by
      simpa [Value.wf, Header.wfH] using hwf
    obtain ⟨hb, hhb, hfb⟩ := except_map_ok (by simpa only [encodeInner] using henc)
    obtain ⟨rfl, rfl⟩ : hb = B ∧ e = e' := by simpa using hfb
    exact EncRel.intPos (encode_headerEnc (.Int .Pos v) hv hb hhb)
  | .int .Neg 0, e, B, e', hwf, henc => by
    obtain ⟨hb, hhb, hfb⟩ := except_map_ok (by simpa only [encodeInner] using henc)
    obtain ⟨rfl, rfl⟩ : hb = B ∧ e = e' := by simpa using hfb
    exact EncRel.intNegZero (encode_headerEnc (.Int .Neg 0) rfl hb hhb)
  | .int .Neg (v + 1), e, B, e', hwf, henc => by
    have hv : Header.wfH (.Int .Neg (v + 1)) = Bool.true := by
      simpa [Value.wf, Header.wfH] using hwf
    obtain ⟨hb, hhb, hfb⟩ := except_map_ok (by simpa only [encodeInner] using henc)
    obtain ⟨rfl, rfl⟩ : hb = B ∧ e = e' := by simpa using hfb
    exact EncRel.intNeg (by omega) (encode_headerEnc (.Int .Neg (v + 1)) hv hb hhb)
  | .str s, e, B, e', hwf, henc => by
    have hutf : validUtf8 s = Bool.true := by simpa [Value.wf] using hwf
    obtain ⟨hb, hhb, hfb⟩ := except_map_ok (by simpa only [encodeInner] using henc)
    obtain ⟨rfl, rfl⟩ : hb ++ s = B ∧ e = e' := by simpa using hfb
    exact EncRel.str hutf (encode_headerEnc (.Str s.length) rfl hb hhb)
  | .symbol s, e, B, e', hwf, henc =>
    encodeSymbol_encRel e s B e' (by simpa [Value.wf] using hwf)
      (by simpa only [encodeInner] using henc)
  | .array elems, e, B, e', hwf, henc => by
    have hwfl : Value.wfList elems = Bool.true := by simpa [Value.wf] using hwf
    simp only [encodeInner] at henc
    cases hhb : (Header.Arr elems.length).encode with
    | error err => rw [hhb] at henc; cases henc
    | ok hb =>
      rw [hhb] at henc
      dsimp only at henc
      cases hsub : encodeList e elems with
      | error err => rw [hsub] at henc; cases henc
      | ok r =>
        obtain ⟨BL, e₁⟩ := r
        rw [hsub] at henc
        obtain ⟨rfl, rfl⟩ : hb ++ BL = B ∧ e₁ = e' := by simpa using henc
        exact EncRel.arr (encode_headerEnc (.Arr elems.length) rfl hb hhb)
          (encodeList_encRel elems e BL e₁ hwfl hsub)
  | .map pairs, e, B, e', hwf, henc => by
    have hwfp : Value.wfPairs pairs = Bool.true := by simpa [Value.wf] using hwf
    simp only [encodeInner] at henc
    cases hhb : (Header.Map pairs.length).encode with
    | error err => rw [hhb] at henc; cases henc
    | ok hb =>
      rw [hhb] at henc
      dsimp only at henc
      cases hsub : encodePairs e pairs with
      | error err => rw [hsub] at henc; cases henc
      | ok r =>
        obtain ⟨BL, e₁⟩ := r
        rw [hsub] at henc
        obtain ⟨rfl, rfl⟩ : hb ++ BL = B ∧ e₁ = e' := by simpa using henc
        exact EncRel.mapv (encode_headerEnc (.Map pairs.length) rfl hb hhb)
          (encodePairs_encRel pairs e BL e₁ hwfp hsub)
  | .record fields, e, B, e', hwf, henc => by
    have hw : (sortedKeys (fields.map Prod.fst) = Bool.true ∧
        (fields.map Prod.fst).all validUtf8 = Bool.true) ∧
        Value.wfFields fields = Bool.true := by
      simpa only [Value.wf, Bool.and_eq_true] using hwf
    simp only [encodeInner] at henc
    cases hlk : alookup e.records (fields.map Prod.fst) with
    | some i =>
      rw [hlk] at henc
      dsimp only at henc
      cases hhb : (Header.Ref i).encode with
      | error err => rw [hhb] at henc; cases henc
      | ok hb =>
        rw [hhb] at henc
        dsimp only at henc
        cases hsub : encodeFieldValues e fields with
        | error err => rw [hsub] at henc; cases henc
        | ok r =>
          obtain ⟨VB, e₁⟩ := r
          rw [hsub] at henc
          obtain ⟨rfl, rfl⟩ : hb ++ VB = B ∧ e₁ = e' := by simpa using henc
          exact EncRel.recRef hlk hw.1.1 (encode_headerEnc (.Ref i) rfl hb hhb)
            (encodeFieldValues_encRel fields e VB e₁ hw.2 hsub)
    | none =>
      rw [hlk] at henc
      dsimp only at henc
      cases hhb : (Header.Rec fields.length).encode with
      | error err => rw [hhb] at henc; cases henc
      | ok hb =>
        rw [hhb] at henc
        dsimp only at henc
        cases hkeys : encodeKeys e (fields.map Prod.fst) with
        | error err => rw [hkeys] at henc; cases henc
        | ok r =>
          obtain ⟨KB, e₁⟩ := r
          rw [hkeys] at henc
          simp only [EncState.next] at henc
          cases hvals : encodeFieldValues (e₁.insRec (fields.map Prod.fst)) fields with
          | error err =>
            simp only [EncState.insRec] at hvals
            rw [hvals] at henc
            cases henc
          | ok r₂ =>
            obtain ⟨VB, e₂⟩ := r₂
            simp only [EncState.insRec] at hvals
            rw [hvals] at henc
            obtain ⟨rfl, rfl⟩ : hb ++ (KB ++ VB) = B ∧ e₂ = e' := by simpa using henc
            exact EncRel.recNew hlk hw.1.1 (encode_headerEnc (.Rec fields.length) rfl hb hhb)
              (encodeKeys_encRel (fields.map Prod.fst) e KB e₁ hw.1.2 hkeys)
              (encodeFieldValues_encRel fields (e₁.insRec (fields.map Prod.fst)) VB e₂ hw.2 hvals)

/-- The element loop's bytes are accepted by the relation. -/
def encodeList_encRel : ∀ (vs : List Value) (e : EncState) (B : List Nat) (e' : EncState),
    Value.wfList vs = Bool.true → encodeList e vs = .ok (B, e') → EncRel e (.vals vs) B e'
  | [], e, B, e', _, henc => by
    obtain ⟨rfl, rfl⟩ : ([] : List Nat) = B ∧ e = e' := by
      simpa [encodeList] using henc
    exact EncRel.valsNil
  | v :: vs, e, B, e', hwf, henc => by
    have hw : Value.wf v = Bool.true ∧ Value.wfList vs = Bool.true := by
      simpa only [Value.wfList, Bool.and_eq_true] using hwf
    simp only [encodeList] at henc
    cases hv : encodeInner e v with
    | error err => rw [hv] at henc; cases henc
    | ok r =>
      obtain ⟨BV, e₁⟩ := r
      rw [hv] at henc
      dsimp only at henc
      cases hvs : encodeList e₁ vs with
      | error err => rw [hvs] at henc; cases henc
      | ok r₂ =>
        obtain ⟨Bs, e₂⟩ := r₂
        rw [hvs] at henc
        obtain ⟨rfl, rfl⟩ : BV ++ Bs = B ∧ e₂ = e' := by simpa using henc
        exact EncRel.valsCons (encodeInner_encRel v e BV e₁ hw.1 hv)
          (encodeList_encRel vs e₁ Bs e₂ hw.2 hvs)

/-- The pair loop's bytes are accepted by the relation. -/
def encodePairs_encRel : ∀ (ps : List (Value × Value)) (e : EncState) (B : List Nat)
    (e' : EncState), Value.wfPairs ps = Bool.true → encodePairs e ps = .ok (B, e') →
    EncRel e (.prs ps) B e'
  | [], e, B, e', _, henc => by
    obtain ⟨rfl, rfl⟩ : ([] : List Nat) = B ∧ e = e' := by
      simpa [encodePairs] using henc
    exact EncRel.prsNil
  | (k, v) :: ps, e, B, e', hwf, henc => by
    have hw : Value.wf k = Bool.true ∧ Value.wf v = Bool.true ∧
        Value.wfPairs ps = Bool.true := by
      simpa only [Value.wfPairs, Bool.and_eq_true, and_assoc] using hwf
    simp only [encodePairs] at henc
    cases hk : encodeInner e k with
    | error err => rw [hk] at henc; cases henc
    | ok r =>
      obtain ⟨KB, e₁⟩ := r
      rw [hk] at henc
      dsimp only at henc
      cases hv : encodeInner e₁ v with
      | error err => rw [hv] at henc; cases henc
      | ok r₂ =>
        obtain ⟨VB, e₂⟩ := r₂
        rw [hv] at henc
        dsimp only at henc
        cases hps : encodePairs e₂ ps with
        | error err => rw [hps] at henc; cases henc
        | ok r₃ =>
          obtain ⟨Bs, e₃⟩ := r₃
          rw [hps] at henc
          obtain ⟨rfl, rfl⟩ : KB ++ (VB ++ Bs) = B ∧ e₃ = e' := by simpa using henc
          exact EncRel.prsCons (encodeInner_encRel k e KB e₁ hw.1 hk)
            (encodeInner_encRel v e₁ VB e₂ hw.2.1 hv)
            (encodePairs_encRel ps e₂ Bs e₃ hw.2.2 hps)

/-- The record value loop's bytes are accepted by the relation. -/
def encodeFieldValues_encRel : ∀ (fs : List (List Nat × Value)) (e : EncState)
    (B : List Nat) (e' : EncState), Value.wfFields fs = Bool.true →
    encodeFieldValues e fs = .ok (B, e') → EncRel e (.vals (fs.map Prod.snd)) B e'
  | [], e, B, e', _, henc => by
    obtain ⟨rfl, rfl⟩ : ([] : List Nat) = B ∧ e = e' := by
      simpa [encodeFieldValues] using henc
    exact EncRel.valsNil
  | (k, v) :: fs, e, B, e', hwf, henc => by
    have hw : Value.wf v = Bool.true ∧ Value.wfFields fs = Bool.true := by
      simpa only [Value.wfFields, Bool.and_eq_true] using hwf
    simp only [encodeFieldValues] at henc
    cases hv : encodeInner e v with
    | error err => rw [hv] at henc; cases henc
    | ok r =>
      obtain ⟨BV, e₁⟩ := r
      rw [hv] at henc
      dsimp only at henc
      cases hfs : encodeFieldValues e₁ fs with
      | error err => rw [hfs] at henc; cases henc
      | ok r₂ =>
        obtain ⟨Bs, e₂⟩ := r₂
        rw [hfs] at henc
        obtain ⟨rfl, rfl⟩ : BV ++ Bs = B ∧ e₂ = e' := by simpa using henc
        exact EncRel.valsCons (encodeInner_encRel v e BV e₁ hw.1 hv)
          (encodeFieldValues_encRel fs e₁ Bs e₂ hw.2 hfs)

end


mutual

/-- On values without `Int(Neg, 0)`, the round-trip normalization is the
identity. -/
def norm_id : ∀ (v : Value), Value.noNegZero v = Bool.true → v.norm = v
  | .null, _ => rfl
  | .bool _, _ => rfl
  | .f32 _, _ => rfl
  | .f64 _, _ => rfl
  | .bytes _, _ => rfl
  | .int .Pos _, _ => rfl
  | .int .Neg 0, h => by simp [Value.noNegZero] at h
  | .int .Neg (_ + 1), _ => rfl
  | .str _, _ => rfl
  | .symbol _, _ => rfl
  | .record fs, h => by
    simp only [Value.norm]
    rw [normFields_id fs (by simpa [Value.noNegZero] using h)]
  | .map ps, h => by
    simp only [Value.norm]
    rw [normPairs_id ps (by simpa [Value.noNegZero] using h)]
  | .array vs, h => by
    simp only [Value.norm]
    rw [normList_id vs (by simpa [Value.noNegZero] using h)]

def normFields_id : ∀ (fs : List (List Nat × Value)),
    Value.noNegZeroFields fs = Bool.true → Value.normFields fs = fs
  | [], _ => rfl
  | (k, v) :: fs, h => by
    have hw : Value.noNegZero v = Bool.true ∧ Value.noNegZeroFields fs = Bool.true := by
      simpa only [Value.noNegZeroFields, Bool.and_eq_true] using h
    simp only [Value.normFields]
    rw [norm_id v hw.1, normFields_id fs hw.2]

def normPairs_id : ∀ (ps : List (Value × Value)),
    Value.noNegZeroPairs ps = Bool.true → Value.normPairs ps = ps
  | [], _ => rfl
  | (k, v) :: ps, h => by
    have hw : Value.noNegZero k = Bool.true ∧ Value.noNegZero v = Bool.true ∧
        Value.noNegZeroPairs ps = Bool.true := by
      simpa only [Value.noNegZeroPairs, Bool.and_eq_true, and_assoc] using h
    simp only [Value.normPairs]
    rw [norm_id k hw.1, norm_id v hw.2.1, normPairs_id ps hw.2.2]

def normList_id : ∀ (vs : List Value),
    Value.noNegZeroList vs = Bool.true → Value.normList vs = vs
  | [], _ => rfl
  | v :: vs, h => by
    have hw : Value.noNegZero v = Bool.true ∧ Value.noNegZeroList vs = Bool.true := by
      simpa only [Value.noNegZeroList, Bool.and_eq_true] using h
    simp only [Value.normList]
    rw [norm_id v hw.1, normList_id vs hw.2]

end

/-! ## Claim C1: round trip of the value codec -/

/-- C1.  For every well-typed `Value` (the invariants the Rust types give
for free), decoding the bytes produced by `Encoder::encode` yields the
value back with every `Int(Neg, 0)` replaced by `Int(Pos, 0)` (that is
`Value.norm`), consuming the whole message; for values that contain no
`Int(Neg, 0)` the result is the value itself. -/
theorem C1_roundtrip (v : Value) (hwf : Value.wf v = Bool.true)
    (bytes : List Nat) (henc : Encoder.encode v = .ok bytes) :
    Decoder.decode bytes = .ok (v.norm, bytes.length) ∧
    (v.noNegZero = Bool.true → v.norm = v) := by
  refine ⟨?_, norm_id v⟩
  obtain ⟨r, hinner, hfst⟩ := except_map_ok (by simpa only [Encoder.encode] using henc)
  obtain ⟨B, e'⟩ := r
  obtain rfl : B = bytes := hfst
  have hrel := encodeInner_encRel v EncState.init B e' hwf hinner
  have hdec := encRel_decode hrel [] Agree.init B 0 [] (B.length + 1)
    (by simp) (by omega)
  dsimp only [DecodesTo] at hdec
  obtain ⟨d', heq, _⟩ := hdec
  simp only [Decoder.decode]
  rw [show (fun _ => Bool.true : Nat → Bool) = allocAll from rfl, heq]
  simp

/-- Witness for C1: the crate documentation's example message, a record
with one `"key": Str("value")` field. -/
theorem C1_roundtrip_witness :
    Decoder.decode [0xa1, 0x63, 0x6b, 0x65, 0x79, 0x45, 0x76, 0x61, 0x6c, 0x75, 0x65]
      = .ok ((Value.record [([0x6b, 0x65, 0x79],
          .str [0x76, 0x61, 0x6c, 0x75, 0x65])]).norm,
        ([0xa1, 0x63, 0x6b, 0x65, 0x79, 0x45, 0x76, 0x61, 0x6c, 0x75, 0x65] : List Nat).length) ∧
    ((Value.record [([0x6b, 0x65, 0x79], .str [0x76, 0x61, 0x6c, 0x75, 0x65])]).noNegZero
        = Bool.true →
      (Value.record [([0x6b, 0x65, 0x79], .str [0x76, 0x61, 0x6c, 0x75, 0x65])]).norm
        = Value.record [([0x6b, 0x65, 0x79], .str [0x76, 0x61, 0x6c, 0x75, 0x65])]) :=
  C1_roundtrip
    (Value.record [([0x6b, 0x65, 0x79], .str [0x76, 0x61, 0x6c, 0x75, 0x65])])
    rfl
    [0xa1, 0x63, 0x6b, 0x65, 0x79, 0x45, 0x76, 0x61, 0x6c, 0x75, 0x65]
    rfl


/-! ## Claim C5: over-long tolerance -/

theorem normH_eq_self {h : Header} (hnz : h ≠ .Int .Neg 0) : h.normH = h := by
  cases h with
  | Int s v =>
    cases s with
    | Pos => rfl
    | Neg =>
      cases v with
      | zero => exact absurd rfl hnz
      | succ v' => rfl
  | Null => rfl
  | True => rfl
  | False => rfl
  | F32 => rfl
  | F64 => rfl
  | Bin _ => rfl
  | Str _ => rfl
  | Sym _ => rfl
  | Arr _ => rfl
  | Rec _ => rfl
  | Map _ => rfl
  | Ref _ => rfl

/-- C5.  Over-long tolerance.
(1) Header level: for every payload-carrying header and every trailing-byte
count `k ∈ [1, 8]` whose `k` bytes can hold the payload, the form with the
multi-byte marker for `k` bytes decodes — whatever follows — to exactly the
same header as the shortest form emitted by `Header::encode`, consuming
`1 + k` bytes.
(2) Value level: every byte string accepted by the encoding relation
`EncRel` — which fixes the encoder's structure and interning decisions but
allows each length prefix any admissible width, over-long or not — decodes
to the same (normalized) value; and (3) the output of `Encoder::encode`
itself inhabits the relation, so replacing any of its length prefixes by a
longer equivalent form stays in the relation and decodes to the same value. -/
theorem C5_overlong_tolerance :
    (∀ (h : Header) (p k : Nat), h.wirePayload = some p → h.wfH = Bool.true →
      h ≠ .Int .Neg 0 → 1 ≤ k → k ≤ 8 → p < 2 ^ (8 * k) →
      (h.overlong_form k).length = 1 + k ∧
      ∀ rest, Header.decode (h.overlong_form k ++ rest) = .ok (h, 1 + k) ∧
        ∀ hb, h.encode = .ok hb → Header.decode (hb ++ rest) = .ok (h, hb.length)) ∧
    (∀ (v : Value) (B : List Nat) (e' : EncState),
      EncRel EncState.init (.val v) B e' →
      Decoder.decode B = .ok (v.norm, B.length)) ∧
    (∀ (v : Value) (bytes : List Nat), Value.wf v = Bool.true →
      Encoder.encode v = .ok bytes → ∃ e', EncRel EncState.init (.val v) bytes e') := by
  refine ⟨?_, ?_, ?_⟩
  · intro h p k hp hwf hnz hk1 hk8 hpk
    have he := overlong_headerEnc h p k hp hwf hnz hk1 hk8 hpk
    have hlen : (h.overlong_form k).length = 1 + k := by
      simp only [Header.overlong_form, hp]
      simp [List.length_cons, List.length_drop, to_be_bytes_length]
      omega
    refine ⟨hlen, fun rest => ⟨?_, ?_⟩⟩
    · have := he rest
      rw [hlen] at this
      exact this
    · intro hb henc
      have := encode_headerEnc h hwf hb henc
      rw [normH_eq_self hnz] at this
      exact this rest
  · intro v B e' hrel
    have hdec := encRel_decode hrel [] Agree.init B 0 [] (B.length + 1)
      (by simp) (by omega)
    dsimp only [DecodesTo] at hdec
    obtain ⟨d', heq, _⟩ := hdec
    simp only [Decoder.decode]
    rw [show (fun _ => Bool.true : Nat → Bool) = allocAll from rfl, heq]
    simp
  · intro v bytes hwf henc
    obtain ⟨r, hinner, hfst⟩ := except_map_ok (by simpa only [Encoder.encode] using henc)
    obtain ⟨B, e'⟩ := r
    obtain rfl : B = bytes := hfst
    exact ⟨e', encodeInner_encRel v EncState.init B e' hwf hinner⟩

/-- Witness for C5: the repository's own `inefficient_encoding` test — the
over-long form of `Arr 2` with eight payload bytes decodes to `Arr 2`. -/
theorem C5_overlong_tolerance_witness :
    Header.decode ((Header.Arr 2).overlong_form 8 ++ []) = .ok (.Arr 2, 1 + 8) :=
  ((C5_overlong_tolerance.1 (.Arr 2) 2 8 rfl rfl (by decide) (by decide) (by decide)
    (by decide)).2 []).1


/-! ## Claim C8: symbol interning -/

theorem encodeList_replicate_refs (s : List Nat) :
    ∀ n, encodeList ⟨1, [(s, 0)], []⟩ (List.replicate n (.symbol s))
      = .ok (List.replicate n 224, ⟨1, [(s, 0)], []⟩)
  | 0 => rfl
  | n + 1 => by
    rw [List.replicate_succ]
    simp only [encodeList, encodeInner, encodeSymbol, alookup, eq_self_iff_true,
      if_true]
    rw [show (Header.Ref 0).encode = .ok [(224 : Nat)] from rfl]
    dsimp only [Except.map]
    rw [encodeList_replicate_refs s n]
    simp [List.replicate_succ]

/-- C8.  Symbol interning: encoding an array of `k ≥ 1` copies of
`Symbol(s)` writes the `Arr` header, then exactly one `Sym` header followed
by the bytes of `s` — interned at table index 0, as the final encoder state
records — and then exactly `k - 1` copies of the one-byte `Ref` header
`0xE0`, which references index 0. -/
theorem C8_symbol_interning (k : Nat) (s hbA hbS : List Nat) (hk : 1 ≤ k)
    (hA : (Header.Arr k).encode = .ok hbA)
    (hS : (Header.Sym s.length).encode = .ok hbS) :
    encodeInner EncState.init (.array (List.replicate k (.symbol s)))
      = .ok (hbA ++ ((hbS ++ s) ++ List.replicate (k - 1) 224), ⟨1, [(s, 0)], []⟩) ∧
    Encoder.encode (.array (List.replicate k (.symbol s)))
      = .ok (hbA ++ ((hbS ++ s) ++ List.replicate (k - 1) 224)) ∧
    (Header.Ref 0).encode = .ok [224] := by
  obtain ⟨k', rfl⟩ : ∃ k', k = k' + 1 := ⟨k - 1, by omega⟩
  have hmain : encodeInner EncState.init (.array (List.replicate (k' + 1) (.symbol s)))
      = .ok (hbA ++ ((hbS ++ s) ++ List.replicate k' 224), ⟨1, [(s, 0)], []⟩) := by
    simp only [encodeInner, List.length_replicate, hA]
    rw [List.replicate_succ]
    simp only [encodeList, encodeInner, encodeSymbol, EncState.init, alookup,
      EncState.next, hS]
    rw [encodeList_replicate_refs s k']
  refine ⟨by simpa using hmain, ?_, rfl⟩
  simp only [Encoder.encode, hmain]
  rfl

/-- Witness for C8: three copies of the symbol `"a"` encode to one `Sym`
header, the byte of `"a"`, and two `Ref` headers (the repo's dedup shape). -/
theorem C8_symbol_interning_witness :
    Encoder.encode (.array (List.replicate 3 (.symbol [97])))
      = .ok [131, 97, 97, 224, 224] :=
  (C8_symbol_interning 3 [97] [131] [97] (by decide) rfl rfl).2.1


/-! ## Claim C6: record key discipline -/

/-- Counterexample to C6's claim that `Str` is accepted in a key slot:
`[Rec(1), Str(1), 'x', Null]` fails with `IllegalKey("string")` at offset 3
— the key slot decoded to a `Value::Str`, which `decode_value`'s `Rec` arm
rejects because only `Value::Symbol` results are accepted as keys. -/
theorem C6_record_keys_counterexample :
    Decoder.decode [161, 65, 120, 0] = .error ⟨.illegalKey "string", 3⟩ := rfl

/-- C6 (amended).  Record key discipline: a key slot is accepted exactly
when it decodes to a `Value::Symbol`; every other decoded value — including
a `Str` — aborts decoding with `IllegalKey` carrying that value's type name.
(1) If the key slot decodes to any non-symbol value `x`, `decode_keys`
fails with `IllegalKey(x.typename)` at the position after the key.
(2) If it decodes to a symbol, the key is accepted and the loop continues.
(3) A `Sym` header in a key slot is accepted (whole-message instance), and
(4) a `Ref` resolving to a symbol-table `Sym` entry is accepted; a `Str`
key is NOT accepted, as the counterexample shows. -/
theorem C6_record_keys :
    (∀ (dv : DecState → DecResult (Value × DecState)) (n : Nat) (st : DecState)
        (x : Value) (st₁ : DecState), dv st = .ok (x, st₁) →
        (∀ s, x ≠ .symbol s) →
        decodeKeys dv (n + 1) st = .error (.illegalKey x.typename, st₁.pos)) ∧
    (∀ (dv : DecState → DecResult (Value × DecState)) (n : Nat) (st : DecState)
        (s : List Nat) (st₁ : DecState) (ks : List (List Nat)) (st₂ : DecState),
        dv st = .ok (.symbol s, st₁) → decodeKeys dv n st₁ = .ok (ks, st₂) →
        decodeKeys dv (n + 1) st = .ok (s :: ks, st₂)) ∧
    Decoder.decode [161, 99, 107, 101, 121, 0] =
      .ok (.record [([107, 101, 121], .null)], 6) ∧
    Decoder.decode [130, 97, 97, 161, 224, 0] =
      .ok (.array [.symbol [97], .record [([97], .null)]], 6) := by
  refine ⟨?_, ?_, rfl, rfl⟩
  · intro dv n st x st₁ hdv hne
    cases x <;> simp only [decodeKeys, hdv] <;>
      first
      | rfl
      | exact absurd rfl (hne _)
  · intro dv n st s st₁ ks st₂ hdv hks
    simp only [decodeKeys, hdv, hks]

/-- Witness for C6 at a concrete non-symbol key: a `Str` in the key slot of
the buffer `[Str(1), 'x']` is rejected with `IllegalKey("string")`. -/
theorem C6_record_keys_witness :
    decodeKeys (decodeValue (fun _ => Bool.true) 2) 1 ⟨[65, 120], 0, []⟩
      = .error (.illegalKey "string", 2) :=
  C6_record_keys.1 (decodeValue (fun _ => Bool.true) 2) 0 ⟨[65, 120], 0, []⟩
    (.str [120]) ⟨[65, 120], 2, []⟩ rfl (fun _ h => Value.noConfusion h)


/-! ## Claim C10: duplicate-key collapse -/

theorem decodeKeys_length (dv : DecState → DecResult (Value × DecState)) :
    ∀ (n : Nat) (st : DecState) (ks : List (List Nat)) (st₂ : DecState),
      decodeKeys dv n st = .ok (ks, st₂) → ks.length = n := by
  intro n
  induction n with
  | zero =>
    intro st ks st₂ h
    simp only [decodeKeys] at h
    cases h
    rfl
  | succ n ih =>
    intro st ks st₂ h
    simp only [decodeKeys] at h
    split at h
    · exact Except.noConfusion h
    · rename_i s st₁ heq
      cases hrec : decodeKeys dv n st₁ with
      | error e => rw [hrec] at h; exact Except.noConfusion h
      | ok r₂ =>
        obtain ⟨ks', stx⟩ := r₂
        rw [hrec] at h
        cases h
        simp [ih st₁ ks' st₂ hrec]
    · exact Except.noConfusion h

theorem alookup_append_some {α β : Type} [DecidableEq α] :
    ∀ (l1 l2 : List (α × β)) (k : α) (v : β), alookup l1 k = some v →
      alookup (l1 ++ l2) k = some v := by
  intro l1 l2 k v
  induction l1 with
  | nil => intro h; simp [alookup] at h
  | cons kv l1' ih =>
    intro h
    obtain ⟨k', v'⟩ := kv
    simp only [alookup, List.cons_append] at h ⊢
    by_cases hk : k = k'
    · rw [if_pos hk] at h ⊢; exact h
    · rw [if_neg hk] at h ⊢; exact ih h

theorem alookup_append_none {α β : Type} [DecidableEq α] :
    ∀ (l1 l2 : List (α × β)) (k : α), alookup l1 k = none →
      alookup (l1 ++ l2) k = alookup l2 k := by
  intro l1 l2 k
  induction l1 with
  | nil => intro _; rfl
  | cons kv l1' ih =>
    intro h
    obtain ⟨k', v'⟩ := kv
    simp only [alookup, List.cons_append] at h ⊢
    by_cases hk : k = k'
    · rw [if_pos hk] at h; exact Option.noConfusion h
    · rw [if_neg hk] at h ⊢; exact ih h

theorem alookup_eq_none_iff {α β : Type} [DecidableEq α] :
    ∀ (m : List (α × β)) (k : α), alookup m k = none ↔ k ∉ m.map Prod.fst := by
  intro m k
  induction m with
  | nil => simp [alookup]
  | cons kv m' ih =>
    obtain ⟨k', v'⟩ := kv
    simp only [alookup, List.map_cons, List.mem_cons]
    by_cases hk : k = k'
    · simp [hk]
    · simp [hk, ih]

theorem alookup_mapInsert :
    ∀ (m : List (List Nat × Value)) (k₀ k : List Nat) (v₀ : Value),
      alookup (mapInsert m k₀ v₀) k = if k = k₀ then some v₀ else alookup m k := by
  intro m
  induction m with
  | nil => intro k₀ k v₀; simp [mapInsert, alookup]
  | cons kv m' ih =>
    intro k₀ k v₀
    obtain ⟨k', v'⟩ := kv
    simp only [mapInsert]
    by_cases hlt : bytesLt k₀ k' = Bool.true
    · rw [if_pos hlt]
      simp [alookup]
    · by_cases heq : k₀ = k'
      · rw [if_neg hlt, if_pos heq]
        subst heq
        simp only [alookup]
        by_cases hk : k = k₀ <;> simp [hk]
      · rw [if_neg hlt, if_neg heq]
        simp only [alookup, ih k₀ k v₀]
        by_cases hk0 : k = k₀
        · by_cases hk' : k = k'
          · exact absurd (hk0 ▸ hk') heq
          · simp [hk0, hk', heq]
        · by_cases hk' : k = k' <;> simp [hk0, hk', Ne.symm heq]

theorem insFold_alookup :
    ∀ (pairs m : List (List Nat × Value)) (k : List Nat),
      alookup (List.foldl (fun acc kv => mapInsert acc kv.1 kv.2) m pairs) k =
        match alookup pairs.reverse k with
        | some v => some v
        | none => alookup m k := by
  intro pairs
  induction pairs with
  | nil => intro m k; rfl
  | cons p rest ih =>
    intro m k
    obtain ⟨k₀, v₀⟩ := p
    simp only [List.foldl_cons, List.reverse_cons]
    rw [ih (mapInsert m k₀ v₀) k, alookup_mapInsert m k₀ k v₀]
    cases hrev : alookup rest.reverse k with
    | some v =>
      rw [alookup_append_some rest.reverse [(k₀, v₀)] k v hrev]
    | none =>
      rw [alookup_append_none rest.reverse [(k₀, v₀)] k hrev]
      simp only [alookup]
      by_cases hk : k = k₀ <;> simp [hk]

theorem insFold_alookup_nil (pairs : List (List Nat × Value)) (k : List Nat) :
    alookup (List.foldl (fun acc kv => mapInsert acc kv.1 kv.2) [] pairs) k =
      alookup pairs.reverse k := by
  rw [insFold_alookup pairs [] k]
  cases alookup pairs.reverse k <;> rfl

theorem bytesLt_total : ∀ (a b : List Nat), a ≠ b →
    bytesLt a b = Bool.true ∨ bytesLt b a = Bool.true := by
  intro a
  induction a with
  | nil =>
    intro b hne
    cases b with
    | nil => exact absurd rfl hne
    | cons y ys => left; rfl
  | cons x xs ih =>
    intro b hne
    cases b with
    | nil => right; rfl
    | cons y ys =>
      rcases Nat.lt_trichotomy x y with hlt | heq | hgt
      · left; simp [bytesLt, hlt]
      · subst heq
        have hne' : xs ≠ ys := fun h => hne (by rw [h])
        rcases ih ys hne' with h | h
        · left; simp [bytesLt, h]
        · right; simp [bytesLt, h]
      · right; simp [bytesLt, hgt]

theorem sortedKeys_cons (ka : List Nat) : ∀ (K : List (List Nat)),
    sortedKeys K = Bool.true → (∀ x, K.head? = some x → bytesLt ka x = Bool.true) →
    sortedKeys (ka :: K) = Bool.true := by
  intro K hK hhead
  cases K with
  | nil => rfl
  | cons x K' =>
    simp only [sortedKeys]
    rw [hhead x rfl, hK]
    rfl

theorem mapInsert_head? :
    ∀ (m : List (List Nat × Value)) (k : List Nat) (v : Value) (x : List Nat),
      ((mapInsert m k v).map Prod.fst).head? = some x →
      x = k ∨ (m.map Prod.fst).head? = some x := by
  intro m k v x
  cases m with
  | nil =>
    intro h
    left
    exact (Option.some.inj h).symm
  | cons kv m' =>
    obtain ⟨ka, va⟩ := kv
    intro h
    simp only [mapInsert] at h
    by_cases hlt : bytesLt k ka = Bool.true
    · rw [if_pos hlt] at h
      left
      exact (Option.some.inj h).symm
    · by_cases heq : k = ka
      · rw [if_neg hlt, if_pos heq] at h
        left
        exact (Option.some.inj h).symm
      · rw [if_neg hlt, if_neg heq] at h
        right
        exact h

theorem sortedKeys_nodup : ∀ (ks : List (List Nat)),
    sortedKeys ks = Bool.true → ks.Nodup := by
  intro ks
  induction ks with
  | nil => intro _; exact List.nodup_nil
  | cons k ks' ih =>
    intro hs
    refine List.nodup_cons.mpr ⟨?_, ih (sortedKeys_tail ks' k hs)⟩
    intro hmem
    exact (bytesLt_ne (sortedKeys_head_lt ks' k hs k hmem)) rfl

theorem mapInsert_sortedKeys : ∀ (m : List (List Nat × Value)) (k : List Nat) (v : Value),
    sortedKeys (m.map Prod.fst) = Bool.true →
    sortedKeys ((mapInsert m k v).map Prod.fst) = Bool.true := by
  intro m
  induction m with
  | nil => intro k v _; rfl
  | cons kv m' ih =>
    intro k v hsort
    obtain ⟨ka, va⟩ := kv
    simp only [List.map_cons] at hsort
    simp only [mapInsert]
    by_cases hlt : bytesLt k ka = Bool.true
    · rw [if_pos hlt]
      simp only [List.map_cons]
      refine sortedKeys_cons k _ hsort ?_
      intro x hx
      have hax : ka = x := Option.some.inj hx
      rw [← hax]
      exact hlt
    · by_cases heq : k = ka
      · rw [if_neg hlt, if_pos heq]
        simp only [List.map_cons]
        subst heq
        exact hsort
      · rw [if_neg hlt, if_neg heq]
        simp only [List.map_cons]
        have hka_k : bytesLt ka k = Bool.true := by
          rcases bytesLt_total k ka heq with h | h
          · exact absurd h hlt
          · exact h
        have htail : sortedKeys ((mapInsert m' k v).map Prod.fst) = Bool.true :=
          ih k v (sortedKeys_tail (m'.map Prod.fst) ka hsort)
        refine sortedKeys_cons ka _ htail ?_
        intro x hx
        rcases mapInsert_head? m' k v x hx with hxk | hx'
        · rw [hxk]
          exact hka_k
        · cases hm' : m'.map Prod.fst with
          | nil => rw [hm'] at hx'; exact Option.noConfusion hx'
          | cons y ys =>
            rw [hm'] at hx'
            have hyx : y = x := Option.some.inj hx'
            rw [hm'] at hsort
            simp only [sortedKeys, Bool.and_eq_true] at hsort
            rw [← hyx]
            exact hsort.1

theorem insFold_sortedKeys : ∀ (pairs m : List (List Nat × Value)),
    sortedKeys (m.map Prod.fst) = Bool.true →
    sortedKeys ((List.foldl (fun acc kv => mapInsert acc kv.1 kv.2) m pairs).map
      Prod.fst) = Bool.true := by
  intro pairs
  induction pairs with
  | nil => intro m h; simpa using h
  | cons p rest ih =>
    intro m h
    simp only [List.foldl_cons]
    exact ih (mapInsert m p.1 p.2) (mapInsert_sortedKeys m p.1 p.2 h)

theorem insFold_mem_keys (pairs : List (List Nat × Value)) (k : List Nat) :
    k ∈ (List.foldl (fun acc kv => mapInsert acc kv.1 kv.2) [] pairs).map Prod.fst ↔
      k ∈ pairs.map Prod.fst := by
  have h1 := alookup_eq_none_iff
    (List.foldl (fun acc kv => mapInsert acc kv.1 kv.2) [] pairs) k
  have h2 := alookup_eq_none_iff pairs.reverse k
  rw [insFold_alookup_nil pairs k] at h1
  have h3 := not_iff_not.mp (h1.symm.trans h2)
  rw [List.map_reverse, List.mem_reverse] at h3
  exact h3

/-- C10.  Duplicate-key collapse.
(1) The `Rec` arm: when the `Rec(n)` header, the `n` keys, and then one
value per key slot (`ks.length` of them) decode, `decode_value` succeeds
and returns the record obtained by folding `BTreeMap::insert` over the
key/value pairs in wire order — and the key loop always returns exactly `n`
keys.  (2) Looking a key up in that fold finds the value bound at the LAST
occurrence of the key on the wire (the lookup in the reversed pair list).
(3) The fold carries no duplicate keys, and it binds exactly the key texts
that occur on the wire.  (4) If the wire keys contain a duplicate, the
resulting record has strictly fewer fields than the wire-declared count.
(5) A record whose field count differs from `n` never re-encodes to a byte
string that begins with a `Rec(n)` header, hence not to the original
message. -/
theorem C10_duplicate_key_collapse :
    (∀ (alloc : Nat → Bool) (fuel : Nat) (st st₁ st₂ st₃ : DecState) (n : Nat)
        (ks : List (List Nat)) (vs : List Value),
      decodeHeader st = .ok (.Rec n, st₁) →
      alloc n = Bool.true →
      decodeKeys (decodeValue alloc fuel) n st₁ = .ok (ks, st₂) →
      decodeList (decodeValue alloc fuel) ks.length
          { st₂ with symbols := st₂.symbols ++ [.Rec ks] } = .ok (vs, st₃) →
      ks.length = n ∧
      decodeValue alloc (fuel + 1) st =
        .ok (.record (List.foldl (fun acc kv => mapInsert acc kv.1 kv.2) []
          (ks.zip vs)), st₃)) ∧
    (∀ (pairs : List (List Nat × Value)) (k : List Nat),
      alookup (List.foldl (fun acc kv => mapInsert acc kv.1 kv.2) [] pairs) k =
        alookup pairs.reverse k) ∧
    (∀ (pairs : List (List Nat × Value)),
      ((List.foldl (fun acc kv => mapInsert acc kv.1 kv.2) [] pairs).map
        Prod.fst).Nodup ∧
      ∀ k, k ∈ (List.foldl (fun acc kv => mapInsert acc kv.1 kv.2) [] pairs).map
          Prod.fst ↔ k ∈ pairs.map Prod.fst) ∧
    (∀ (ks : List (List Nat)) (vs : List Value),
      ¬ ks.Nodup →
      (List.foldl (fun acc kv => mapInsert acc kv.1 kv.2) [] (ks.zip vs)).length <
        ks.length) ∧
    (∀ (fields : List (List Nat × Value)) (n : Nat) (bytes buf : List Nat) (c : Nat),
      fields.length ≠ n → Encoder.encode (.record fields) = .ok bytes →
      Header.decode buf = .ok (.Rec n, c) → bytes ≠ buf) := by
  refine ⟨?_, insFold_alookup_nil, ?_, ?_, ?_⟩
  · intro alloc fuel st st₁ st₂ st₃ n ks vs hh halloc hkeys hlist
    have hlen : ks.length = n :=
      decodeKeys_length (decodeValue alloc fuel) n st₁ ks st₂ hkeys
    refine ⟨hlen, ?_⟩
    have hres : tryReserve alloc n st₁ = .ok () := by
      simp [tryReserve, halloc]
    simp only [decodeValue, hh, hres, hkeys]
    rw [decodeFields_eq_decodeList (decodeValue alloc fuel) ks []
      { st₂ with symbols := st₂.symbols ++ [.Rec ks] }, hlist]
    rfl
  · intro pairs
    refine ⟨sortedKeys_nodup _ (insFold_sortedKeys pairs [] rfl), ?_⟩
    exact insFold_mem_keys pairs
  · intro ks vs hdup
    have hnd : ((List.foldl (fun acc kv => mapInsert acc kv.1 kv.2) []
        (ks.zip vs)).map Prod.fst).Nodup :=
      sortedKeys_nodup _ (insFold_sortedKeys (ks.zip vs) [] rfl)
    have hsub : ∀ x ∈ (List.foldl (fun acc kv => mapInsert acc kv.1 kv.2) []
        (ks.zip vs)).map Prod.fst, x ∈ ks := by
      intro x hx
      have hx' := (insFold_mem_keys (ks.zip vs) x).mp hx
      obtain ⟨⟨a, b⟩, hab, hax⟩ := List.mem_map.mp hx'
      rw [← hax]
      exact (List.of_mem_zip hab).1
    have hfin : ((List.foldl (fun acc kv => mapInsert acc kv.1 kv.2) []
        (ks.zip vs)).map Prod.fst).toFinset ⊆ ks.toFinset := by
      intro x hx
      rw [List.mem_toFinset] at hx ⊢
      exact hsub x hx
    have hcard := Finset.card_le_card hfin
    rw [List.toFinset_card_of_nodup hnd, List.card_toFinset] at hcard
    have hlenmap : ((List.foldl (fun acc kv => mapInsert acc kv.1 kv.2) []
        (ks.zip vs)).map Prod.fst).length =
        (List.foldl (fun acc kv => mapInsert acc kv.1 kv.2) [] (ks.zip vs)).length := by
      simp
    have hsl := List.dedup_sublist ks
    have hdle := hsl.length_le
    have hne : ks.dedup.length ≠ ks.length := by
      intro h
      exact hdup (List.dedup_eq_self.mp (hsl.eq_of_length h))
    omega
  · intro fields n bytes buf c hne henc hdecbuf
    obtain ⟨r, hinner, hfst⟩ := except_map_ok (by simpa only [Encoder.encode] using henc)
    obtain ⟨B, e'⟩ := r
    obtain rfl : B = bytes := hfst
    simp only [encodeInner, EncState.init, alookup] at hinner
    split at hinner
    · exact Except.noConfusion hinner
    · rename_i hb hre
      split at hinner
      · exact Except.noConfusion hinner
      · rename_i KB e₁ hke
        split at hinner
        · exact Except.noConfusion hinner
        · rename_i VB e₄ hfv
          injection hinner with h1
          injection h1 with hB hE
          intro heq
          have hHE : HeaderEnc (Header.Rec fields.length) hb :=
            encode_headerEnc (.Rec fields.length) rfl hb hre
          have hd2 := hHE (KB ++ VB)
          rw [hB, heq, hdecbuf] at hd2
          injection hd2 with h2
          injection h2 with h3 h4
          injection h3 with h5
          exact hne h5.symm


/-- Witness for C10: the wire message `[Rec(2), Sym(1) "a", Sym(1) "a",
Int(+1), Int(+2)]` — the key `"a"` occurs twice — decodes to a one-field
record bound to the value of the LAST occurrence, and a two-key duplicate
list collapses to fewer fields than the declared count. -/
theorem C10_duplicate_key_collapse_witness :
    decodeValue allocAll 8 ⟨[162, 97, 97, 97, 97, 33, 34], 0, []⟩ =
      .ok (.record [([97], .int .Pos 2)],
        ⟨[162, 97, 97, 97, 97, 33, 34], 7,
          [.Sym [97], .Sym [97], .Rec [[97], [97]]]⟩) ∧
    (List.foldl (fun acc kv => mapInsert acc kv.1 kv.2) []
      ([[97], [97]].zip [Value.int .Pos 1, Value.int .Pos 2])).length < 2 :=
  ⟨(C10_duplicate_key_collapse.1 allocAll 7
      ⟨[162, 97, 97, 97, 97, 33, 34], 0, []⟩
      ⟨[162, 97, 97, 97, 97, 33, 34], 1, []⟩
      ⟨[162, 97, 97, 97, 97, 33, 34], 5, [.Sym [97], .Sym [97]]⟩
      ⟨[162, 97, 97, 97, 97, 33, 34], 7,
        [.Sym [97], .Sym [97], .Rec [[97], [97]]]⟩
      2 [[97], [97]] [.int .Pos 1, .int .Pos 2] rfl rfl rfl rfl).2,
   C10_duplicate_key_collapse.2.2.2.1 [[97], [97]]
     [.int .Pos 1, .int .Pos 2] (by decide)⟩


/-! ## Claim C7: decoder totality and bounded allocation

The recursion of `Decoder::decode_value` is modelled with explicit fuel.
The theorems below show the fuel is an artifact of the model and never cuts
a real computation short: every successful step strictly advances the
cursor, so `buf.length + 1` fuel always suffices, and any two sufficient
fuels produce identical results — which is the shallow-embedding statement
of termination on every input. -/

theorem except_bind_ok {ε α β : Type} {x : Except ε α} {f : α → Except ε β}
    {b : β} (h : x.bind f = .ok b) : ∃ a, x = .ok a ∧ f a = .ok b := by
  cases x with
  | error e => exact Except.noConfusion h
  | ok a => exact ⟨a, rfl, h⟩

theorem Header.decode_ge_one : ∀ (buf : List Nat) (h : Header) (c : Nat),
    Header.decode buf = .ok (h, c) → 1 ≤ c := by
  intro buf h c hd
  cases buf with
  | nil => exact Except.noConfusion hd
  | cons b rest =>
    simp only [Header.decode] at hd
    repeat'
      first
      | exact Except.noConfusion hd
      | (cases hd; omega)
      | (obtain ⟨ic, hdu, hf⟩ := except_map_ok hd; cases hf; omega)
      | (obtain ⟨ic, hdu, hf⟩ := except_bind_ok hd;
         obtain ⟨u, hu, hf2⟩ := except_map_ok hf; cases hf2; omega)
      | split at hd

theorem decodeHeader_progress {st : DecState} {h : Header} {st₁ : DecState}
    (hd : decodeHeader st = .ok (h, st₁)) :
    st₁.buf = st.buf ∧ st.pos < st₁.pos ∧ st₁.symbols = st.symbols ∧
      st.pos < st.buf.length := by
  simp only [decodeHeader] at hd
  cases hdec : Header.decode (st.buf.drop st.pos) with
  | error e => rw [hdec] at hd; exact Except.noConfusion hd
  | ok r =>
    obtain ⟨h', c⟩ := r
    rw [hdec] at hd
    cases hd
    have hc := Header.decode_ge_one _ _ _ hdec
    have hne : st.buf.drop st.pos ≠ [] := by
      intro hnil
      rw [hnil] at hdec
      exact Except.noConfusion hdec
    have hlt : st.pos < st.buf.length := by
      by_contra hcon
      exact hne (List.drop_eq_nil_of_le (by omega))
    exact ⟨rfl, by show st.pos < st.pos + c; omega, rfl, hlt⟩

theorem decodeSlice_progress {len : Nat} {st : DecState} {data : List Nat}
    {st' : DecState} (h : decodeSlice len st = .ok (data, st')) :
    st'.buf = st.buf ∧ st.pos ≤ st'.pos := by
  simp only [decodeSlice] at h
  split at h
  · exact Except.noConfusion h
  · cases h
    exact ⟨rfl, by show st.pos ≤ st.pos + len; omega⟩

theorem decodeList_progress (dv : DecState → DecResult (Value × DecState))
    (hdv : ∀ st v st', dv st = .ok (v, st') → st'.buf = st.buf ∧ st.pos ≤ st'.pos) :
    ∀ (n : Nat) (st : DecState) (vs : List Value) (st' : DecState),
      decodeList dv n st = .ok (vs, st') → st'.buf = st.buf ∧ st.pos ≤ st'.pos := by
  intro n
  induction n with
  | zero =>
    intro st vs st' h
    cases h
    exact ⟨rfl, Nat.le_refl _⟩
  | succ n ih =>
    intro st vs st' h
    simp only [decodeList] at h
    cases h1 : dv st with
    | error e => rw [h1] at h; exact Except.noConfusion h
    | ok r =>
      obtain ⟨v, st₁⟩ := r
      rw [h1] at h
      dsimp only at h
      cases h2 : decodeList dv n st₁ with
      | error e => rw [h2] at h; exact Except.noConfusion h
      | ok r₂ =>
        obtain ⟨vs₂, st₂⟩ := r₂
        rw [h2] at h
        cases h
        obtain ⟨hb1, hp1⟩ := hdv st v st₁ h1
        obtain ⟨hb2, hp2⟩ := ih st₁ vs₂ st' h2
        exact ⟨by rw [hb2, hb1], by omega⟩

theorem decodePairs_progress (dv : DecState → DecResult (Value × DecState))
    (hdv : ∀ st v st', dv st = .ok (v, st') → st'.buf = st.buf ∧ st.pos ≤ st'.pos) :
    ∀ (n : Nat) (st : DecState) (ps : List (Value × Value)) (st' : DecState),
      decodePairs dv n st = .ok (ps, st') → st'.buf = st.buf ∧ st.pos ≤ st'.pos := by
  intro n
  induction n with
  | zero =>
    intro st ps st' h
    cases h
    exact ⟨rfl, Nat.le_refl _⟩
  | succ n ih =>
    intro st ps st' h
    simp only [decodePairs] at h
    cases h1 : dv st with
    | error e => rw [h1] at h; exact Except.noConfusion h
    | ok r =>
      obtain ⟨k, st₁⟩ := r
      rw [h1] at h
      dsimp only at h
      cases h2 : dv st₁ with
      | error e => rw [h2] at h; exact Except.noConfusion h
      | ok r₂ =>
        obtain ⟨v, st₂⟩ := r₂
        rw [h2] at h
        dsimp only at h
        cases h3 : decodePairs dv n st₂ with
        | error e => rw [h3] at h; exact Except.noConfusion h
        | ok r₃ =>
          obtain ⟨ps₃, st₃⟩ := r₃
          rw [h3] at h
          cases h
          obtain ⟨hb1, hp1⟩ := hdv st k st₁ h1
          obtain ⟨hb2, hp2⟩ := hdv st₁ v st₂ h2
          obtain ⟨hb3, hp3⟩ := ih st₂ ps₃ st' h3
          exact ⟨by rw [hb3, hb2, hb1], by omega⟩

theorem decodeKeys_progress (dv : DecState → DecResult (Value × DecState))
    (hdv : ∀ st v st', dv st = .ok (v, st') → st'.buf = st.buf ∧ st.pos ≤ st'.pos) :
    ∀ (n : Nat) (st : DecState) (ks : List (List Nat)) (st' : DecState),
      decodeKeys dv n st = .ok (ks, st') → st'.buf = st.buf ∧ st.pos ≤ st'.pos := by
  intro n
  induction n with
  | zero =>
    intro st ks st' h
    cases h
    exact ⟨rfl, Nat.le_refl _⟩
  | succ n ih =>
    intro st ks st' h
    simp only [decodeKeys] at h
    cases h1 : dv st with
    | error e => rw [h1] at h; exact Except.noConfusion h
    | ok r =>
      obtain ⟨x, st₁⟩ := r
      rw [h1] at h
      cases x
      case symbol s =>
        dsimp only at h
        cases h2 : decodeKeys dv n st₁ with
        | error e => rw [h2] at h; exact Except.noConfusion h
        | ok r₂ =>
          obtain ⟨ks₂, st₂⟩ := r₂
          rw [h2] at h
          cases h
          obtain ⟨hb1, hp1⟩ := hdv st (.symbol s) st₁ h1
          obtain ⟨hb2, hp2⟩ := ih st₁ ks₂ st' h2
          exact ⟨by rw [hb2, hb1], by omega⟩
      all_goals exact Except.noConfusion h

theorem decodeFields_progress (dv : DecState → DecResult (Value × DecState))
    (hdv : ∀ st v st', dv st = .ok (v, st') → st'.buf = st.buf ∧ st.pos ≤ st'.pos) :
    ∀ (ks : List (List Nat)) (fields : List (List Nat × Value)) (st : DecState)
      (fs : List (List Nat × Value)) (st' : DecState),
      decodeFields dv ks fields st = .ok (fs, st') →
      st'.buf = st.buf ∧ st.pos ≤ st'.pos := by
  intro ks
  induction ks with
  | nil =>
    intro fields st fs st' h
    cases h
    exact ⟨rfl, Nat.le_refl _⟩
  | cons k ks' ih =>
    intro fields st fs st' h
    simp only [decodeFields] at h
    cases h1 : dv st with
    | error e => rw [h1] at h; exact Except.noConfusion h
    | ok r =>
      obtain ⟨v, st₁⟩ := r
      rw [h1] at h
      dsimp only at h
      obtain ⟨hb1, hp1⟩ := hdv st v st₁ h1
      obtain ⟨hb2, hp2⟩ := ih (mapInsert fields k v) st₁ fs st' h
      exact ⟨by rw [hb2, hb1], by omega⟩

theorem decode_progress (alloc : Nat → Bool) :
    ∀ (fuel : Nat) (st : DecState) (v : Value) (st' : DecState),
      decodeValue alloc fuel st = .ok (v, st') →
      st'.buf = st.buf ∧ st.pos < st'.pos := by
  intro fuel
  induction fuel with
  | zero => intro st v st' h; exact Except.noConfusion h
  | succ fuel ih =>
    intro st v st' h
    have ihle : ∀ st v st', decodeValue alloc fuel st = .ok (v, st') →
        st'.buf = st.buf ∧ st.pos ≤ st'.pos := fun st v st' hh =>
      ⟨(ih st v st' hh).1, Nat.le_of_lt (ih st v st' hh).2⟩
    simp only [decodeValue] at h
    cases hh : decodeHeader st with
    | error e => rw [hh] at h; exact Except.noConfusion h
    | ok r =>
      obtain ⟨hd, st₁⟩ := r
      rw [hh] at h
      obtain ⟨hb1, hp1, hs1, hpl⟩ := decodeHeader_progress hh
      cases hd with
      | Null => cases h; exact ⟨hb1, hp1⟩
      | True => cases h; exact ⟨hb1, hp1⟩
      | False => cases h; exact ⟨hb1, hp1⟩
      | Int s m => cases h; exact ⟨hb1, hp1⟩
      | F32 =>
        dsimp only at h
        cases h2 : decodeSlice 4 st₁ with
        | error e => rw [h2] at h; exact Except.noConfusion h
        | ok r₂ =>
          obtain ⟨bits, st₂⟩ := r₂
          rw [h2] at h
          cases h
          obtain ⟨hb2, hp2⟩ := decodeSlice_progress h2
          exact ⟨by rw [hb2, hb1], by omega⟩
      | F64 =>
        dsimp only at h
        cases h2 : decodeSlice 8 st₁ with
        | error e => rw [h2] at h; exact Except.noConfusion h
        | ok r₂ =>
          obtain ⟨bits, st₂⟩ := r₂
          rw [h2] at h
          cases h
          obtain ⟨hb2, hp2⟩ := decodeSlice_progress h2
          exact ⟨by rw [hb2, hb1], by omega⟩
      | Bin m =>
        dsimp only at h
        cases h2 : decodeSlice m st₁ with
        | error e => rw [h2] at h; exact Except.noConfusion h
        | ok r₂ =>
          obtain ⟨data, st₂⟩ := r₂
          rw [h2] at h
          cases h
          obtain ⟨hb2, hp2⟩ := decodeSlice_progress h2
          exact ⟨by rw [hb2, hb1], by omega⟩
      | Str m =>
        dsimp only at h
        cases h2 : decodeSlice m st₁ with
        | error e => rw [h2] at h; exact Except.noConfusion h
        | ok r₂ =>
          obtain ⟨s, st₂⟩ := r₂
          rw [h2] at h
          dsimp only at h
          obtain ⟨hb2, hp2⟩ := decodeSlice_progress h2
          split at h
          · cases h
            exact ⟨by rw [hb2, hb1], by omega⟩
          · exact Except.noConfusion h
      | Sym m =>
        dsimp only at h
        cases h2 : decodeSlice m st₁ with
        | error e => rw [h2] at h; exact Except.noConfusion h
        | ok r₂ =>
          obtain ⟨s, st₂⟩ := r₂
          rw [h2] at h
          dsimp only at h
          obtain ⟨hb2, hp2⟩ := decodeSlice_progress h2
          split at h
          · cases h
            exact ⟨by rw [hb2, hb1], by show st.pos < st₂.pos; omega⟩
          · exact Except.noConfusion h
      | Arr m =>
        dsimp only at h
        cases h3 : tryReserve alloc m st₁ with
        | error e => rw [h3] at h; exact Except.noConfusion h
        | ok u =>
          cases u
          rw [h3] at h
          dsimp only at h
          cases h4 : decodeList (decodeValue alloc fuel) m st₁ with
          | error e => rw [h4] at h; exact Except.noConfusion h
          | ok r₄ =>
            obtain ⟨elems, st₂⟩ := r₄
            rw [h4] at h
            cases h
            obtain ⟨hb4, hp4⟩ := decodeList_progress _ ihle m st₁ elems st' h4
            exact ⟨by rw [hb4, hb1], by omega⟩
      | Map m =>
        dsimp only at h
        cases h3 : tryReserve alloc m st₁ with
        | error e => rw [h3] at h; exact Except.noConfusion h
        | ok u =>
          cases u
          rw [h3] at h
          dsimp only at h
          cases h4 : decodePairs (decodeValue alloc fuel) m st₁ with
          | error e => rw [h4] at h; exact Except.noConfusion h
          | ok r₄ =>
            obtain ⟨pairs, st₂⟩ := r₄
            rw [h4] at h
            cases h
            obtain ⟨hb4, hp4⟩ := decodePairs_progress _ ihle m st₁ pairs st' h4
            exact ⟨by rw [hb4, hb1], by omega⟩
      | Rec m =>
        dsimp only at h
        cases h3 : tryReserve alloc m st₁ with
        | error e => rw [h3] at h; exact Except.noConfusion h
        | ok u =>
          cases u
          rw [h3] at h
          dsimp only at h
          cases h4 : decodeKeys (decodeValue alloc fuel) m st₁ with
          | error e => rw [h4] at h; exact Except.noConfusion h
          | ok r₄ =>
            obtain ⟨keys, st₂⟩ := r₄
            rw [h4] at h
            dsimp only at h
            cases h5 : decodeFields (decodeValue alloc fuel) keys []
                { st₂ with symbols := st₂.symbols ++ [.Rec keys] } with
            | error e => rw [h5] at h; exact Except.noConfusion h
            | ok r₅ =>
              obtain ⟨fs, st₃⟩ := r₅
              rw [h5] at h
              cases h
              obtain ⟨hb4, hp4⟩ := decodeKeys_progress _ ihle m st₁ keys st₂ h4
              obtain ⟨hb5, hp5⟩ := decodeFields_progress _ ihle keys []
                { st₂ with symbols := st₂.symbols ++ [.Rec keys] } fs st' h5
              dsimp only at hb5 hp5
              exact ⟨by rw [hb5, hb4, hb1], by omega⟩
      | Ref m =>
        dsimp only at h
        cases hg : st₁.symbols.get? m with
        | none => rw [hg] at h; exact Except.noConfusion h
        | some r2 =>
          rw [hg] at h
          cases r2 with
          | Sym s =>
            cases h
            exact ⟨hb1, hp1⟩
          | Rec layout =>
            dsimp only at h
            cases h5 : decodeFields (decodeValue alloc fuel) layout [] st₁ with
            | error e => rw [h5] at h; exact Except.noConfusion h
            | ok r₅ =>
              obtain ⟨fs, st₃⟩ := r₅
              rw [h5] at h
              cases h
              obtain ⟨hb5, hp5⟩ := decodeFields_progress _ ihle layout [] st₁ fs st' h5
              exact ⟨by rw [hb5, hb1], by omega⟩


theorem decodeList_congr (dv₁ dv₂ : DecState → DecResult (Value × DecState))
    (buf : List Nat) (p₀ : Nat)
    (hdv : ∀ st v st', dv₁ st = .ok (v, st') → st'.buf = st.buf ∧ st.pos ≤ st'.pos)
    (hag : ∀ st, st.buf = buf → p₀ ≤ st.pos → dv₁ st = dv₂ st) :
    ∀ (n : Nat) (st : DecState), st.buf = buf → p₀ ≤ st.pos →
      decodeList dv₁ n st = decodeList dv₂ n st := by
  intro n
  induction n with
  | zero => intro st _ _; rfl
  | succ n ih =>
    intro st hb hp
    simp only [decodeList]
    rw [← hag st hb hp]
    cases h1 : dv₁ st with
    | error e => rfl
    | ok r =>
      obtain ⟨v, st₁⟩ := r
      obtain ⟨hb1, hp1⟩ := hdv st v st₁ h1
      dsimp only
      rw [ih st₁ (by rw [hb1, hb]) (by omega)]

theorem decodePairs_congr (dv₁ dv₂ : DecState → DecResult (Value × DecState))
    (buf : List Nat) (p₀ : Nat)
    (hdv : ∀ st v st', dv₁ st = .ok (v, st') → st'.buf = st.buf ∧ st.pos ≤ st'.pos)
    (hag : ∀ st, st.buf = buf → p₀ ≤ st.pos → dv₁ st = dv₂ st) :
    ∀ (n : Nat) (st : DecState), st.buf = buf → p₀ ≤ st.pos →
      decodePairs dv₁ n st = decodePairs dv₂ n st := by
  intro n
  induction n with
  | zero => intro st _ _; rfl
  | succ n ih =>
    intro st hb hp
    simp only [decodePairs]
    rw [← hag st hb hp]
    cases h1 : dv₁ st with
    | error e => rfl
    | ok r =>
      obtain ⟨k, st₁⟩ := r
      obtain ⟨hb1, hp1⟩ := hdv st k st₁ h1
      dsimp only
      rw [← hag st₁ (by rw [hb1, hb]) (by omega)]
      cases h2 : dv₁ st₁ with
      | error e => rfl
      | ok r₂ =>
        obtain ⟨v, st₂⟩ := r₂
        obtain ⟨hb2, hp2⟩ := hdv st₁ v st₂ h2
        dsimp only
        rw [ih st₂ (by rw [hb2, hb1, hb]) (by omega)]

theorem decodeKeys_congr (dv₁ dv₂ : DecState → DecResult (Value × DecState))
    (buf : List Nat) (p₀ : Nat)
    (hdv : ∀ st v st', dv₁ st = .ok (v, st') → st'.buf = st.buf ∧ st.pos ≤ st'.pos)
    (hag : ∀ st, st.buf = buf → p₀ ≤ st.pos → dv₁ st = dv₂ st) :
    ∀ (n : Nat) (st : DecState), st.buf = buf → p₀ ≤ st.pos →
      decodeKeys dv₁ n st = decodeKeys dv₂ n st := by
  intro n
  induction n with
  | zero => intro st _ _; rfl
  | succ n ih =>
    intro st hb hp
    simp only [decodeKeys]
    rw [← hag st hb hp]
    cases h1 : dv₁ st with
    | error e => rfl
    | ok r =>
      obtain ⟨x, st₁⟩ := r
      obtain ⟨hb1, hp1⟩ := hdv st x st₁ h1
      cases x
      case symbol s =>
        dsimp only
        rw [ih st₁ (by rw [hb1, hb]) (by omega)]
      all_goals rfl

theorem decodeFields_congr (dv₁ dv₂ : DecState → DecResult (Value × DecState))
    (buf : List Nat) (p₀ : Nat)
    (hdv : ∀ st v st', dv₁ st = .ok (v, st') → st'.buf = st.buf ∧ st.pos ≤ st'.pos)
    (hag : ∀ st, st.buf = buf → p₀ ≤ st.pos → dv₁ st = dv₂ st) :
    ∀ (ks : List (List Nat)) (fields : List (List Nat × Value)) (st : DecState),
      st.buf = buf → p₀ ≤ st.pos →
      decodeFields dv₁ ks fields st = decodeFields dv₂ ks fields st := by
  intro ks
  induction ks with
  | nil => intro fields st _ _; rfl
  | cons k ks' ih =>
    intro fields st hb hp
    simp only [decodeFields]
    rw [← hag st hb hp]
    cases h1 : dv₁ st with
    | error e => rfl
    | ok r =>
      obtain ⟨v, st₁⟩ := r
      obtain ⟨hb1, hp1⟩ := hdv st v st₁ h1
      dsimp only
      rw [ih (mapInsert fields k v) st₁ (by rw [hb1, hb]) (by omega)]

theorem decode_fuel_canon (alloc : Nat → Bool) :
    ∀ (fuel : Nat) (st : DecState), st.buf.length - st.pos < fuel →
      decodeValue alloc fuel st =
        decodeValue alloc (st.buf.length - st.pos + 1) st := by
  intro fuel
  induction fuel using Nat.strong_induction_on with
  | _ fuel ih =>
    intro st hbound
    cases fuel with
    | zero => omega
    | succ f =>
      simp only [decodeValue]
      cases hh : decodeHeader st with
      | error e => rfl
      | ok r =>
        obtain ⟨hd, st₁⟩ := r
        obtain ⟨hb1, hp1, hs1, hpl⟩ := decodeHeader_progress hh
        have hag : ∀ st2, st2.buf = st.buf → st₁.pos ≤ st2.pos →
            decodeValue alloc f st2 =
              decodeValue alloc (st.buf.length - st.pos) st2 := by
          intro st2 hb2 hp2
          have hlt1 : st2.buf.length - st2.pos < f := by
            rw [hb2]; omega
          have hlt2 : st2.buf.length - st2.pos < st.buf.length - st.pos := by
            rw [hb2]; omega
          rw [ih f (by omega) st2 hlt1,
            ih (st.buf.length - st.pos) (by omega) st2 hlt2]
        have hprog : ∀ st2 v st', decodeValue alloc f st2 = .ok (v, st') →
            st'.buf = st2.buf ∧ st2.pos ≤ st'.pos :=
          fun st2 v st' hh2 => ⟨(decode_progress alloc f st2 v st' hh2).1,
            Nat.le_of_lt (decode_progress alloc f st2 v st' hh2).2⟩
        cases hd with
        | Null => rfl
        | True => rfl
        | False => rfl
        | Int s m => rfl
        | F32 => rfl
        | F64 => rfl
        | Bin m => rfl
        | Str m => rfl
        | Sym m => rfl
        | Arr m =>
          dsimp only
          cases h3 : tryReserve alloc m st₁ with
          | error e => rfl
          | ok u =>
            cases u
            dsimp only
            rw [decodeList_congr (decodeValue alloc f)
              (decodeValue alloc (st.buf.length - st.pos)) st.buf st₁.pos hprog hag
              m st₁ hb1 (Nat.le_refl _)]
        | Map m =>
          dsimp only
          cases h3 : tryReserve alloc m st₁ with
          | error e => rfl
          | ok u =>
            cases u
            dsimp only
            rw [decodePairs_congr (decodeValue alloc f)
              (decodeValue alloc (st.buf.length - st.pos)) st.buf st₁.pos hprog hag
              m st₁ hb1 (Nat.le_refl _)]
        | Rec m =>
          dsimp only
          cases h3 : tryReserve alloc m st₁ with
          | error e => rfl
          | ok u =>
            cases u
            dsimp only
            rw [decodeKeys_congr (decodeValue alloc f)
              (decodeValue alloc (st.buf.length - st.pos)) st.buf st₁.pos hprog hag
              m st₁ hb1 (Nat.le_refl _)]
            cases h4 : decodeKeys (decodeValue alloc (st.buf.length - st.pos)) m st₁ with
            | error e => rfl
            | ok r₄ =>
              obtain ⟨keys, st₂⟩ := r₄
              dsimp only
              have hprog2 : ∀ st2 v st',
                  decodeValue alloc (st.buf.length - st.pos) st2 = .ok (v, st') →
                  st'.buf = st2.buf ∧ st2.pos ≤ st'.pos :=
                fun st2 v st' hh2 =>
                  ⟨(decode_progress alloc _ st2 v st' hh2).1,
                    Nat.le_of_lt (decode_progress alloc _ st2 v st' hh2).2⟩
              obtain ⟨hb4, hp4⟩ := decodeKeys_progress _ hprog2 m st₁ keys st₂ h4
              rw [decodeFields_congr (decodeValue alloc f)
                (decodeValue alloc (st.buf.length - st.pos)) st.buf st₁.pos hprog hag
                keys [] { st₂ with symbols := st₂.symbols ++ [.Rec keys] }
                (by show st₂.buf = st.buf; rw [hb4, hb1])
                (by show st₁.pos ≤ st₂.pos; omega)]
        | Ref m =>
          dsimp only
          cases hg : st₁.symbols.get? m with
          | none => rfl
          | some r2 =>
            cases r2 with
            | Sym s => rfl
            | Rec layout =>
              dsimp only
              rw [decodeFields_congr (decodeValue alloc f)
                (decodeValue alloc (st.buf.length - st.pos)) st.buf st₁.pos hprog hag
                layout [] st₁ hb1 (Nat.le_refl _)]

/-- Any two sufficient fuels give the same decoding result: the recursion of
`decode_value` always terminates within `buf.length - pos` nested steps. -/
theorem decode_fuel_eq (alloc : Nat → Bool) (fuel₁ fuel₂ : Nat) (st : DecState)
    (h₁ : st.buf.length - st.pos < fuel₁) (h₂ : st.buf.length - st.pos < fuel₂) :
    decodeValue alloc fuel₁ st = decodeValue alloc fuel₂ st := by
  rw [decode_fuel_canon alloc fuel₁ st h₁, decode_fuel_canon alloc fuel₂ st h₂]


/-- C7.  Decoder totality and bounded allocation.
(1) Fuel-insensitivity: any two fuels exceeding the remaining buffer length
give the same result — the recursion always terminates within a bounded
depth, never panicking, and in particular (2) the entry point's
`buf.length + 1` fuel is as good as any larger one, on every input buffer
(including every 1–9-byte prefix).  (3) `Decoder::decode` always returns
either a `(value, consumed)` pair or an error.  (4) Bounded allocation: a
container header whose capacity reservation fails surfaces as an
`Allocation` error at the position after the header, on any allocator
oracle and any fuel. -/
theorem C7_decoder_totality :
    (∀ (alloc : Nat → Bool) (fuel₁ fuel₂ : Nat) (st : DecState),
      st.buf.length - st.pos < fuel₁ → st.buf.length - st.pos < fuel₂ →
      decodeValue alloc fuel₁ st = decodeValue alloc fuel₂ st) ∧
    (∀ (buf : List Nat) (fuel : Nat), buf.length < fuel →
      decodeValue (fun _ => Bool.true) fuel ⟨buf, 0, []⟩ =
        decodeValue (fun _ => Bool.true) (buf.length + 1) ⟨buf, 0, []⟩) ∧
    (∀ buf, (∃ v c, Decoder.decode buf = .ok (v, c)) ∨
      ∃ e, Decoder.decode buf = .error e) ∧
    (∀ (alloc : Nat → Bool) (fuel : Nat) (st st₁ : DecState) (n : Nat) (h : Header),
      decodeHeader st = .ok (h, st₁) →
      (h = .Arr n ∨ h = .Map n ∨ h = .Rec n) → alloc n = Bool.false →
      decodeValue alloc (fuel + 1) st = .error (.allocation, st₁.pos)) := by
  refine ⟨decode_fuel_eq, ?_, ?_, ?_⟩
  · intro buf fuel hf
    exact decode_fuel_eq (fun _ => Bool.true) fuel (buf.length + 1) ⟨buf, 0, []⟩
      (by show buf.length - 0 < fuel; omega)
      (by show buf.length - 0 < buf.length + 1; omega)
  · intro buf
    cases hd : Decoder.decode buf with
    | ok r => obtain ⟨v, c⟩ := r; exact Or.inl ⟨v, c, rfl⟩
    | error e => exact Or.inr ⟨e, rfl⟩
  · intro alloc fuel st st₁ n h hh hcon halloc
    have hres : tryReserve alloc n st₁ = .error (.allocation, st₁.pos) := by
      simp [tryReserve, halloc]
    rcases hcon with rfl | rfl | rfl <;>
      simp only [decodeValue, hh, hres]

/-- Witness for C7: on the repository's `inefficient_encoding`-style buffer
`[0x99, 0x01]` (a truncated long `Arr` header) every sufficient fuel agrees
with the canonical `length + 1` fuel; and a failing reservation for
`Arr(2)` surfaces as `Allocation` at offset 1. -/
theorem C7_decoder_totality_witness :
    decodeValue (fun _ => Bool.true) 100 ⟨[153, 1], 0, []⟩ =
      decodeValue (fun _ => Bool.true) 3 ⟨[153, 1], 0, []⟩ ∧
    decodeValue (fun _ => Bool.false) 5 ⟨[130, 0, 0], 0, []⟩ =
      .error (.allocation, 1) :=
  ⟨C7_decoder_totality.2.1 [153, 1] 100 (by decide),
   C7_decoder_totality.2.2.2 (fun _ => Bool.false) 4
     ⟨[130, 0, 0], 0, []⟩ ⟨[130, 0, 0], 1, []⟩ 2 (.Arr 2) rfl (Or.inl rfl) rfl⟩

end Nachricht
